import Mathlib

/-!
nxs-go-fsm: a streaming, state-machine-driven byte rewriter

A shallow embedding of `switch.go`, `state.go` and `fsm.go`, followed by the
properties proved about it.

Conventions of the embedding

* a Go `[]byte` is a `List Byte`; a Go `int` that can hold the sentinel `-1`
  is an `Int`, loop counters and lengths are `Nat`;
* the fixed read buffer `fsm.src` is a list of constant length (4096 after
  `Init`), addressed through `src0`/`src1` exactly as in the source;
* a `bytes.Buffer` is the list of its unread bytes;
* the `for` loops of the source are structural recursions on a fuel argument;
  the theorems show that the fuel handed over is always sufficient;
* the underlying `io.Reader` and the user handlers are the environment: a
  reader is a script of read results, a handler is a function;
* the exported `FSM.Read` runs the engine loop `read` and hands its result
  over unless the context is done first; the development follows `read`, that
  is, a context that is never cancelled.
-/

namespace Fsm

abbrev Byte := UInt8

/-! ## Standard-library helpers used by the source -/

/-- Position of the first instance of `sep` in `s`, if there is one. -/
def firstIndex (sep : List Byte) : List Byte → Option Nat
  | [] => if sep.isPrefixOf [] then some 0 else none
  | b :: s =>
    if sep.isPrefixOf (b :: s) then some 0
    else (firstIndex sep s).map (· + 1)

/-- Go `bytes.Index(s, sep)`: the index of the first instance of `sep` in `s`,
or `-1` if `sep` is not present in `s`. -/
def bytesIndex (s sep : List Byte) : Int :=
  match firstIndex sep s with
  | some k => (k : Int)
  | none => -1

/-- Go slice expression `a[lo:hi]`. -/
def slice (a : List Byte) (lo hi : Nat) : List Byte :=
  (a.take hi).drop lo

/-- Go `copy(dst[off:], data)`: the updated array and the number of bytes
copied, `min(len(dst[off:]), len(data))`. -/
def copyInto (dst : List Byte) (off : Nat) (data : List Byte) : List Byte × Nat :=
  let n := min (dst.length - off) data.length
  (dst.take off ++ data.take n ++ dst.drop (off + n), n)

/-- Go errors: `io.EOF`, any other error value, and `fmt.Errorf("msg: %w", e)`. -/
inductive GoError where
  | EOF : GoError
  | other (id : Nat) : GoError
  | wrap (msg : String) (inner : GoError) : GoError
  deriving DecidableEq, Repr

/-- Go `errors.Unwrap`. -/
def GoError.unwrap : GoError → Option GoError
  | .wrap _ e => some e
  | _ => none

/-- Go `errors.Is(err, target)` for comparable error values. -/
def GoError.is : GoError → GoError → Bool
  | .wrap m e, t => decide (GoError.wrap m e = t) || GoError.is e t
  | e, t => decide (e = t)

/-! ## switch.go -/

structure Delimiters where
  L : List Byte
  R : List Byte
  deriving DecidableEq, Repr

structure Switch where
  Trigger : List Byte
  Delimiters : Delimiters
  Escape : Bool
  deriving DecidableEq, Repr

/-- The escape byte, a backslash. -/
def escByte : Byte := 92

/-- Loop of `escapesCount`, walking the reversed slice: count until the first
byte that is not an escape. -/
def escapesCountRev : List Byte → Nat
  | [] => 0
  | b :: rest => if b = escByte then escapesCountRev rest + 1 else 0

/-- Go `escapesCount(b)`: the count of continuous escape bytes at the end of `b`. -/
def escapesCount (b : List Byte) : Nat :=
  escapesCountRev b.reverse

/-- The range loop `for _, d := range set { if c == d { return true } }; return false`
on an indexed byte. -/
def byteIn (c : Option Byte) (set : List Byte) : Bool :=
  match c with
  | some c => set.contains c
  | none => false

/-- Closure of `Switch.index` lines 34-56: the left-delimiter condition at `i`. -/
def Switch.leftOk (s : Switch) (buf prevSrc : List Byte) (i : Nat) : Bool :=
  if i = 0 then
    if prevSrc.length = 0 then true
    else byteIn prevSrc[prevSrc.length - 1]? s.Delimiters.L
  else byteIn buf[i - 1]? s.Delimiters.L

/-- Closure of `Switch.index` lines 63-80: the right-delimiter condition at `i`. -/
def Switch.rightOk (s : Switch) (buf : List Byte) (isEOF : Bool) (i : Nat) : Bool :=
  if i + s.Trigger.length = buf.length then
    if isEOF = true then true else false
  else byteIn buf[i + s.Trigger.length]? s.Delimiters.R

/-- Closure of `Switch.index` lines 89-101: true when the sequence found at `i`
is escaped. -/
def Switch.escaped (buf : List Byte) (prevEscs : Int) (i : Nat) : Bool :=
  let ec : Int := (escapesCount (buf.take i) : Int)
  let ec : Int := if ((buf.take i).length : Int) - ec = 0 then ec + prevEscs else ec
  if Int.tmod ec 2 = 0 then false else true

/-- The `for i := 0; i < len(buf); i++` loop of `Switch.index`, entered with
loop variable `i0`. -/
def Switch.indexLoop (s : Switch) (buf prevSrc : List Byte) (prevEscs : Int) (isEOF : Bool) :
    Nat → Nat → Int
  | 0, _ => -1
  | fuel + 1, i0 =>
    if i0 < buf.length then
      let k := bytesIndex (buf.drop i0) s.Trigger
      if k < 0 then -1
      else
        let i := i0 + k.toNat
        if (decide (s.Delimiters.L.length > 0) && !s.leftOk buf prevSrc i) then
          s.indexLoop buf prevSrc prevEscs isEOF fuel (i + 1)
        else if (decide (s.Delimiters.R.length > 0) && !s.rightOk buf isEOF i) then
          s.indexLoop buf prevSrc prevEscs isEOF fuel (i + 1)
        else if (s.Escape && Switch.escaped buf prevEscs i) then
          s.indexLoop buf prevSrc prevEscs isEOF fuel (i + 1)
        else (i : Int)
    else -1

/-- Go `Switch.index`: the index of the first instance of the trigger
considering delimiters and escapes, or `-1`. The loop variable grows by at
least one per iteration, so `len(buf)` iterations always suffice. -/
def Switch.index (s : Switch) (buf prevSrc : List Byte) (prevEscs : Int) (isEOF : Bool) : Int :=
  s.indexLoop buf prevSrc prevEscs isEOF buf.length 0

/-! ## state.go -/

abbrev StateName := String

/-- The opaque user context handed to every handler. -/
abbrev UserCtx := Nat

/-- Go `func(any, []byte, []byte) ([]byte, error)`. -/
abbrev Handler := UserCtx → List Byte → List Byte → List Byte × Option GoError

structure NextState where
  Name : StateName
  Switch : Switch
  DataHandler : Option Handler

structure State where
  NextStates : List NextState

/-- Go zero value `NextState{}`. -/
def NextState.zero : NextState :=
  { Name := "", Switch := { Trigger := [], Delimiters := { L := [], R := [] }, Escape := false },
    DataHandler := none }

/-- Body of the range loop of `State.index`. -/
def State.indexStep (buf prevSrc : List Byte) (prevEscs : Int) (isEOF : Bool)
    (nsMin : Int × NextState) (ns : NextState) : Int × NextState :=
  let i := ns.Switch.index buf prevSrc prevEscs isEOF
  if i ≥ 0 then
    if nsMin.1 = -1 ∨ (nsMin.1 > 0 ∧ i < nsMin.1) then (i, ns) else nsMin
  else nsMin

/-- Go `State.index`: the minimal index among the triggers of the state and
the transition that attains it. -/
def State.index (s : State) (buf prevSrc : List Byte) (prevEscs : Int) (isEOF : Bool) :
    Int × NextState :=
  s.NextStates.foldl (State.indexStep buf prevSrc prevEscs isEOF) (-1, NextState.zero)

/-- Go `State.skipMaxLen`. -/
def State.skipMaxLen (s : State) : Nat :=
  s.NextStates.foldl (fun ll ns =>
    let l := ns.Switch.Trigger.length
    let l := if ns.Switch.Delimiters.L.length > 0 then l + 1 else l
    let l := if ns.Switch.Delimiters.R.length > 0 then l + 1 else l
    if l > ll then l else ll) 0

/-! ## The underlying source

The reader handed to `Init` is the environment of the engine. It is modelled
as a script: each entry is what the next `Read(p)` call has to offer. A read
never delivers more than `len(p)` bytes; what does not fit stays on offer. An
exhausted script answers `0, io.EOF`. -/

inductive ReadEvent where
  /-- bytes delivered with a nil error -/
  | data (bs : List Byte) : ReadEvent
  /-- bytes delivered together with `io.EOF` -/
  | dataEOF (bs : List Byte) : ReadEvent
  /-- a read failing with the given error -/
  | fail (e : GoError) : ReadEvent
  /-- bytes delivered together with the given error -/
  | dataFail (bs : List Byte) (e : GoError) : ReadEvent
  deriving DecidableEq, Repr

abbrev Reader := List ReadEvent

/-- One call `r.Read(p)` with `len(p) = plen`: the bytes written to the front
of `p`, the error, and the reader afterwards. -/
def Reader.Read (r : Reader) (plen : Nat) : List Byte × Option GoError × Reader :=
  match r with
  | [] => ([], some GoError.EOF, [])
  | .data bs :: rest =>
    if bs.length ≤ plen then (bs, none, rest)
    else (bs.take plen, none, .data (bs.drop plen) :: rest)
  | .dataEOF bs :: rest =>
    if bs.length ≤ plen then (bs, some GoError.EOF, rest)
    else (bs.take plen, none, .dataEOF (bs.drop plen) :: rest)
  | .fail e :: rest => ([], some e, rest)
  | .dataFail bs e :: rest =>
    if bs.length ≤ plen then (bs, some e, rest)
    else (bs.take plen, none, .dataFail (bs.drop plen) e :: rest)

/-! ## fsm.go -/

/-- A match found by the engine loop, recorded for the proofs only: the stream
offset of the trigger, the transition, and the deferred bytes handed to the
handler when the transition has one. -/
structure Fired where
  pos : Nat
  name : StateName
  trigger : List Byte
  deferred : Option (List Byte)
  deriving DecidableEq, Repr

structure FSM where
  curState : StateName
  states : StateName → State
  userCtx : UserCtx
  deferredBuf : List Byte
  dst : List Byte
  src : List Byte
  src0 : Nat
  src1 : Nat
  prevSrc : List Byte
  prevSrcL : Nat
  prevEscs : Int
  isEOF : Bool
  r : Reader
  /-- ghost: number of stream bytes already discarded from the window -/
  ghostPos : Nat
  /-- ghost: the matches found so far, oldest first -/
  ghostLog : List Fired

structure Description where
  UserCtx : UserCtx
  States : StateName → State
  InitState : StateName

/-- Go `Init`. A Go map lookup of a missing key yields the zero `State`, so
the state table is a total function. -/
def Init (r : Reader) (desc : Description) : FSM :=
  { curState := desc.InitState
    states := desc.States
    userCtx := desc.UserCtx
    deferredBuf := []
    dst := []
    src := List.replicate 4096 0
    src0 := 0
    src1 := 0
    prevSrc := List.replicate 1 0
    prevSrcL := 0
    prevEscs := 0
    isEOF := false
    r := r
    ghostPos := 0
    ghostLog := [] }

/-- What one pass through the body of the `for` loop of `read` ends with: a
`return` (the bytes put into the caller's buffer and the error), or the next
iteration. -/
inductive Outcome where
  | ret (p : List Byte) (err : Option GoError) (fsm : FSM) : Outcome
  | again (fsm : FSM) : Outcome

/-- Go `FSM.stateSwitch`. -/
def FSM.stateSwitch (fsm : FSM) (newState : StateName) : FSM :=
  { fsm with curState := newState }

/-- Go `FSM.writeOutBuf`: writes the data either to the deferred buffer or to
the output buffer; returns the number of bytes written. -/
def FSM.writeOutBuf (fsm : FSM) (d : List Byte) : FSM × Nat :=
  let cs := fsm.states fsm.curState
  if cs.NextStates.any (fun s => s.DataHandler.isSome) then
    ({ fsm with deferredBuf := fsm.deferredBuf ++ d }, d.length)
  else
    ({ fsm with dst := fsm.dst ++ d }, d.length)

/-- Line 107 of `read`: `append(fsm.prevSrc[:fsm.prevSrcL], fsm.src[:fsm.src0]...)`.
The result is the local `prevSrc`; `append` also writes the appended bytes
into the backing array of `fsm.prevSrc` when the result fits its capacity. -/
def FSM.prepPrevSrc (fsm : FSM) : FSM × List Byte :=
  let prevSrc := fsm.prevSrc.take fsm.prevSrcL ++ fsm.src.take fsm.src0
  (if prevSrc.length ≤ fsm.prevSrc.length
    then { fsm with prevSrc := prevSrc ++ fsm.prevSrc.drop prevSrc.length }
    else fsm, prevSrc)

/-- Lines 104-168 of `read`, taken when the window is not empty: run the
matcher and route the bytes. `again` means falling through to line 170. -/
def FSM.matchPhase (fsm : FSM) (state : State) : Outcome :=
  let (fsm, prevSrc) := fsm.prepPrevSrc
  let (i, ns) := state.index (slice fsm.src fsm.src0 fsm.src1) prevSrc fsm.prevEscs fsm.isEOF
  if i ≥ 0 then
    let pos := fsm.ghostPos + fsm.src0 + i.toNat
    let (fsm, n) := fsm.writeOutBuf (slice fsm.src fsm.src0 (fsm.src0 + i.toNat))
    let fsm := { fsm with ghostLog := fsm.ghostLog ++
      [Fired.mk pos ns.Name ns.Switch.Trigger (ns.DataHandler.map (fun _ => fsm.deferredBuf))] }
    let fsm := { fsm with src0 := fsm.src0 + n }
    match ns.DataHandler with
    | none =>
      let fsm := { fsm with dst := fsm.dst ++ fsm.deferredBuf }
      let fsm := { fsm with deferredBuf := [] }
      let fsm := { fsm with dst := fsm.dst ++ ns.Switch.Trigger }
      let fsm := { fsm with src0 := fsm.src0 + ns.Switch.Trigger.length }
      .again (fsm.stateSwitch ns.Name)
    | some h =>
      match h fsm.userCtx fsm.deferredBuf ns.Switch.Trigger with
      | (_, some err) => .ret [] (some (GoError.wrap "fsm read data handler" err)) fsm
      | (d, none) =>
        let fsm := { fsm with deferredBuf := [] }
        let fsm := { fsm with src0 := fsm.src0 + ns.Switch.Trigger.length }
        let fsm := { fsm with dst := fsm.dst ++ d }
        .again (fsm.stateSwitch ns.Name)
  else
    let skip : Int := ((slice fsm.src fsm.src0 fsm.src1).length : Int)
    let ml := state.skipMaxLen
    let skip : Int := if fsm.isEOF = false ∧ ml > 0 then skip - (ml : Int) + 1 else skip
    if skip > 0 then
      let (fsm, n) := fsm.writeOutBuf (slice fsm.src fsm.src0 (fsm.src0 + skip.toNat))
      .again { fsm with src0 := fsm.src0 + n }
    else .again fsm

/-- Lines 176-201 of `read`: keep the last bytes of the discarded span `src`
in `fsm.prevSrc`. -/
def FSM.savePrev (fsm : FSM) (src : List Byte) : FSM :=
  let ls := src.length
  let lm := fsm.prevSrc.length
  if ls > lm then
    let (a, n) := copyInto fsm.prevSrc 0 (src.drop (ls - lm))
    { fsm with prevSrc := a, prevSrcL := n }
  else
    let lr := lm - ls
    let fsm := if fsm.prevSrcL > lr then
        let (a, n) := copyInto fsm.prevSrc 0 (slice fsm.prevSrc (fsm.prevSrcL - lr) fsm.prevSrcL)
        { fsm with prevSrc := a, prevSrcL := n }
      else fsm
    let (a, n) := copyInto fsm.prevSrc fsm.prevSrcL src
    { fsm with prevSrc := a, prevSrcL := fsm.prevSrcL + n }

/-- Lines 170-204 of `read`: copy the bytes left in the source buffer to its
beginning, after saving the escape count and the tail of the discarded span. -/
def FSM.compact (fsm : FSM) : FSM :=
  if fsm.src0 > 0 then
    let fsm := { fsm with prevEscs := (escapesCount (fsm.src.take fsm.src0) : Int) }
    let fsm := fsm.savePrev (fsm.src.take fsm.src0)
    let (a, n) := copyInto fsm.src 0 (slice fsm.src fsm.src0 fsm.src1)
    { fsm with src := a, src0 := 0, src1 := n, ghostPos := fsm.ghostPos + fsm.src0 }
  else fsm

/-- Lines 206-225 of `read`: read from the source into `fsm.src[fsm.src1:]`. -/
def FSM.pull (fsm : FSM) : Outcome :=
  match Reader.Read fsm.r (fsm.src.length - fsm.src1) with
  | (bs, err, r) =>
    let fsm := { fsm with r := r, src := (copyInto fsm.src fsm.src1 bs).1 }
    let n := bs.length
    match err with
    | some GoError.EOF =>
      let fsm := { fsm with isEOF := true }
      let fsm := if fsm.src1 - fsm.src0 = 0 then
          { fsm with dst := fsm.dst ++ fsm.deferredBuf, deferredBuf := [] }
        else fsm
      if fsm.dst.length = 0 ∧ fsm.src1 - fsm.src0 = 0 then .ret [] (some GoError.EOF) fsm
      else .again { fsm with src1 := fsm.src1 + n }
    | some e => .ret [] (some e) fsm
    | none => .again { fsm with src1 := fsm.src1 + n }

/-- One pass through the body of the `for` loop of `read`, the caller's
buffer having `dstLen` bytes. -/
def FSM.iter (fsm : FSM) (dstLen : Nat) : Outcome :=
  let state := fsm.states fsm.curState
  if fsm.dst.length > 0 then
    .ret (fsm.dst.take dstLen) none { fsm with dst := fsm.dst.drop dstLen }
  else
    match (if fsm.src1 - fsm.src0 > 0 then fsm.matchPhase state else .again fsm) with
    | .ret p e f => .ret p e f
    | .again f => f.compact.pull

/-- Go `FSM.read(dst)` with `len(dst) = dstLen`, the loop bounded by `fuel`
iterations: `none` when the loop has not returned within the bound. -/
def FSM.read (fsm : FSM) (dstLen : Nat) : Nat → Option (List Byte × Option GoError × FSM)
  | 0 => none
  | fuel + 1 =>
    match fsm.iter dstLen with
    | .ret p e f => some (p, e, f)
    | .again f => f.read dstLen fuel

/-- A consumer that calls `read` with a `dstLen`-byte buffer again and again
until a call returns an error (`io.EOF` included), collecting the bytes
returned. `read` is itself a loop over `iter`, so the two loops are one loop
over `iter`, bounded by `fuel` iterations in total. The result is the
concatenation of the bytes returned, the final error and the final engine. -/
def FSM.readAll (dstLen : Nat) : Nat → FSM → List Byte → Option (List Byte × GoError × FSM)
  | 0, _, _ => none
  | fuel + 1, fsm, out =>
    match fsm.iter dstLen with
    | .again f => FSM.readAll dstLen fuel f out
    | .ret p none f => FSM.readAll dstLen fuel f (out ++ p)
    | .ret p (some e) f => some (out ++ p, e, f)


/-- Go `DataHandlerGenericVoid`: skips the data (deferred and token) read. -/
def DataHandlerGenericVoid : Handler :=
  fun _ _ _ => ([], none)

/-- Go `DataHandlerGenericSkipToken`. -/
def DataHandlerGenericSkipToken : Handler :=
  fun _ deferred _ => (deferred, none)

/-- Go `DataHandlerGenericSkipDeferred`. -/
def DataHandlerGenericSkipDeferred : Handler :=
  fun _ deferred _ => (deferred, none)

/-- What a finished run shows: the bytes returned, the final error and the
matches found. -/
def FSM.observe (res : Option (List Byte × GoError × FSM)) :
    Option (List Byte × GoError × List Fired) :=
  res.map (fun x => (x.1, x.2.1, x.2.2.ghostLog))


/-! ## The matcher: what the specification asks of an occurrence -/

/-- The trigger occurs at offset `i` of the window: `buf[i:i+len(trigger)]`
equals the trigger. -/
def OccursAt (trig buf : List Byte) (i : Nat) : Prop :=
  slice buf i (i + trig.length) = trig

/-- Left-delimiter condition as the specification words it: the byte
immediately before `i` is in the set; at `i = 0` that byte is the last of the
tail bytes, and with no tail bytes (start of stream) the condition holds. -/
def LeftDelimOk (L buf prevSrc : List Byte) (i : Nat) : Prop :=
  (i = 0 ∧ prevSrc = []) ∨
  (i = 0 ∧ ∃ c, prevSrc.getLast? = some c ∧ c ∈ L) ∨
  (0 < i ∧ ∃ c, buf[i - 1]? = some c ∧ c ∈ L)

/-- Right-delimiter condition as the specification words it: the byte
immediately after the trigger is in the set; a trigger ending exactly at the
end of the window passes only at end of stream. -/
def RightDelimOk (R trig buf : List Byte) (isEOF : Bool) (i : Nat) : Prop :=
  (i + trig.length = buf.length ∧ isEOF = true) ∨
  (∃ c, buf[i + trig.length]? = some c ∧ c ∈ R)

/-- The run of contiguous escape bytes immediately preceding offset `i` inside
the window has length `r`. -/
def EscRunBefore (buf : List Byte) (i r : Nat) : Prop :=
  r ≤ i ∧ (∀ j, i - r ≤ j → j < i → buf[j]? = some escByte) ∧
    (r < i → buf[i - r - 1]? ≠ some escByte)

/-- The total escape count before `i` is `t`: the local run, plus the carried
count when the local run reaches the window start. -/
def TotalEscapes (buf : List Byte) (prevEscs : Int) (i : Nat) (t : Int) : Prop :=
  ∃ r, EscRunBefore buf i r ∧ t = if r = i then (r : Int) + prevEscs else (r : Int)

/-- Escape condition: the total escape count before `i` is even. -/
def EscapeOk (buf : List Byte) (prevEscs : Int) (i : Nat) : Prop :=
  ∃ t, TotalEscapes buf prevEscs i t ∧ Even t

/-- An occurrence at `i` that passes every configured check. -/
def Switch.Qualifies (s : Switch) (buf prevSrc : List Byte) (prevEscs : Int) (isEOF : Bool)
    (i : Nat) : Prop :=
  OccursAt s.Trigger buf i ∧
  (s.Delimiters.L ≠ [] → LeftDelimOk s.Delimiters.L buf prevSrc i) ∧
  (s.Delimiters.R ≠ [] → RightDelimOk s.Delimiters.R s.Trigger buf isEOF i) ∧
  (s.Escape = true → EscapeOk buf prevEscs i)

/-- The three configured checks of `Switch.index`, as the code evaluates them
at a found instance `i`. -/
def Switch.passes (s : Switch) (buf prevSrc : List Byte) (prevEscs : Int) (isEOF : Bool)
    (i : Nat) : Bool :=
  !(decide (s.Delimiters.L.length > 0) && !s.leftOk buf prevSrc i) &&
  !(decide (s.Delimiters.R.length > 0) && !s.rightOk buf isEOF i) &&
  !(s.Escape && Switch.escaped buf prevEscs i)

/-- What the range loop of `State.index` has established after the
transitions `pre`: nothing found so far, or the first transition of `pre`
that attains the least non-negative result. -/
def SelInv (res : NextState → Int) (pre : List NextState) (acc : Int × NextState) : Prop :=
  (acc.1 = -1 ∧ ∀ ns ∈ pre, res ns < 0) ∨
  (∃ (k : Nat) (x : NextState), pre[k]? = some x ∧ acc = (res x, x) ∧ 0 ≤ res x ∧
    (∀ ns ∈ pre, 0 ≤ res ns → res x ≤ res ns) ∧
    ∀ (j : Nat) (y : NextState), j < k → pre[j]? = some y → res y ≠ res x)

/-! ## Names for what the engine loop looks at -/

/-- The window `fsm.src[fsm.src0:fsm.src1]` handed to the matcher. -/
def FSM.window (fsm : FSM) : List Byte :=
  slice fsm.src fsm.src0 fsm.src1

/-- The local `prevSrc` of line 107. -/
def FSM.tailBytes (fsm : FSM) : List Byte :=
  fsm.prevSrc.take fsm.prevSrcL ++ fsm.src.take fsm.src0

/-- The matcher call of line 109 on the current engine. -/
def FSM.select (fsm : FSM) : Int × NextState :=
  (fsm.states fsm.curState).index fsm.window fsm.tailBytes fsm.prevEscs fsm.isEOF

/-- The test of `writeOutBuf`: some transition of the current state has a
handler. -/
def FSM.hasHandler (fsm : FSM) : Bool :=
  (fsm.states fsm.curState).NextStates.any (fun s => s.DataHandler.isSome)

/-- What the proofs about the engine loop observe of an engine: the table, the
buffers, the window as a list, the reader and the ghost fields. The carried
tail bytes and escape count only reach the matcher. -/
structure View where
  states : StateName → State
  userCtx : UserCtx
  cap : Nat
  curState : StateName
  deferredBuf : List Byte
  dst : List Byte
  win : List Byte
  isEOF : Bool
  r : Reader
  pos : Nat
  log : List Fired

/-- The view of an engine. -/
def FSM.view (fsm : FSM) : View :=
  { states := fsm.states
    userCtx := fsm.userCtx
    cap := fsm.src.length
    curState := fsm.curState
    deferredBuf := fsm.deferredBuf
    dst := fsm.dst
    win := fsm.window
    isEOF := fsm.isEOF
    r := fsm.r
    pos := fsm.ghostPos + fsm.src0
    log := fsm.ghostLog }

/-- The window offsets are in range. -/
def FSM.Bounds (fsm : FSM) : Prop :=
  fsm.src0 ≤ fsm.src1 ∧ fsm.src1 ≤ fsm.src.length

/-- The window offsets as they are at the top of every loop iteration. -/
def FSM.LoopTop (fsm : FSM) : Prop :=
  fsm.src0 = 0 ∧ fsm.src1 ≤ fsm.src.length

/-- The number of window bytes the no-match branch consumes: the whole window
at end of stream or when the state has no transition, otherwise all but the
last `skipMaxLen() - 1` bytes. -/
def FSM.skipLen (fsm : FSM) : Nat :=
  if fsm.isEOF = false ∧ (fsm.states fsm.curState).skipMaxLen > 0
  then fsm.window.length + 1 - (fsm.states fsm.curState).skipMaxLen
  else fsm.window.length

/-- The test of `writeOutBuf` on a view. -/
def View.hasHandler (v : View) : Bool :=
  (v.states v.curState).NextStates.any (fun s => s.DataHandler.isSome)

/-- The number of window bytes the no-match branch consumes, on a view. -/
def View.skipLen (v : View) : Nat :=
  if v.isEOF = false ∧ (v.states v.curState).skipMaxLen > 0
  then v.win.length + 1 - (v.states v.curState).skipMaxLen
  else v.win.length

/-- The matcher, called on the window of `v` with some carried context,
selected transition `ns` at window offset `i`. -/
def View.Hit (v : View) (i : Nat) (ns : NextState) : Prop :=
  (∃ (tail : List Byte) (pe : Int),
    (v.states v.curState).index v.win tail pe v.isEOF = ((i : Int), ns) ∧
    ns.Switch.index v.win tail pe v.isEOF = (i : Int)) ∧
  ns ∈ (v.states v.curState).NextStates ∧
  OccursAt ns.Switch.Trigger v.win i ∧
  i + ns.Switch.Trigger.length ≤ v.win.length

/-- The matcher, called on the window of `v` with some carried context, found
no transition. -/
def View.Miss (v : View) : Prop :=
  ∃ (tail : List Byte) (pe : Int),
    ∀ ns ∈ (v.states v.curState).NextStates, ns.Switch.index v.win tail pe v.isEOF = -1

/-- The view after a match at `i` of a transition without handler. -/
def View.afterPass (v : View) (i : Nat) (ns : NextState) : View :=
  { v with
    curState := ns.Name
    deferredBuf := []
    dst := (if v.hasHandler = true
        then v.dst ++ (v.deferredBuf ++ v.win.take i)
        else v.dst ++ v.win.take i ++ v.deferredBuf) ++ ns.Switch.Trigger
    win := v.win.drop (i + ns.Switch.Trigger.length)
    pos := v.pos + (i + ns.Switch.Trigger.length)
    log := v.log ++ [Fired.mk (v.pos + i) ns.Name ns.Switch.Trigger none] }

/-- The view after a match at `i` of a transition whose handler returned `d`. -/
def View.afterHandler (v : View) (i : Nat) (ns : NextState) (d : List Byte) : View :=
  { v with
    curState := ns.Name
    deferredBuf := []
    dst := v.dst ++ d
    win := v.win.drop (i + ns.Switch.Trigger.length)
    pos := v.pos + (i + ns.Switch.Trigger.length)
    log := v.log ++ [Fired.mk (v.pos + i) ns.Name ns.Switch.Trigger
      (some (v.deferredBuf ++ v.win.take i))] }

/-- The view when the handler of the transition matched at `i` failed. -/
def View.afterFailure (v : View) (i : Nat) (ns : NextState) : View :=
  { v with
    deferredBuf := v.deferredBuf ++ v.win.take i
    win := v.win.drop i
    pos := v.pos + i
    log := v.log ++ [Fired.mk (v.pos + i) ns.Name ns.Switch.Trigger
      (some (v.deferredBuf ++ v.win.take i))] }

/-- The view after the no-match branch. -/
def View.afterMiss (v : View) : View :=
  { v with
    deferredBuf := if v.hasHandler = true
      then v.deferredBuf ++ v.win.take v.skipLen else v.deferredBuf
    dst := if v.hasHandler = true then v.dst else v.dst ++ v.win.take v.skipLen
    win := v.win.drop v.skipLen
    pos := v.pos + v.skipLen }

/-- Lines 104-168 seen on views: from the view `v` at the top of the loop
(output buffer empty) to the view `mv` at line 170. -/
def MatchDesc (v mv : View) : Prop :=
  (v.win = [] ∧ mv = v) ∨
  (∃ i ns, v.win ≠ [] ∧ v.Hit i ns ∧ ns.DataHandler = none ∧ mv = v.afterPass i ns) ∨
  (∃ i ns h d, v.win ≠ [] ∧ v.Hit i ns ∧ ns.DataHandler = some h ∧
    h v.userCtx (v.deferredBuf ++ v.win.take i) ns.Switch.Trigger = (d, none) ∧
    mv = v.afterHandler i ns d) ∨
  (v.win ≠ [] ∧ v.Miss ∧ mv = v.afterMiss)

/-- Lines 126-131 seen on views: the handler of the matched transition fails
with `e`, leaving the view `mv`. -/
def FailDesc (v : View) (e : GoError) (mv : View) : Prop :=
  ∃ i ns h d, v.win ≠ [] ∧ v.Hit i ns ∧ ns.DataHandler = some h ∧
    h v.userCtx (v.deferredBuf ++ v.win.take i) ns.Switch.Trigger = (d, some e) ∧
    mv = v.afterFailure i ns

/-- Lines 170-226 seen on views, for a reader that only delivers data with a
nil error and then reports end of stream: from the view `mv` at line 170 to
the outcome of the iteration. -/
def PullDesc (mv : View) (out : Outcome) : Prop :=
  (∃ c rest f, mv.r = ReadEvent.data c :: rest ∧ out = .again f ∧ f.LoopTop ∧
    f.view = { mv with
      win := mv.win ++ c.take (mv.cap - mv.win.length)
      r := if c.length ≤ mv.cap - mv.win.length then rest
        else ReadEvent.data (c.drop (mv.cap - mv.win.length)) :: rest }) ∨
  (mv.r = [] ∧ mv.win = [] ∧ mv.dst = [] ∧ mv.deferredBuf = [] ∧
    ∃ f, out = .ret [] (some GoError.EOF) f ∧ f.LoopTop ∧ f.view = { mv with isEOF := true }) ∨
  (mv.r = [] ∧ mv.win = [] ∧ mv.dst ++ mv.deferredBuf ≠ [] ∧
    ∃ f, out = .again f ∧ f.LoopTop ∧
      f.view = { mv with isEOF := true, dst := mv.dst ++ mv.deferredBuf, deferredBuf := [] }) ∨
  (mv.r = [] ∧ mv.win ≠ [] ∧
    ∃ f, out = .again f ∧ f.LoopTop ∧ f.view = { mv with isEOF := true })

/-- One pass through the loop body seen on views. -/
def IterDesc (v : View) (d : Nat) (out : Outcome) : Prop :=
  (v.dst ≠ [] ∧ ∃ f, out = .ret (v.dst.take d) none f ∧ f.LoopTop ∧
    f.view = { v with dst := v.dst.drop d }) ∨
  (v.dst = [] ∧ ∃ mv, MatchDesc v mv ∧ PullDesc mv out) ∨
  (v.dst = [] ∧ ∃ e mv f, FailDesc v e mv ∧
    out = .ret [] (some (GoError.wrap "fsm read data handler" e)) f ∧ f.view = mv)

/-- A reader that delivers the chunks `cs` one after the other with a nil
error and then reports end of stream. -/
def chunked (cs : List (List Byte)) : Reader :=
  cs.map ReadEvent.data

/-- The bytes a reader still has on offer. -/
def Reader.pending : Reader → List Byte
  | [] => []
  | .data bs :: rest => bs ++ Reader.pending rest
  | .dataEOF bs :: rest => bs ++ Reader.pending rest
  | .fail _ :: rest => Reader.pending rest
  | .dataFail bs _ :: rest => bs ++ Reader.pending rest

/-- Termination measure of the engine loop between two drains of the output
buffer: bytes and read events still to come weigh more than bytes in the
window; then the end-of-stream flag and a pending deferred buffer. -/
def View.rank (v : View) : Nat :=
  3 * (v.win.length + 2 * (Reader.pending v.r).length + v.r.length)
    + (if v.isEOF = true then 0 else 1) + min 1 v.deferredBuf.length

/-- The bytes in flight: output buffer, deferred buffer, window and what the
reader still has on offer, in stream order. -/
def View.rest (v : View) : List Byte :=
  v.dst ++ v.deferredBuf ++ v.win ++ Reader.pending v.r

/-- The engine an outcome leaves behind. -/
def Outcome.fsm : Outcome → FSM
  | .ret _ _ f => f
  | .again f => f

/-- What a run that calls no handler keeps at the top of the loop: the offsets,
the table `S`, the buffer capacity `cap`, a chunked reader, and a deferred
buffer that is empty unless the current state has a handler. -/
def PassInv (S : StateName → State) (cap : Nat) (fsm : FSM) : Prop :=
  fsm.LoopTop ∧ fsm.states = S ∧ fsm.src.length = cap ∧ (∃ cs, fsm.r = chunked cs) ∧
    (fsm.deferredBuf ≠ [] → fsm.hasHandler = true)

/-- The engine after `n` more passes through the loop body of a consumer that
reads with a `d`-byte buffer until a call returns an error. -/
def FSM.after (d : Nat) : Nat → FSM → FSM
  | 0, fsm => fsm
  | n + 1, fsm =>
    match fsm.iter d with
    | .again f => FSM.after d n f
    | .ret _ none f => FSM.after d n f
    | .ret _ (some _) f => f

/-- No transition ever matches during the run that starts at `fsm`: the record
of matches never grows. -/
def FSM.NeverMatches (fsm : FSM) (d : Nat) : Prop :=
  ∀ n, (FSM.after d n fsm).ghostLog = fsm.ghostLog

/-- A window that can never be consumed: it fills the buffer, the stream has
not ended, every trigger of the current state is longer than the buffer and
the reader still has bytes on offer. -/
def View.Stuck (v : View) : Prop :=
  v.dst = [] ∧ v.win.length = v.cap ∧ 0 < v.cap ∧ v.isEOF = false ∧
    v.cap < (v.states v.curState).skipMaxLen ∧
    (∃ c rest, c ≠ [] ∧ v.r = ReadEvent.data c :: rest) ∧
    ∀ ns ∈ (v.states v.curState).NextStates, v.cap < ns.Switch.Trigger.length

/-- A table with one state `A` whose only transition, back to `A`, has the
trigger `t`, no delimiters and no escape. -/
def selfLoopTable (t : List Byte) (h : Option Handler) : Description :=
  { UserCtx := 0
    InitState := "A"
    States := fun n =>
      if n = "A" then
        { NextStates := [{ Name := "A",
                           Switch := { Trigger := t,
                                       Delimiters := { L := [], R := [] }, Escape := false },
                           DataHandler := h }] }
      else { NextStates := [] } }

/-- A table in which every state has at most one transition, each with a
non-empty trigger of at most `cap` bytes, no delimiters and no escape. -/
def SingleTrigger (S : StateName → State) (cap : Nat) : Prop :=
  ∀ name, (S name).NextStates = [] ∨
    ∃ ns, (S name).NextStates = [ns] ∧ ns.Switch.Trigger ≠ [] ∧
      ns.Switch.Trigger.length ≤ cap ∧ ns.Switch.Delimiters.L = [] ∧
      ns.Switch.Delimiters.R = [] ∧ ns.Switch.Escape = false

/-- Reference semantics of a single-trigger table on a whole stream, with no
buffer and no reads: in state `cur`, with `deferred` bytes parked and `pos`
bytes of the stream behind, find the first instance of the trigger, hand the
bytes before it to the handler (or pass them and the trigger through), and go
on in the target state; without an instance everything passes through. The
result is the output, the final error and the matches. `fuel` bounds the
number of matches; the length of the stream always suffices. -/
def refRun (S : StateName → State) (u : UserCtx) :
    Nat → StateName → List Byte → Nat → List Byte → List Byte × GoError × List Fired
  | 0, _, deferred, _, stream => (deferred ++ stream, GoError.EOF, [])
  | fuel + 1, cur, deferred, pos, stream =>
    match (S cur).NextStates with
    | [ns] =>
      if ns.Switch.Trigger = [] then (deferred ++ stream, GoError.EOF, [])
      else
        match firstIndex ns.Switch.Trigger stream with
        | none => (deferred ++ stream, GoError.EOF, [])
        | some i =>
          let lit := stream.take i
          let rest := stream.drop (i + ns.Switch.Trigger.length)
          let pos' := pos + (i + ns.Switch.Trigger.length)
          match ns.DataHandler with
          | none =>
            let r := refRun S u fuel ns.Name [] pos' rest
            (deferred ++ lit ++ ns.Switch.Trigger ++ r.1, r.2.1,
              Fired.mk (pos + i) ns.Name ns.Switch.Trigger none :: r.2.2)
          | some h =>
            match h u (deferred ++ lit) ns.Switch.Trigger with
            | (d, none) =>
              let r := refRun S u fuel ns.Name [] pos' rest
              (d ++ r.1, r.2.1,
                Fired.mk (pos + i) ns.Name ns.Switch.Trigger (some (deferred ++ lit)) :: r.2.2)
            | (_, some e) =>
              ([], GoError.wrap "fsm read data handler" e,
                [Fired.mk (pos + i) ns.Name ns.Switch.Trigger (some (deferred ++ lit))])
    | _ => (deferred ++ stream, GoError.EOF, [])

/-- The reference semantics with fuel for the whole stream. -/
def refStream (S : StateName → State) (u : UserCtx) (cur : StateName) (deferred : List Byte)
    (pos : Nat) (stream : List Byte) : List Byte × GoError × List Fired :=
  refRun S u stream.length cur deferred pos stream

/-- The stream still ahead of the engine: the window and what the reader has
on offer. -/
def View.stream (v : View) : List Byte :=
  v.win ++ Reader.pending v.r

/-- What the reference semantics expects the rest of the run to show: the
bytes still to be returned, the final error and the complete record of
matches. -/
def View.expected (v : View) : List Byte × GoError × List Fired :=
  let r := refStream v.states v.userCtx v.curState v.deferredBuf v.pos v.stream
  (v.dst ++ r.1, r.2.1, v.log ++ r.2.2)

/-- What a run over a single-trigger table keeps at the top of the loop. -/
def SingleInv (S : StateName → State) (cap : Nat) (fsm : FSM) : Prop :=
  PassInv S cap fsm ∧ (fsm.isEOF = true → fsm.r = [])

/-- The end-to-end table: state `A` goes to `B` on `<` without handler, state
`B` goes back to `A` on `>` with the handler `f`. -/
def bracketTable (f : Handler) : Description :=
  { UserCtx := 0
    InitState := "A"
    States := fun n =>
      if n = "A" then
        { NextStates := [{ Name := "B",
                           Switch := { Trigger := [60],
                                       Delimiters := { L := [], R := [] }, Escape := false },
                           DataHandler := none }] }
      else if n = "B" then
        { NextStates := [{ Name := "A",
                           Switch := { Trigger := [62],
                                       Delimiters := { L := [], R := [] }, Escape := false },
                           DataHandler := some f }] }
      else { NextStates := [] } }

/-- The handler of the end-to-end scenario: the deferred bytes followed by `!`. -/
def bangHandler : Handler :=
  fun _ deferred _ => (deferred ++ [33], none)

/-- A table with one state `A` whose only transition, back to `A`, has the
trigger `$$` with escape enabled and the built-in handler that drops
everything. -/
def escapeTable : Description :=
  { UserCtx := 0
    InitState := "A"
    States := fun n =>
      if n = "A" then
        { NextStates := [{ Name := "A",
                           Switch := { Trigger := [36, 36],
                                       Delimiters := { L := [], R := [] }, Escape := true },
                           DataHandler := some DataHandlerGenericVoid }] }
      else { NextStates := [] } }

/-- A handler that always fails with the error number 7. -/
def failingHandler : Handler :=
  fun _ _ _ => ([], some (GoError.other 7))

/-- The engine after `k` passes through the loop body within one call of
`read` with a `d`-byte buffer, none of which has returned; `none` when one of
them returns. -/
def FSM.loops (d : Nat) : Nat → FSM → Option FSM
  | 0, fsm => some fsm
  | k + 1, fsm =>
    match fsm.iter d with
    | .again f => FSM.loops d k f
    | .ret _ _ _ => none

/-- A fresh engine on the input `b>`, delivered in one chunk, with the table
whose single transition has the trigger `>` and the failing handler. -/
def failingStart : FSM :=
  Init (chunked [[98, 62]]) (selfLoopTable [62] (some failingHandler))

/-- The engine `failingStart` after the first pass through the loop, which
reads `b>` into the window. -/
def failingEngine : FSM :=
  (failingStart.iter 8).fsm

/-- The end-to-end table without any handler, the transition of `A` asking
for a blank before `<` and escape parity, that of `B` for a blank after `>`. -/
def plainBracketTable : Description :=
  { UserCtx := 0
    InitState := "A"
    States := fun n =>
      if n = "A" then
        { NextStates := [{ Name := "B",
                           Switch := { Trigger := [60],
                                       Delimiters := { L := [32], R := [] }, Escape := true },
                           DataHandler := none }] }
      else if n = "B" then
        { NextStates := [{ Name := "A",
                           Switch := { Trigger := [62],
                                       Delimiters := { L := [], R := [32] }, Escape := false },
                           DataHandler := none }] }
      else { NextStates := [] } }

/-- No trigger of the current state starts anywhere in the stream still ahead. -/
def View.Absent (v : View) : Prop :=
  ∀ ns ∈ (v.states v.curState).NextStates, ∀ j, ¬ ns.Switch.Trigger <+: v.stream.drop j

/-! ## Runs of a session and what they keep -/

/-- The engine at the top of the loop after `n` passes through the loop body
of a session read with `d`-byte buffers; `none` once a call has returned an
error (`io.EOF` included), which ends the session. -/
def FSM.top (d : Nat) : Nat → FSM → Option FSM
  | 0, fsm => some fsm
  | n + 1, fsm =>
    match fsm.iter d with
    | .again f => FSM.top d n f
    | .ret _ none f => FSM.top d n f
    | .ret _ (some _) _ => none

/-- The engine after `n` passes through the loop body, whatever they ended
with: a caller that goes on calling `read` after an error is covered too. -/
def FSM.steps (d : Nat) : Nat → FSM → FSM
  | 0, fsm => fsm
  | n + 1, fsm => FSM.steps d n (fsm.iter d).fsm

/-- The window offsets are in range of the 4096-byte read buffer. -/
def FSM.InRange (fsm : FSM) : Prop :=
  fsm.src0 ≤ fsm.src1 ∧ fsm.src1 ≤ 4096 ∧ fsm.src.length = 4096

/-- What `skipMaxLen` adds up for one transition: the trigger and one byte for
each configured delimiter side. -/
def NextState.footprint (ns : NextState) : Nat :=
  ns.Switch.Trigger.length + (if ns.Switch.Delimiters.L.length > 0 then 1 else 0)
    + (if ns.Switch.Delimiters.R.length > 0 then 1 else 0)

/-- A table without any transition. -/
def emptyTable : Description :=
  { UserCtx := 0
    InitState := "A"
    States := fun _ => { NextStates := [] } }

/-- A table whose state `A` has the transitions on `abc` (to `L`, with the
handler that drops everything) and on `b` (to `S`, without handler), in this
order, without delimiters and escape; `L` and `S` have no transitions. -/
def longShortTable : Description :=
  { UserCtx := 0
    InitState := "A"
    States := fun n =>
      if n = "A" then
        { NextStates := [
            { Name := "L",
              Switch := { Trigger := [97, 98, 99],
                          Delimiters := { L := [], R := [] }, Escape := false },
              DataHandler := some DataHandlerGenericVoid },
            { Name := "S",
              Switch := { Trigger := [98],
                          Delimiters := { L := [], R := [] }, Escape := false },
              DataHandler := none }] }
      else { NextStates := [] } }

/-- The engine of a session on the input `abc` with the table without
transitions after two passes: the three bytes are in the output buffer. -/
def drainEngine : FSM :=
  FSM.after 2 2 (Init (chunked [[97, 98, 99]]) emptyTable)

/-- A fresh engine whose source answers the first read with the bytes `cd`
and the error number 7. -/
def brokenSource : FSM :=
  Init [ReadEvent.dataFail [99, 100] (GoError.other 7)] emptyTable

/-- Lines 170-226 seen on views, for any reader: from the view `mv` at line
170 to the outcome of the pass, `bs` being the bytes and `err` the error that
the source's `Read` returns. -/
def PullAny (mv : View) (out : Outcome) : Prop :=
  ∃ (bs : List Byte) (err : Option GoError) (r' : Reader),
    Reader.Read mv.r (mv.cap - mv.win.length) = (bs, err, r') ∧
    bs.length ≤ mv.cap - mv.win.length ∧
    ((err = none ∧ ∃ f, out = .again f ∧ f.LoopTop ∧
        f.view = { mv with r := r', win := mv.win ++ bs }) ∨
     (∃ e, err = some e ∧ e ≠ GoError.EOF ∧ ∃ f, out = .ret [] (some e) f ∧ f.LoopTop ∧
        f.view = { mv with r := r' }) ∨
     (err = some GoError.EOF ∧ mv.win = [] ∧ mv.dst = [] ∧ mv.deferredBuf = [] ∧
        ∃ f, out = .ret [] (some GoError.EOF) f ∧ f.LoopTop ∧
          f.view = { mv with r := r', isEOF := true }) ∨
     (err = some GoError.EOF ∧ mv.win = [] ∧ mv.dst ++ mv.deferredBuf ≠ [] ∧
        ∃ f, out = .again f ∧ f.LoopTop ∧
          f.view = { mv with r := r', isEOF := true, dst := mv.dst ++ mv.deferredBuf,
                             deferredBuf := [], win := bs }) ∨
     (err = some GoError.EOF ∧ mv.win ≠ [] ∧
        ∃ f, out = .again f ∧ f.LoopTop ∧
          f.view = { mv with r := r', isEOF := true, win := mv.win ++ bs }))

/-- One pass through the loop body seen on views, for any reader. -/
def IterAny (v : View) (d : Nat) (out : Outcome) : Prop :=
  (v.dst ≠ [] ∧ ∃ f, out = .ret (v.dst.take d) none f ∧ f.LoopTop ∧
    f.view = { v with dst := v.dst.drop d }) ∨
  (v.dst = [] ∧ ∃ mv, MatchDesc v mv ∧ PullAny mv out) ∨
  (v.dst = [] ∧ ∃ e mv f, FailDesc v e mv ∧
    out = .ret [] (some (GoError.wrap "fsm read data handler" e)) f ∧ f.view = mv)

/-- The deferred buffer holds bytes only while the current state has a
handler-bearing transition. -/
def View.DeferredOk (v : View) : Prop :=
  v.deferredBuf ≠ [] → v.hasHandler = true

/-- The engine of a session on the input `abc`, with the table whose single
transition has the trigger `$$`, after the first pass, which reads `abc` into
the window. -/
def missEngine : FSM :=
  FSM.after 8 1 (Init (chunked [[97, 98, 99]]) (selfLoopTable [36, 36] none))

/-- What a session keeps about the carried tail byte at the top of the loop,
`total` being all the bytes the source has on offer at the start: the bytes
`seen` already discarded from the window, the window and what the source
still has on offer make up `total`, and the carried tail is the last byte of
`seen`, absent exactly while nothing has been discarded. -/
def FSM.TailOk (total : List Byte) (f : FSM) : Prop :=
  f.LoopTop ∧ f.prevSrc.length = 1 ∧ (f.prevSrcL = 0 ∨ f.prevSrcL = 1) ∧
  (f.prevSrcL = 0 ↔ f.ghostPos = 0) ∧
  ∃ seen, total = seen ++ (f.window ++ Reader.pending f.r) ∧ seen.length = f.ghostPos ∧
    f.tailBytes = seen.getLast?.toList

end Fsm

namespace Fsm

/-! ## Lemmas on the helpers -/

theorem isPrefixOf_iff_starts {sep s : List Byte} : sep.isPrefixOf s = true ↔ sep <+: s :=
  List.isPrefixOf_iff_prefix

theorem firstIndex_spec (sep : List Byte) : ∀ s : List Byte,
    (∀ k, firstIndex sep s = some k → sep <+: s.drop k ∧ ∀ j < k, ¬ sep <+: s.drop j) ∧
    (firstIndex sep s = none → ∀ j, ¬ sep <+: s.drop j) := by
  intro s
  induction s with
  | nil =>
    constructor
    · intro k hk
      by_cases hp : sep.isPrefixOf [] = true
      · simp only [firstIndex, hp, if_true, Option.some.injEq] at hk
        subst hk
        exact ⟨by simpa using isPrefixOf_iff_starts.mp hp, by intro j hj; omega⟩
      · simp [firstIndex, hp] at hk
    · intro hn j
      by_cases hp : sep.isPrefixOf [] = true
      · simp [firstIndex, hp] at hn
      · intro h
        apply hp
        rw [isPrefixOf_iff_starts]
        simpa using h
  | cons b s ih =>
    by_cases hp : sep.isPrefixOf (b :: s) = true
    · constructor
      · intro k hk
        simp only [firstIndex, hp, if_true, Option.some.injEq] at hk
        subst hk
        exact ⟨by simpa using isPrefixOf_iff_starts.mp hp, by intro j hj; omega⟩
      · intro hn
        simp [firstIndex, hp] at hn
    · have hnp : ¬ sep <+: b :: s := fun h => hp (isPrefixOf_iff_starts.mpr h)
      constructor
      · intro k hk
        simp only [firstIndex, hp] at hk
        cases hf : firstIndex sep s with
        | none => simp [hf] at hk
        | some k' =>
          simp [hf] at hk
          subst hk
          obtain ⟨h1, h2⟩ := ih.1 k' hf
          refine ⟨by simpa using h1, ?_⟩
          intro j hj
          cases j with
          | zero => simpa using hnp
          | succ j' => simpa using h2 j' (by omega)
      · intro hn j
        simp only [firstIndex, hp] at hn
        cases hf : firstIndex sep s with
        | some k' => simp [hf] at hn
        | none =>
          cases j with
          | zero => simpa using hnp
          | succ j' => simpa using ih.2 hf j'

theorem bytesIndex_cases (s sep : List Byte) :
    (bytesIndex s sep = -1 ∧ firstIndex sep s = none) ∨
    (∃ k : Nat, bytesIndex s sep = (k : Int) ∧ firstIndex sep s = some k) := by
  unfold bytesIndex
  cases h : firstIndex sep s with
  | none => left; simp
  | some k => right; exact ⟨k, by simp⟩

theorem occursAt_iff_starts (trig buf : List Byte) (i : Nat) :
    OccursAt trig buf i ↔ trig <+: buf.drop i := by
  unfold OccursAt slice
  rw [List.drop_take, List.prefix_iff_eq_take]
  have : i + trig.length - i = trig.length := by omega
  rw [this]
  exact eq_comm

theorem occursAt_bound {trig buf : List Byte} {i : Nat} (hT : trig ≠ [])
    (h : OccursAt trig buf i) : i + trig.length ≤ buf.length := by
  rw [occursAt_iff_starts] at h
  have := h.length_le
  simp at this
  have : 0 < trig.length := List.length_pos.mpr hT
  omega

theorem escapesCount_snoc (l : List Byte) (b : Byte) :
    escapesCount (l ++ [b]) = if b = escByte then escapesCount l + 1 else 0 := by
  simp [escapesCount, escapesCountRev]

theorem escRunBefore_escapesCount (buf : List Byte) :
    ∀ i, i ≤ buf.length → EscRunBefore buf i (escapesCount (buf.take i)) := by
  intro i
  induction i with
  | zero =>
    intro _
    refine ⟨by simp [escapesCount, escapesCountRev], ?_, ?_⟩
    · intro j _ hj; omega
    · intro h; simp [escapesCount, escapesCountRev] at h
  | succ i ih =>
    intro hi
    have hlt : i < buf.length := by omega
    obtain ⟨h1, h2, h3⟩ := ih (by omega)
    have htake : buf.take (i + 1) = buf.take i ++ [buf[i]] := by
      rw [List.take_succ, List.getElem?_eq_getElem hlt]; rfl
    rw [htake, escapesCount_snoc]
    by_cases hb : buf[i] = escByte
    · rw [if_pos hb]
      refine ⟨by omega, ?_, ?_⟩
      · intro j hj1 hj2
        by_cases hji : j = i
        · subst hji; rw [List.getElem?_eq_getElem hlt, hb]
        · exact h2 j (by omega) (by omega)
      · intro hlt2
        have := h3 (by omega)
        have e : i + 1 - (escapesCount (List.take i buf) + 1) - 1
            = i - escapesCount (List.take i buf) - 1 := by omega
        rw [e]; exact this
    · rw [if_neg hb]
      refine ⟨by omega, ?_, ?_⟩
      · intro j hj1 hj2; omega
      · intro _
        have e : i + 1 - 0 - 1 = i := by omega
        rw [e, List.getElem?_eq_getElem hlt]
        intro h
        exact hb (Option.some.inj h)

theorem escRunBefore_unique {buf : List Byte} {i r r' : Nat}
    (h : EscRunBefore buf i r) (h' : EscRunBefore buf i r') : r = r' := by
  obtain ⟨a1, a2, a3⟩ := h
  obtain ⟨b1, b2, b3⟩ := h'
  rcases Nat.lt_trichotomy r r' with hlt | heq | hgt
  · exact absurd (b2 (i - r - 1) (by omega) (by omega)) (a3 (by omega))
  · exact heq
  · exact absurd (a2 (i - r' - 1) (by omega) (by omega)) (b3 (by omega))

theorem tmod_two_eq_zero_iff (t : Int) : Int.tmod t 2 = 0 ↔ Even t := by
  rw [Int.even_iff]
  constructor
  · intro h
    have := Int.dvd_of_tmod_eq_zero h
    omega
  · intro h
    apply Int.tmod_eq_zero_of_dvd
    omega

theorem escaped_eq_false_iff (buf : List Byte) (prevEscs : Int) (i : Nat) (hi : i ≤ buf.length) :
    Switch.escaped buf prevEscs i = false ↔ EscapeOk buf prevEscs i := by
  have hrun := escRunBefore_escapesCount buf i hi
  have hlen : (buf.take i).length = i := by simp [hi]
  have key : Switch.escaped buf prevEscs i = false ↔
      Even (if escapesCount (buf.take i) = i then ((escapesCount (buf.take i) : Nat) : Int) + prevEscs
        else ((escapesCount (buf.take i) : Nat) : Int)) := by
    unfold Switch.escaped
    simp only [hlen]
    have hc : ((i : Int) - (escapesCount (buf.take i) : Int) = 0) ↔ escapesCount (buf.take i) = i := by
      omega
    by_cases he : escapesCount (buf.take i) = i
    · rw [if_pos (hc.mpr he), if_pos he, ← tmod_two_eq_zero_iff]
      split <;> simp_all
    · rw [if_neg (fun h => he (hc.mp h)), if_neg he, ← tmod_two_eq_zero_iff]
      split <;> simp_all
  rw [key]
  constructor
  · intro h
    exact ⟨_, ⟨_, hrun, rfl⟩, h⟩
  · rintro ⟨t, ⟨r, hr, rfl⟩, ht⟩
    have := escRunBefore_unique hr hrun
    subst this
    exact ht

theorem byteIn_iff (c : Option Byte) (set : List Byte) :
    byteIn c set = true ↔ ∃ b, c = some b ∧ b ∈ set := by
  cases c with
  | none => simp [byteIn]
  | some b => simp [byteIn]

theorem leftOk_iff (s : Switch) (buf prevSrc : List Byte) (i : Nat) :
    s.leftOk buf prevSrc i = true ↔ LeftDelimOk s.Delimiters.L buf prevSrc i := by
  unfold Switch.leftOk LeftDelimOk
  by_cases hi : i = 0
  · subst hi
    by_cases hp : prevSrc.length = 0
    · have : prevSrc = [] := List.length_eq_zero.mp hp
      simp [this]
    · have hne : prevSrc ≠ [] := fun h => hp (by simp [h])
      simp only [if_true, hp, if_false, byteIn_iff, List.getLast?_eq_getElem?]
      simp [hne]
  · simp only [hi, if_false, byteIn_iff]
    have : 0 < i := Nat.pos_of_ne_zero hi
    simp [hi, this]

theorem rightOk_iff (s : Switch) (buf : List Byte) (isEOF : Bool) (i : Nat) :
    s.rightOk buf isEOF i = true ↔ RightDelimOk s.Delimiters.R s.Trigger buf isEOF i := by
  unfold Switch.rightOk RightDelimOk
  by_cases he : i + s.Trigger.length = buf.length
  · simp only [he, if_true, true_and]
    have hnone : buf[buf.length]? = none := by simp
    simp [hnone]
  · simp [he, byteIn_iff]

theorem passes_iff (s : Switch) (buf prevSrc : List Byte) (prevEscs : Int) (isEOF : Bool)
    (i : Nat) (hi : i ≤ buf.length) :
    s.passes buf prevSrc prevEscs isEOF i = true ↔
      ((s.Delimiters.L ≠ [] → LeftDelimOk s.Delimiters.L buf prevSrc i) ∧
       (s.Delimiters.R ≠ [] → RightDelimOk s.Delimiters.R s.Trigger buf isEOF i) ∧
       (s.Escape = true → EscapeOk buf prevEscs i)) := by
  unfold Switch.passes
  rw [← leftOk_iff, ← rightOk_iff, ← escaped_eq_false_iff buf prevEscs i hi]
  have hL : (s.Delimiters.L.length > 0) ↔ s.Delimiters.L ≠ [] := List.length_pos
  have hR : (s.Delimiters.R.length > 0) ↔ s.Delimiters.R ≠ [] := List.length_pos
  simp only [Bool.and_eq_true, Bool.not_eq_true', Bool.and_eq_false_imp, decide_eq_true_eq,
    Bool.not_eq_false', hL, hR, and_assoc]

theorem indexLoop_step (s : Switch) (buf prevSrc : List Byte) (prevEscs : Int) (isEOF : Bool)
    (fuel i0 : Nat) :
    s.indexLoop buf prevSrc prevEscs isEOF (fuel + 1) i0 =
      if i0 < buf.length then
        if bytesIndex (buf.drop i0) s.Trigger < 0 then -1
        else if s.passes buf prevSrc prevEscs isEOF (i0 + (bytesIndex (buf.drop i0) s.Trigger).toNat)
          then ((i0 + (bytesIndex (buf.drop i0) s.Trigger).toNat : Nat) : Int)
          else s.indexLoop buf prevSrc prevEscs isEOF fuel
            (i0 + (bytesIndex (buf.drop i0) s.Trigger).toNat + 1)
      else -1 := by
  rw [Switch.indexLoop]
  unfold Switch.passes
  by_cases h1 : i0 < buf.length
  · simp only [h1, if_true]
    by_cases h2 : bytesIndex (buf.drop i0) s.Trigger < 0
    · simp only [h2, if_true]
    · simp only [h2, if_false]
      cases hA : (decide (s.Delimiters.L.length > 0) &&
          !s.leftOk buf prevSrc (i0 + (bytesIndex (buf.drop i0) s.Trigger).toNat)) <;>
      cases hB : (decide (s.Delimiters.R.length > 0) &&
          !s.rightOk buf isEOF (i0 + (bytesIndex (buf.drop i0) s.Trigger).toNat)) <;>
      cases hC : (s.Escape &&
          Switch.escaped buf prevEscs (i0 + (bytesIndex (buf.drop i0) s.Trigger).toNat)) <;>
      simp
  · simp only [h1, if_false]

theorem indexLoop_spec (s : Switch) (hT : s.Trigger ≠ []) (buf prevSrc : List Byte)
    (prevEscs : Int) (isEOF : Bool) :
    ∀ fuel i0, buf.length ≤ i0 + fuel →
      (∀ j < i0, ¬ s.Qualifies buf prevSrc prevEscs isEOF j) →
      (s.indexLoop buf prevSrc prevEscs isEOF fuel i0 = -1 ∧
        ∀ j, ¬ s.Qualifies buf prevSrc prevEscs isEOF j) ∨
      (∃ i : Nat, s.indexLoop buf prevSrc prevEscs isEOF fuel i0 = (i : Int) ∧
        s.Qualifies buf prevSrc prevEscs isEOF i ∧
        ∀ j < i, ¬ s.Qualifies buf prevSrc prevEscs isEOF j) := by
  have hpos : 0 < s.Trigger.length := List.length_pos.mpr hT
  have hbeyond : ∀ i0, buf.length ≤ i0 →
      (∀ j < i0, ¬ s.Qualifies buf prevSrc prevEscs isEOF j) →
      ∀ j, ¬ s.Qualifies buf prevSrc prevEscs isEOF j := by
    intro i0 hle hbefore j hq
    by_cases hj : j < i0
    · exact hbefore j hj hq
    · have := occursAt_bound hT hq.1
      omega
  intro fuel
  induction fuel with
  | zero =>
    intro i0 hle hbefore
    left
    exact ⟨rfl, hbeyond i0 (by omega) hbefore⟩
  | succ fuel ih =>
    intro i0 hle hbefore
    rw [indexLoop_step]
    by_cases h1 : i0 < buf.length
    · rw [if_pos h1]
      rcases bytesIndex_cases (buf.drop i0) s.Trigger with ⟨hk, hf⟩ | ⟨k, hk, hf⟩
      · rw [hk]
        left
        refine ⟨by simp, ?_⟩
        intro j hq
        by_cases hj : j < i0
        · exact hbefore j hj hq
        · have hno := (firstIndex_spec s.Trigger (buf.drop i0)).2 hf (j - i0)
          apply hno
          rw [List.drop_drop]
          have : i0 + (j - i0) = j := by omega
          rw [this]
          exact (occursAt_iff_starts _ _ _).mp hq.1
      · rw [hk]
        have hnn : ¬ ((k : Int) < 0) := by omega
        rw [if_neg hnn, Int.toNat_natCast]
        obtain ⟨hocc, hleast⟩ := (firstIndex_spec s.Trigger (buf.drop i0)).1 k hf
        rw [List.drop_drop] at hocc
        have hoccAt : OccursAt s.Trigger buf (i0 + k) := (occursAt_iff_starts _ _ _).mpr hocc
        have hbound := occursAt_bound hT hoccAt
        have hnone : ∀ j < i0 + k, ¬ s.Qualifies buf prevSrc prevEscs isEOF j := by
          intro j hj hq
          by_cases hj0 : j < i0
          · exact hbefore j hj0 hq
          · apply hleast (j - i0) (by omega)
            rw [List.drop_drop]
            have : i0 + (j - i0) = j := by omega
            rw [this]
            exact (occursAt_iff_starts _ _ _).mp hq.1
        by_cases hp : s.passes buf prevSrc prevEscs isEOF (i0 + k) = true
        · rw [if_pos hp]
          right
          refine ⟨i0 + k, rfl, ⟨hoccAt, (passes_iff s buf prevSrc prevEscs isEOF _ (by omega)).mp hp⟩,
            hnone⟩
        · rw [if_neg hp]
          apply ih (i0 + k + 1) (by omega)
          intro j hj hq
          by_cases hjk : j = i0 + k
          · subst hjk
            exact hp ((passes_iff s buf prevSrc prevEscs isEOF _ (by omega)).mpr hq.2)
          · exact hnone j (by omega) hq
    · rw [if_neg h1]
      left
      exact ⟨rfl, hbeyond i0 (by omega) hbefore⟩

/-- C1. For a switch with a non-empty trigger, `Switch.index` returns the least
offset `i` at which `buf[i:i+len(trigger)]` equals the trigger and every
configured check (left delimiter, right delimiter, escape parity) passes; it
returns `-1` exactly when no offset of the window qualifies; it returns
nothing else. -/
theorem Switch.index_earliest (s : Switch) (hT : s.Trigger ≠ []) (buf prevSrc : List Byte)
    (prevEscs : Int) (isEOF : Bool) :
    (∀ i : Nat, s.index buf prevSrc prevEscs isEOF = (i : Int) ↔
      (s.Qualifies buf prevSrc prevEscs isEOF i ∧
        ∀ j < i, ¬ s.Qualifies buf prevSrc prevEscs isEOF j)) ∧
    (s.index buf prevSrc prevEscs isEOF = -1 ↔
      ∀ j, ¬ s.Qualifies buf prevSrc prevEscs isEOF j) ∧
    (s.index buf prevSrc prevEscs isEOF = -1 ∨
      ∃ i : Nat, s.index buf prevSrc prevEscs isEOF = (i : Int)) := by
  have h := indexLoop_spec s hT buf prevSrc prevEscs isEOF buf.length 0 (by omega)
    (by intro j hj; omega)
  unfold Switch.index
  rcases h with ⟨h1, h2⟩ | ⟨i, h1, h2, h3⟩
  · refine ⟨?_, ?_, Or.inl h1⟩
    · intro i
      rw [h1]
      constructor
      · intro h; omega
      · intro h; exact absurd h.1 (h2 i)
    · rw [h1]; simp [h2]
  · refine ⟨?_, ?_, Or.inr ⟨i, h1⟩⟩
    · intro i'
      rw [h1]
      constructor
      · intro h
        have : i = i' := by omega
        subst this
        exact ⟨h2, h3⟩
      · rintro ⟨q, least⟩
        rcases Nat.lt_trichotomy i i' with hlt | heq | hgt
        · exact absurd h2 (least i hlt)
        · rw [heq]
        · exact absurd q (h3 i' hgt)
    · rw [h1]
      constructor
      · intro h; omega
      · intro h; exact absurd h2 (h i)

theorem Switch.index_earliest_witness :
    (Switch.mk [36, 36] ⟨[32], [32]⟩ true).Trigger ≠ [] ∧
    ((∀ i : Nat, (Switch.mk [36, 36] ⟨[32], [32]⟩ true).index [92, 36, 36, 32, 36, 36] [] 0 true
        = (i : Int) ↔
      ((Switch.mk [36, 36] ⟨[32], [32]⟩ true).Qualifies [92, 36, 36, 32, 36, 36] [] 0 true i ∧
        ∀ j < i, ¬ (Switch.mk [36, 36] ⟨[32], [32]⟩ true).Qualifies
          [92, 36, 36, 32, 36, 36] [] 0 true j)) ∧
    ((Switch.mk [36, 36] ⟨[32], [32]⟩ true).index [92, 36, 36, 32, 36, 36] [] 0 true = -1 ↔
      ∀ j, ¬ (Switch.mk [36, 36] ⟨[32], [32]⟩ true).Qualifies
        [92, 36, 36, 32, 36, 36] [] 0 true j) ∧
    ((Switch.mk [36, 36] ⟨[32], [32]⟩ true).index [92, 36, 36, 32, 36, 36] [] 0 true = -1 ∨
      ∃ i : Nat, (Switch.mk [36, 36] ⟨[32], [32]⟩ true).index
        [92, 36, 36, 32, 36, 36] [] 0 true = (i : Int))) :=
  ⟨by decide, Switch.index_earliest _ (by decide) _ _ _ _⟩

/-! ## State.index -/

theorem selInv_step (buf prevSrc : List Byte) (prevEscs : Int) (isEOF : Bool)
    (pre : List NextState) (acc : Int × NextState) (ns : NextState)
    (h : SelInv (fun n => n.Switch.index buf prevSrc prevEscs isEOF) pre acc) :
    SelInv (fun n => n.Switch.index buf prevSrc prevEscs isEOF) (pre ++ [ns])
      (State.indexStep buf prevSrc prevEscs isEOF acc ns) := by
  unfold State.indexStep
  by_cases hi : ns.Switch.index buf prevSrc prevEscs isEOF ≥ 0
  · simp only [hi, if_true]
    rcases h with ⟨h1, h2⟩ | ⟨k, x, hk, hacc, hx, hmin, hfirst⟩
    · -- nothing found before: this transition is the first candidate
      rw [if_pos (Or.inl h1)]
      right
      refine ⟨pre.length, ns, by simp, rfl, hi, ?_, ?_⟩
      · intro n hn hn0
        rcases List.mem_append.mp hn with hn | hn
        · have := h2 n hn; omega
        · simp at hn; subst hn; exact le_refl _
      · intro j y hj hy
        rw [List.getElem?_append_left hj] at hy
        have := h2 y (List.getElem?_mem hy)
        simp only at this ⊢
        omega
    · rw [hacc]
      simp only
      by_cases hc : (ns.Switch.index buf prevSrc prevEscs isEOF) <
          x.Switch.index buf prevSrc prevEscs isEOF
      · -- strictly smaller: replaces the minimum
        have hpos : x.Switch.index buf prevSrc prevEscs isEOF > 0 := by simp only at hx; omega
        rw [if_pos (Or.inr ⟨hpos, hc⟩)]
        right
        refine ⟨pre.length, ns, by simp, rfl, hi, ?_, ?_⟩
        · intro n hn hn0
          rcases List.mem_append.mp hn with hn | hn
          · have := hmin n hn hn0; simp only at this ⊢; omega
          · simp at hn; subst hn; exact le_refl _
        · intro j y hj hy
          rw [List.getElem?_append_left hj] at hy
          have hmem := List.getElem?_mem hy
          simp only
          intro heq
          have := hmin y hmem (by simp only; omega)
          simp only at this
          omega
      · -- not smaller: the earlier transition stays
        have hneg : ¬ (x.Switch.index buf prevSrc prevEscs isEOF = -1 ∨
            (x.Switch.index buf prevSrc prevEscs isEOF > 0 ∧
              ns.Switch.index buf prevSrc prevEscs isEOF <
                x.Switch.index buf prevSrc prevEscs isEOF)) := by
          simp only at hx
          rintro (h | ⟨_, h⟩)
          · omega
          · exact hc h
        rw [if_neg hneg]
        right
        have hklt : k < pre.length := by
          by_contra hge
          rw [List.getElem?_eq_none (by omega)] at hk
          cases hk
        refine ⟨k, x, by rw [List.getElem?_append_left hklt]; exact hk, rfl, hx, ?_, ?_⟩
        · intro n hn hn0
          rcases List.mem_append.mp hn with hn | hn
          · exact hmin n hn hn0
          · simp at hn; subst hn; simp only; omega
        · intro j y hj hy
          rw [List.getElem?_append_left (by omega)] at hy
          exact hfirst j y hj hy
  · simp only [hi, if_false]
    rcases h with ⟨h1, h2⟩ | ⟨k, x, hk, hacc, hx, hmin, hfirst⟩
    · left
      refine ⟨h1, ?_⟩
      intro n hn
      rcases List.mem_append.mp hn with hn | hn
      · exact h2 n hn
      · simp at hn; subst hn; simp only; omega
    · right
      have hklt : k < pre.length := by
        by_contra hge
        rw [List.getElem?_eq_none (by omega)] at hk
        cases hk
      refine ⟨k, x, by rw [List.getElem?_append_left hklt]; exact hk, hacc, hx, ?_, ?_⟩
      · intro n hn hn0
        rcases List.mem_append.mp hn with hn | hn
        · exact hmin n hn hn0
        · simp at hn; subst hn; simp only at hn0; omega
      · intro j y hj hy
        rw [List.getElem?_append_left (by omega)] at hy
        exact hfirst j y hj hy

theorem selInv_foldl (buf prevSrc : List Byte) (prevEscs : Int) (isEOF : Bool) :
    ∀ (rest pre : List NextState) (acc : Int × NextState),
      SelInv (fun n => n.Switch.index buf prevSrc prevEscs isEOF) pre acc →
      SelInv (fun n => n.Switch.index buf prevSrc prevEscs isEOF) (pre ++ rest)
        (rest.foldl (State.indexStep buf prevSrc prevEscs isEOF) acc) := by
  intro rest
  induction rest with
  | nil => intro pre acc h; simpa using h
  | cons ns rest ih =>
    intro pre acc h
    have := ih (pre ++ [ns]) _ (selInv_step buf prevSrc prevEscs isEOF pre acc ns h)
    simpa using this

theorem State.index_selInv (s : State) (buf prevSrc : List Byte) (prevEscs : Int) (isEOF : Bool) :
    SelInv (fun n => n.Switch.index buf prevSrc prevEscs isEOF) s.NextStates
      (s.index buf prevSrc prevEscs isEOF) := by
  have := selInv_foldl buf prevSrc prevEscs isEOF s.NextStates [] (-1, NextState.zero)
    (Or.inl ⟨rfl, by intro ns h; cases h⟩)
  simpa [State.index] using this

/-- C2. `State.index` selects the minimum offset with first-declared tie-break:
either every transition's `Switch.index` result is negative and the returned
offset is `-1`, or the returned pair is (result, transition) of the transition
at some position `k` of the declaration order, whose result is non-negative,
is the least of the non-negative results of all transitions, and is attained
by no transition declared before position `k`. -/
theorem State.index_min_first (s : State) (buf prevSrc : List Byte) (prevEscs : Int)
    (isEOF : Bool) :
    ((s.index buf prevSrc prevEscs isEOF).1 = -1 ∧
      ∀ ns ∈ s.NextStates, ns.Switch.index buf prevSrc prevEscs isEOF < 0) ∨
    (∃ (k : Nat) (x : NextState), s.NextStates[k]? = some x ∧
      s.index buf prevSrc prevEscs isEOF = (x.Switch.index buf prevSrc prevEscs isEOF, x) ∧
      0 ≤ x.Switch.index buf prevSrc prevEscs isEOF ∧
      (∀ ns ∈ s.NextStates, 0 ≤ ns.Switch.index buf prevSrc prevEscs isEOF →
        x.Switch.index buf prevSrc prevEscs isEOF ≤ ns.Switch.index buf prevSrc prevEscs isEOF) ∧
      ∀ (j : Nat) (y : NextState), j < k → s.NextStates[j]? = some y →
        y.Switch.index buf prevSrc prevEscs isEOF ≠ x.Switch.index buf prevSrc prevEscs isEOF) :=
  State.index_selInv s buf prevSrc prevEscs isEOF

/-! ## What a returned offset guarantees, for any trigger -/

theorem firstIndex_le (sep : List Byte) :
    ∀ (s : List Byte) (k : Nat), firstIndex sep s = some k → k ≤ s.length := by
  intro s
  induction s with
  | nil =>
    intro k hk
    by_cases hp : sep.isPrefixOf [] = true
    · simp only [firstIndex, hp, if_true, Option.some.injEq] at hk; omega
    · simp [firstIndex, hp] at hk
  | cons b s ih =>
    intro k hk
    by_cases hp : sep.isPrefixOf (b :: s) = true
    · simp only [firstIndex, hp, if_true, Option.some.injEq] at hk; omega
    · simp only [firstIndex, hp] at hk
      cases hf : firstIndex sep s with
      | none => simp [hf] at hk
      | some k' =>
        simp [hf] at hk
        have := ih k' hf
        simp only [List.length_cons]
        omega

theorem indexLoop_result (s : Switch) (buf prevSrc : List Byte) (prevEscs : Int) (isEOF : Bool) :
    ∀ fuel i0,
      s.indexLoop buf prevSrc prevEscs isEOF fuel i0 = -1 ∨
      ∃ i : Nat, s.indexLoop buf prevSrc prevEscs isEOF fuel i0 = (i : Int) ∧ i0 ≤ i ∧
        i ≤ buf.length ∧ OccursAt s.Trigger buf i ∧
        s.passes buf prevSrc prevEscs isEOF i = true := by
  intro fuel
  induction fuel with
  | zero => intro i0; left; rfl
  | succ fuel ih =>
    intro i0
    rw [indexLoop_step]
    by_cases h1 : i0 < buf.length
    · rw [if_pos h1]
      rcases bytesIndex_cases (buf.drop i0) s.Trigger with ⟨hk, _⟩ | ⟨k, hk, hf⟩
      · rw [hk]; left; simp
      · rw [hk]
        have hnn : ¬ ((k : Int) < 0) := by omega
        rw [if_neg hnn, Int.toNat_natCast]
        have hocc := ((firstIndex_spec s.Trigger (buf.drop i0)).1 k hf).1
        rw [List.drop_drop] at hocc
        have hkle := firstIndex_le s.Trigger (buf.drop i0) k hf
        simp only [List.length_drop] at hkle
        by_cases hp : s.passes buf prevSrc prevEscs isEOF (i0 + k) = true
        · rw [if_pos hp]
          right
          exact ⟨i0 + k, rfl, by omega, by omega, (occursAt_iff_starts _ _ _).mpr hocc, hp⟩
        · rw [if_neg hp]
          rcases ih (i0 + k + 1) with h | ⟨i, h, hle, hrest⟩
          · left; exact h
          · right; exact ⟨i, h, by omega, hrest⟩
    · rw [if_neg h1]; left; rfl

theorem index_result (s : Switch) (buf prevSrc : List Byte) (prevEscs : Int) (isEOF : Bool) :
    s.index buf prevSrc prevEscs isEOF = -1 ∨
    ∃ i : Nat, s.index buf prevSrc prevEscs isEOF = (i : Int) ∧
      i ≤ buf.length ∧ OccursAt s.Trigger buf i ∧
      s.passes buf prevSrc prevEscs isEOF i = true := by
  rcases indexLoop_result s buf prevSrc prevEscs isEOF buf.length 0 with h | ⟨i, h, _, hrest⟩
  · left; exact h
  · right; exact ⟨i, h, hrest⟩

theorem index_passes (s : Switch) (buf prevSrc : List Byte) (prevEscs : Int) (isEOF : Bool)
    (i : Nat) (h : s.index buf prevSrc prevEscs isEOF = (i : Int)) :
    i ≤ buf.length ∧ OccursAt s.Trigger buf i ∧ s.passes buf prevSrc prevEscs isEOF i = true := by
  rcases index_result s buf prevSrc prevEscs isEOF with h' | ⟨i', h', hrest⟩
  · rw [h] at h'; omega
  · rw [h] at h'
    have : i = i' := by omega
    subst this
    exact hrest

/-- C8. Escape parity in the matcher: for every switch with `Escape` enabled and
every window, an offset `i` returned by `Switch.index` has an even total escape
count before it (the run of contiguous escape bytes immediately preceding `i`
inside the window, plus `prevEscs` when that run reaches the window start).
With trigger `$$`, no delimiters and empty carry-over, the window `\$$` yields
`-1` and the window `\\$$` yields `2`. -/
theorem Switch.index_escape_parity :
    (∀ (s : Switch) (buf prevSrc : List Byte) (prevEscs : Int) (isEOF : Bool) (i : Nat),
      s.Escape = true → s.index buf prevSrc prevEscs isEOF = (i : Int) →
      EscapeOk buf prevEscs i) ∧
    (Switch.mk [36, 36] ⟨[], []⟩ true).index [92, 36, 36] [] 0 false = -1 ∧
    (Switch.mk [36, 36] ⟨[], []⟩ true).index [92, 92, 36, 36] [] 0 false = 2 := by
  refine ⟨?_, by decide, by decide⟩
  intro s buf prevSrc prevEscs isEOF i hE h
  obtain ⟨hi, _, hp⟩ := index_passes s buf prevSrc prevEscs isEOF i h
  exact ((passes_iff s buf prevSrc prevEscs isEOF i hi).mp hp).2.2 hE

theorem Switch.index_escape_parity_witness :
    (Switch.mk [36, 36] ⟨[], []⟩ true).Escape = true ∧
    (Switch.mk [36, 36] ⟨[], []⟩ true).index [92, 92, 36, 36] [] 0 false = ((2 : Nat) : Int) ∧
    EscapeOk [92, 92, 36, 36] 0 2 :=
  ⟨rfl, by decide,
    Switch.index_escape_parity.1 (Switch.mk [36, 36] ⟨[], []⟩ true) [92, 92, 36, 36] [] 0 false 2
      rfl (by decide)⟩

/-- C9. Left-delimiter enforcement in the matcher: for every switch with a
non-empty left delimiter set, an offset `i` returned by `Switch.index` has its
preceding byte (`buf[i-1]`, or the last byte of `prevSrc` when `i = 0`) in the
set, or `i = 0` and `prevSrc` is empty. With trigger `#`, left set `{' '}` and
empty `prevSrc`, the window `a#b` yields `-1`, `a #b` yields `2` and `#b`
yields `0`. -/
theorem Switch.index_left_delimiter :
    (∀ (s : Switch) (buf prevSrc : List Byte) (prevEscs : Int) (isEOF : Bool) (i : Nat),
      s.Delimiters.L ≠ [] → s.index buf prevSrc prevEscs isEOF = (i : Int) →
      LeftDelimOk s.Delimiters.L buf prevSrc i) ∧
    (Switch.mk [35] ⟨[32], []⟩ false).index [97, 35, 98] [] 0 false = -1 ∧
    (Switch.mk [35] ⟨[32], []⟩ false).index [97, 32, 35, 98] [] 0 false = 2 ∧
    (Switch.mk [35] ⟨[32], []⟩ false).index [35, 98] [] 0 false = 0 := by
  refine ⟨?_, by decide, by decide, by decide⟩
  intro s buf prevSrc prevEscs isEOF i hL h
  obtain ⟨hi, _, hp⟩ := index_passes s buf prevSrc prevEscs isEOF i h
  exact ((passes_iff s buf prevSrc prevEscs isEOF i hi).mp hp).1 hL

theorem Switch.index_left_delimiter_witness :
    (Switch.mk [35] ⟨[32], []⟩ false).Delimiters.L ≠ [] ∧
    (Switch.mk [35] ⟨[32], []⟩ false).index [97, 32, 35, 98] [] 0 false = ((2 : Nat) : Int) ∧
    LeftDelimOk [32] [97, 32, 35, 98] [] 2 :=
  ⟨by decide, by decide,
    Switch.index_left_delimiter.1 (Switch.mk [35] ⟨[32], []⟩ false) [97, 32, 35, 98] [] 0 false 2
      (by decide) (by decide)⟩

/-! ## The engine loop, phase by phase -/

theorem prepPrevSrc_eq (fsm : FSM) :
    fsm.prepPrevSrc = ({ fsm with prevSrc := fsm.prepPrevSrc.1.prevSrc }, fsm.tailBytes) := by
  unfold FSM.prepPrevSrc FSM.tailBytes
  simp only
  split <;> rfl

theorem writeOutBuf_eq (fsm : FSM) (d : List Byte) :
    fsm.writeOutBuf d =
      (if fsm.hasHandler = true then { fsm with deferredBuf := fsm.deferredBuf ++ d }
        else { fsm with dst := fsm.dst ++ d }, d.length) := by
  unfold FSM.writeOutBuf FSM.hasHandler
  simp only
  split <;> rfl

theorem slice_length (a : List Byte) (lo hi : Nat) (h : hi ≤ a.length) :
    (slice a lo hi).length = hi - lo := by
  simp [slice, h]

theorem slice_take (a : List Byte) (lo k hi : Nat) (h : lo + k ≤ hi) :
    slice a lo (lo + k) = (slice a lo hi).take k := by
  unfold slice
  rw [List.drop_take, List.drop_take, List.take_take]
  congr 1
  omega

theorem select_cases (fsm : FSM) :
    ((fsm.select).1 = -1 ∧
      ∀ ns ∈ (fsm.states fsm.curState).NextStates,
        ns.Switch.index fsm.window fsm.tailBytes fsm.prevEscs fsm.isEOF = -1) ∨
    (∃ (i : Nat) (ns : NextState), fsm.select = ((i : Int), ns) ∧
      ns ∈ (fsm.states fsm.curState).NextStates ∧
      ns.Switch.index fsm.window fsm.tailBytes fsm.prevEscs fsm.isEOF = (i : Int) ∧
      i ≤ fsm.window.length ∧ OccursAt ns.Switch.Trigger fsm.window i ∧
      i + ns.Switch.Trigger.length ≤ fsm.window.length) := by
  rcases State.index_selInv (fsm.states fsm.curState) fsm.window fsm.tailBytes fsm.prevEscs
    fsm.isEOF with ⟨h1, h2⟩ | ⟨k, x, hk, hacc, hx, _, _⟩
  · left
    refine ⟨h1, ?_⟩
    intro ns hns
    have := h2 ns hns
    rcases index_result ns.Switch fsm.window fsm.tailBytes fsm.prevEscs fsm.isEOF with h | ⟨i, h, _⟩
    · exact h
    · simp only at this; omega
  · right
    rcases index_result x.Switch fsm.window fsm.tailBytes fsm.prevEscs fsm.isEOF with
      h | ⟨i, h, hle, hocc, _⟩
    · simp only at hx; omega
    · refine ⟨i, x, ?_, List.getElem?_mem hk, h, hle, hocc, ?_⟩
      · unfold FSM.select; simp only at hacc; rw [hacc, h]
      · have hp := (occursAt_iff_starts _ _ _).mp hocc
        have := hp.length_le
        simp only [List.length_drop] at this
        omega

theorem hasHandler_of_mem (fsm : FSM) (ns : NextState) (h : Handler)
    (hmem : ns ∈ (fsm.states fsm.curState).NextStates) (hh : ns.DataHandler = some h) :
    fsm.hasHandler = true := by
  unfold FSM.hasHandler
  rw [List.any_eq_true]
  exact ⟨ns, hmem, by simp [hh]⟩

theorem matchPhase_hit_none (fsm : FSM) (i : Nat) (ns : NextState) (htop : fsm.LoopTop)
    (hsel : fsm.select = ((i : Int), ns)) (hb : i + ns.Switch.Trigger.length ≤ fsm.window.length)
    (hh : ns.DataHandler = none) :
    ∃ m, fsm.matchPhase (fsm.states fsm.curState) = .again m ∧ m.Bounds ∧
      m.view = { fsm.view with
        curState := ns.Name
        deferredBuf := []
        dst := (if fsm.hasHandler = true
            then fsm.dst ++ (fsm.deferredBuf ++ fsm.window.take i)
            else fsm.dst ++ fsm.window.take i ++ fsm.deferredBuf) ++ ns.Switch.Trigger
        win := fsm.window.drop (i + ns.Switch.Trigger.length)
        pos := fsm.ghostPos + (i + ns.Switch.Trigger.length)
        log := fsm.ghostLog ++ [Fired.mk (fsm.ghostPos + i) ns.Name ns.Switch.Trigger none] } := by
  rcases fsm with ⟨cur, states, uctx, deferred, dst, src, src0, src1, prevSrc, prevSrcL,
    prevEscs, isEOF, r, gpos, glog⟩
  obtain ⟨h0, h1⟩ := htop
  simp only at h0 h1
  subst h0
  have hwl : (slice src 0 src1).length = src1 := by rw [slice_length _ _ _ h1]; omega
  simp only [FSM.window, hwl] at hb
  have hlit : slice src 0 (0 + i) = (slice src 0 src1).take i := slice_take _ _ _ _ (by omega)
  have hlitlen : ((slice src 0 src1).take i).length = i := by simp [hwl]; omega
  unfold FSM.matchPhase
  rw [prepPrevSrc_eq]
  unfold FSM.select FSM.window at hsel
  simp only [hsel, ge_iff_le, Int.natCast_nonneg, if_true, writeOutBuf_eq, hh, FSM.stateSwitch,
    FSM.hasHandler, Option.map_none', Int.toNat_natCast, hlit, hlitlen]
  cases hH : ((states cur).NextStates.any fun s => s.DataHandler.isSome) <;>
    simp only [if_true, if_false, Bool.false_eq_true] <;>
    refine ⟨_, rfl, ⟨by simp only []; omega, h1⟩, ?_⟩ <;>
    simp [FSM.view, FSM.window, slice, List.drop_take, Nat.add_assoc]

theorem matchPhase_hit_ok (fsm : FSM) (i : Nat) (ns : NextState) (h : Handler) (d : List Byte)
    (htop : fsm.LoopTop) (hsel : fsm.select = ((i : Int), ns))
    (hb : i + ns.Switch.Trigger.length ≤ fsm.window.length)
    (hh : ns.DataHandler = some h) (hH : fsm.hasHandler = true)
    (hres : h fsm.userCtx (fsm.deferredBuf ++ fsm.window.take i) ns.Switch.Trigger = (d, none)) :
    ∃ m, fsm.matchPhase (fsm.states fsm.curState) = .again m ∧ m.Bounds ∧
      m.view = { fsm.view with
        curState := ns.Name
        deferredBuf := []
        dst := fsm.dst ++ d
        win := fsm.window.drop (i + ns.Switch.Trigger.length)
        pos := fsm.ghostPos + (i + ns.Switch.Trigger.length)
        log := fsm.ghostLog ++ [Fired.mk (fsm.ghostPos + i) ns.Name ns.Switch.Trigger
          (some (fsm.deferredBuf ++ fsm.window.take i))] } := by
  rcases fsm with ⟨cur, states, uctx, deferred, dst, src, src0, src1, prevSrc, prevSrcL,
    prevEscs, isEOF, r, gpos, glog⟩
  obtain ⟨h0, h1⟩ := htop
  simp only at h0 h1
  subst h0
  have hwl : (slice src 0 src1).length = src1 := by rw [slice_length _ _ _ h1]; omega
  simp only [FSM.window, hwl] at hb
  have hlit : slice src 0 (0 + i) = (slice src 0 src1).take i := slice_take _ _ _ _ (by omega)
  have hlitlen : ((slice src 0 src1).take i).length = i := by simp [hwl]; omega
  unfold FSM.matchPhase
  rw [prepPrevSrc_eq]
  unfold FSM.select FSM.window at hsel
  unfold FSM.hasHandler at hH
  simp only [FSM.window] at hres
  simp only at hH
  simp only [hsel, ge_iff_le, Int.natCast_nonneg, if_true, writeOutBuf_eq, hh, FSM.stateSwitch,
    FSM.hasHandler, Option.map_some', Int.toNat_natCast, hlit, hlitlen, hH, hres]
  refine ⟨_, rfl, ⟨by simp only []; omega, h1⟩, ?_⟩
  simp [FSM.view, FSM.window, slice, List.drop_take, Nat.add_assoc]

theorem matchPhase_hit_err (fsm : FSM) (i : Nat) (ns : NextState) (h : Handler) (d : List Byte)
    (e : GoError) (htop : fsm.LoopTop) (hsel : fsm.select = ((i : Int), ns))
    (hb : i + ns.Switch.Trigger.length ≤ fsm.window.length)
    (hh : ns.DataHandler = some h) (hH : fsm.hasHandler = true)
    (hres : h fsm.userCtx (fsm.deferredBuf ++ fsm.window.take i) ns.Switch.Trigger
      = (d, some e)) :
    ∃ m, fsm.matchPhase (fsm.states fsm.curState) =
        .ret [] (some (GoError.wrap "fsm read data handler" e)) m ∧ m.Bounds ∧
      m.view = { fsm.view with
        deferredBuf := fsm.deferredBuf ++ fsm.window.take i
        win := fsm.window.drop i
        pos := fsm.ghostPos + i
        log := fsm.ghostLog ++ [Fired.mk (fsm.ghostPos + i) ns.Name ns.Switch.Trigger
          (some (fsm.deferredBuf ++ fsm.window.take i))] } := by
  rcases fsm with ⟨cur, states, uctx, deferred, dst, src, src0, src1, prevSrc, prevSrcL,
    prevEscs, isEOF, r, gpos, glog⟩
  obtain ⟨h0, h1⟩ := htop
  simp only at h0 h1
  subst h0
  have hwl : (slice src 0 src1).length = src1 := by rw [slice_length _ _ _ h1]; omega
  simp only [FSM.window, hwl] at hb
  have hlit : slice src 0 (0 + i) = (slice src 0 src1).take i := slice_take _ _ _ _ (by omega)
  have hlitlen : ((slice src 0 src1).take i).length = i := by simp [hwl]; omega
  unfold FSM.matchPhase
  rw [prepPrevSrc_eq]
  unfold FSM.select FSM.window at hsel
  unfold FSM.hasHandler at hH
  simp only [FSM.window] at hres
  simp only at hH
  simp only [hsel, ge_iff_le, Int.natCast_nonneg, if_true, writeOutBuf_eq, hh, FSM.stateSwitch,
    FSM.hasHandler, Option.map_some', Int.toNat_natCast, hlit, hlitlen, hH, hres]
  refine ⟨_, rfl, ⟨by simp only []; omega, h1⟩, ?_⟩
  simp [FSM.view, FSM.window, slice, List.drop_take, Nat.add_assoc]

theorem skipLen_le (fsm : FSM) : fsm.skipLen ≤ fsm.window.length := by
  unfold FSM.skipLen
  split
  · omega
  · exact le_refl _

theorem matchPhase_miss (fsm : FSM) (htop : fsm.LoopTop) (hsel : (fsm.select).1 < 0) :
    ∃ m, fsm.matchPhase (fsm.states fsm.curState) = .again m ∧ m.Bounds ∧
      m.view = { fsm.view with
        deferredBuf := if fsm.hasHandler = true
          then fsm.deferredBuf ++ fsm.window.take fsm.skipLen else fsm.deferredBuf
        dst := if fsm.hasHandler = true
          then fsm.dst else fsm.dst ++ fsm.window.take fsm.skipLen
        win := fsm.window.drop fsm.skipLen
        pos := fsm.ghostPos + fsm.skipLen } := by
  rcases fsm with ⟨cur, states, uctx, deferred, dst, src, src0, src1, prevSrc, prevSrcL,
    prevEscs, isEOF, r, gpos, glog⟩
  obtain ⟨h0, h1⟩ := htop
  simp only at h0 h1
  subst h0
  have hwl : (slice src 0 src1).length = src1 := by rw [slice_length _ _ _ h1]; omega
  have hm1 : src1 ⊓ src.length = src1 := Nat.min_eq_left h1
  unfold FSM.matchPhase
  rw [prepPrevSrc_eq]
  unfold FSM.select FSM.window at hsel
  simp only at hsel
  cases hidx : (states cur).index (slice src 0 src1)
    (FSM.tailBytes ⟨cur, states, uctx, deferred, dst, src, 0, src1, prevSrc, prevSrcL,
      prevEscs, isEOF, r, gpos, glog⟩) prevEscs isEOF with
  | mk i ns =>
    rw [hidx] at hsel
    simp only at hsel
    have hneg : ¬ (i ≥ 0) := by omega
    simp only [hidx, hneg, if_false, writeOutBuf_eq, FSM.hasHandler, FSM.skipLen, FSM.window, hwl]
    by_cases hc : isEOF = false ∧ (states cur).skipMaxLen > 0
    · simp only [hc, and_self, if_true]
      by_cases hs : ((src1 : Int) - ((states cur).skipMaxLen : Int) + 1) > 0
      · have e1 : ((src1 : Int) - ((states cur).skipMaxLen : Int) + 1).toNat
            = src1 + 1 - (states cur).skipMaxLen := by omega
        have hle : src1 + 1 - (states cur).skipMaxLen ≤ src1 := by omega
        have hm2 : (src1 + 1 - (states cur).skipMaxLen) ⊓ src1
            = src1 + 1 - (states cur).skipMaxLen := Nat.min_eq_left hle
        have hlit : slice src 0 (0 + (src1 + 1 - (states cur).skipMaxLen))
            = (slice src 0 src1).take (src1 + 1 - (states cur).skipMaxLen) :=
          slice_take _ _ _ _ (by omega)
        simp only [hs, if_true, e1, hlit]
        cases hH : ((states cur).NextStates.any fun s => s.DataHandler.isSome) <;>
          simp only [if_true, if_false, Bool.false_eq_true] <;>
          refine ⟨_, rfl, ⟨by simp [hwl], h1⟩, ?_⟩ <;>
          simp [FSM.view, FSM.window, slice, List.drop_take, hwl, hle, hm1, hm2]
      · have e1 : src1 + 1 - (states cur).skipMaxLen = 0 := by omega
        simp only [hs, if_false, e1]
        refine ⟨_, rfl, ⟨by simp, h1⟩, ?_⟩
        simp [FSM.view, FSM.window]
    · simp only [hc, if_false]
      have hlit : slice src 0 (0 + src1) = (slice src 0 src1).take src1 :=
        slice_take _ _ _ _ (by omega)
      by_cases hs : ((src1 : Int)) > 0
      · simp only [hs, if_true, Int.toNat_natCast, hlit]
        cases hH : ((states cur).NextStates.any fun s => s.DataHandler.isSome) <;>
          simp only [if_true, if_false, Bool.false_eq_true] <;>
          refine ⟨_, rfl, ⟨by simp [hwl], h1⟩, ?_⟩ <;>
          simp [FSM.view, FSM.window, slice, List.drop_take, hwl, hm1]
      · have e1 : src1 = 0 := by omega
        subst e1
        simp only [hs, if_false]
        refine ⟨_, rfl, ⟨by simp, h1⟩, ?_⟩
        simp [FSM.view, FSM.window, slice]

theorem savePrev_eq (fsm : FSM) (src : List Byte) :
    fsm.savePrev src = { fsm with
      prevSrc := (fsm.savePrev src).prevSrc
      prevSrcL := (fsm.savePrev src).prevSrcL } := by
  unfold FSM.savePrev
  simp only
  split
  · rfl
  · split <;> rfl

theorem copyInto_front (a data : List Byte) (h : data.length ≤ a.length) :
    copyInto a 0 data = (data ++ a.drop data.length, data.length) := by
  simp [copyInto, Nat.min_eq_right h]

theorem copyInto_length (a : List Byte) (off : Nat) (data : List Byte) :
    (copyInto a off data).1.length = a.length := by
  simp only [copyInto, List.length_append, List.length_take, List.length_drop]
  omega

theorem copyInto_window (a : List Byte) (off : Nat) (data : List Byte)
    (h : off + data.length ≤ a.length) :
    (copyInto a off data).1.take (off + data.length) = a.take off ++ data := by
  have hmin : (a.length - off) ⊓ data.length = data.length := Nat.min_eq_right (by omega)
  have hl : (a.take off ++ data).length = off + data.length := by simp; omega
  simp only [copyInto, hmin, List.take_length]
  rw [← hl, List.take_left]

theorem compact_view (m : FSM) (hb : m.Bounds) : m.compact.LoopTop ∧ m.compact.view = m.view := by
  rcases m with ⟨cur, states, uctx, deferred, dst, src, src0, src1, prevSrc, prevSrcL,
    prevEscs, isEOF, r, gpos, glog⟩
  obtain ⟨h0, h1⟩ := hb
  simp only at h0 h1
  unfold FSM.compact
  by_cases hpos : src0 > 0
  · have hlen : (slice src src0 src1).length = src1 - src0 := slice_length _ _ _ h1
    have hle : (slice src src0 src1).length ≤ src.length := by omega
    simp only [hpos, if_true]
    rw [savePrev_eq]
    simp only [copyInto_front _ _ hle]
    constructor
    · refine ⟨rfl, ?_⟩
      simp only [List.length_append, List.length_drop]
      omega
    · simp only [FSM.view, FSM.window, List.length_append, List.length_drop]
      have e : slice (slice src src0 src1 ++ List.drop (slice src src0 src1).length src) 0
          (slice src src0 src1).length = slice src src0 src1 := by
        simp [slice]
      rw [e]
      have e2 : (slice src src0 src1).length + (src.length - (slice src src0 src1).length)
          = src.length := by omega
      rw [e2]
      rfl
  · rw [if_neg hpos]
    have : src0 = 0 := by omega
    subst this
    exact ⟨⟨rfl, h1⟩, rfl⟩

theorem Read_length (r : Reader) (plen : Nat) : (Reader.Read r plen).1.length ≤ plen := by
  unfold Reader.Read
  split
  · simp
  · split
    · simpa
    · simp
  · split
    · simpa
    · simp
  · simp
  · split
    · simpa
    · simp

theorem copyInto_before (a : List Byte) (off : Nat) (data : List Byte) (h : off ≤ a.length) :
    (copyInto a off data).1.take off = a.take off := by
  simp only [copyInto, List.append_assoc]
  rw [List.take_append_of_le_length (by simp [h]), List.take_take]
  simp

theorem slice_zero (a : List Byte) (hi : Nat) : slice a 0 hi = a.take hi := by
  simp [slice]

theorem pull_nil (f : FSM) (htop : f.LoopTop) (bs : List Byte) (r' : Reader)
    (hr : Reader.Read f.r (f.src.length - f.src1) = (bs, none, r')) :
    ∃ g, f.pull = .again g ∧ g.LoopTop ∧
      g.view = { f.view with r := r', win := f.window ++ bs } := by
  have hlen := Read_length f.r (f.src.length - f.src1)
  rw [hr] at hlen
  simp only at hlen
  rcases f with ⟨cur, states, uctx, deferred, dst, src, src0, src1, prevSrc, prevSrcL,
    prevEscs, isEOF, r, gpos, glog⟩
  obtain ⟨h0, h1⟩ := htop
  simp only at h0 h1 hr hlen
  subst h0
  unfold FSM.pull
  simp only [hr]
  refine ⟨_, rfl, ⟨rfl, ?_⟩, ?_⟩
  · simp only [copyInto_length]; omega
  · simp only [FSM.view, FSM.window, slice_zero, copyInto_length]
    rw [copyInto_window _ _ _ (by omega)]

theorem pull_err (f : FSM) (htop : f.LoopTop) (bs : List Byte) (e : GoError) (r' : Reader)
    (hr : Reader.Read f.r (f.src.length - f.src1) = (bs, some e, r')) (he : e ≠ GoError.EOF) :
    ∃ g, f.pull = .ret [] (some e) g ∧ g.LoopTop ∧ g.view = { f.view with r := r' } := by
  rcases f with ⟨cur, states, uctx, deferred, dst, src, src0, src1, prevSrc, prevSrcL,
    prevEscs, isEOF, r, gpos, glog⟩
  obtain ⟨h0, h1⟩ := htop
  simp only at h0 h1 hr
  subst h0
  unfold FSM.pull
  simp only [hr]
  cases e with
  | EOF => exact absurd rfl he
  | other id =>
    refine ⟨_, rfl, ⟨rfl, ?_⟩, ?_⟩
    · simp only [copyInto_length]; omega
    · simp only [FSM.view, FSM.window, slice_zero, copyInto_length]
      rw [copyInto_before _ _ _ h1]
  | wrap msg inner =>
    refine ⟨_, rfl, ⟨rfl, ?_⟩, ?_⟩
    · simp only [copyInto_length]; omega
    · simp only [FSM.view, FSM.window, slice_zero, copyInto_length]
      rw [copyInto_before _ _ _ h1]

theorem pull_eof_done (f : FSM) (htop : f.LoopTop) (bs : List Byte) (r' : Reader)
    (hr : Reader.Read f.r (f.src.length - f.src1) = (bs, some GoError.EOF, r'))
    (hw : f.window = []) (hd : f.dst = []) (hdef : f.deferredBuf = []) :
    ∃ g, f.pull = .ret [] (some GoError.EOF) g ∧ g.LoopTop ∧
      g.view = { f.view with r := r', isEOF := true } := by
  rcases f with ⟨cur, states, uctx, deferred, dst, src, src0, src1, prevSrc, prevSrcL,
    prevEscs, isEOF, r, gpos, glog⟩
  obtain ⟨h0, h1⟩ := htop
  simp only at h0 h1 hr hd hdef
  subst h0 hd hdef
  have hs1 : src1 = 0 := by
    have := congrArg List.length hw
    simp only [FSM.window, slice_length _ _ _ h1, List.length_nil] at this
    omega
  subst hs1
  unfold FSM.pull
  simp only [hr]
  refine ⟨_, rfl, ⟨rfl, ?_⟩, ?_⟩
  · simp
  · simp [FSM.view, FSM.window, slice_zero, copyInto_length]

theorem pull_eof_flush (f : FSM) (htop : f.LoopTop) (bs : List Byte) (r' : Reader)
    (hr : Reader.Read f.r (f.src.length - f.src1) = (bs, some GoError.EOF, r'))
    (hw : f.window = []) (hne : f.dst ++ f.deferredBuf ≠ []) :
    ∃ g, f.pull = .again g ∧ g.LoopTop ∧
      g.view = { f.view with
        r := r', isEOF := true, dst := f.dst ++ f.deferredBuf, deferredBuf := [], win := bs } := by
  have hlen := Read_length f.r (f.src.length - f.src1)
  rw [hr] at hlen
  simp only at hlen
  rcases f with ⟨cur, states, uctx, deferred, dst, src, src0, src1, prevSrc, prevSrcL,
    prevEscs, isEOF, r, gpos, glog⟩
  obtain ⟨h0, h1⟩ := htop
  simp only at h0 h1 hr hne hlen
  subst h0
  have hs1 : src1 = 0 := by
    have := congrArg List.length hw
    simp only [FSM.window, slice_length _ _ _ h1, List.length_nil] at this
    omega
  subst hs1
  unfold FSM.pull
  simp only [hr, ↓reduceIte]
  split
  · rename_i h
    exact absurd (List.length_eq_zero.mp h.1) hne
  · refine ⟨_, rfl, ⟨rfl, ?_⟩, ?_⟩
    · simp only [copyInto_length]; omega
    · simp only [FSM.view, FSM.window, slice_zero, copyInto_length]
      have := copyInto_window src 0 bs (by omega)
      simp only [Nat.zero_add, List.take_zero, List.nil_append] at this ⊢
      rw [this]

theorem pull_eof_more (f : FSM) (htop : f.LoopTop) (bs : List Byte) (r' : Reader)
    (hr : Reader.Read f.r (f.src.length - f.src1) = (bs, some GoError.EOF, r'))
    (hw : f.window ≠ []) :
    ∃ g, f.pull = .again g ∧ g.LoopTop ∧
      g.view = { f.view with r := r', isEOF := true, win := f.window ++ bs } := by
  have hlen := Read_length f.r (f.src.length - f.src1)
  rw [hr] at hlen
  simp only at hlen
  rcases f with ⟨cur, states, uctx, deferred, dst, src, src0, src1, prevSrc, prevSrcL,
    prevEscs, isEOF, r, gpos, glog⟩
  obtain ⟨h0, h1⟩ := htop
  simp only at h0 h1 hr hlen
  subst h0
  have hs1 : src1 ≠ 0 := by
    intro h
    apply hw
    simp [FSM.window, slice, h]
  unfold FSM.pull
  simp only [hr]
  have hne : ¬ (src1 - 0 = 0) := by omega
  simp only [hne, ↓reduceIte]
  split
  · rename_i h
    exact absurd h.2 (by simp)
  · refine ⟨_, rfl, ⟨rfl, ?_⟩, ?_⟩
    · simp only [copyInto_length]; omega
    · simp only [FSM.view, FSM.window, slice_zero, copyInto_length]
      rw [copyInto_window _ _ _ (by omega)]

theorem window_length (f : FSM) (htop : f.LoopTop) : f.window.length = f.src1 := by
  obtain ⟨h0, h1⟩ := htop
  unfold FSM.window
  rw [slice_length _ _ _ h1, h0]
  omega

theorem pull_desc (f : FSM) (htop : f.LoopTop) (cs : List (List Byte)) (hr : f.r = chunked cs) :
    PullDesc f.view f.pull := by
  have hwl := window_length f htop
  have hplen : f.src.length - f.src1 = f.view.cap - f.view.win.length := by
    simp only [FSM.view, hwl]
  cases cs with
  | nil =>
    have hread : Reader.Read f.r (f.src.length - f.src1) = ([], some GoError.EOF, []) := by
      rw [hr]; rfl
    have hr' : f.view.r = [] := by simp only [FSM.view, hr]; rfl
    by_cases hw : f.window = []
    · by_cases hd : f.dst ++ f.deferredBuf = []
      · obtain ⟨hd1, hd2⟩ := List.append_eq_nil.mp hd
        obtain ⟨g, hg, hgt, hgv⟩ := pull_eof_done f htop [] [] hread hw hd1 hd2
        right; left
        refine ⟨hr', hw, hd1, hd2, g, hg, hgt, ?_⟩
        rw [hgv]
        simp only [FSM.view, hr]
        rfl
      · obtain ⟨g, hg, hgt, hgv⟩ := pull_eof_flush f htop [] [] hread hw hd
        right; right; left
        refine ⟨hr', hw, hd, g, hg, hgt, ?_⟩
        rw [hgv]
        simp only [FSM.view, hr, hw]
        rfl
    · obtain ⟨g, hg, hgt, hgv⟩ := pull_eof_more f htop [] [] hread hw
      right; right; right
      refine ⟨hr', hw, g, hg, hgt, ?_⟩
      rw [hgv]
      simp only [FSM.view, hr, List.append_nil]
      rfl
  | cons c rest =>
    left
    have hr' : f.view.r = ReadEvent.data c :: chunked rest := by
      simp only [FSM.view, hr]; rfl
    by_cases hfit : c.length ≤ f.src.length - f.src1
    · have hread : Reader.Read f.r (f.src.length - f.src1) = (c, none, chunked rest) := by
        rw [hr]
        simp only [chunked, List.map_cons, Reader.Read, hfit, if_true]
      obtain ⟨g, hg, hgt, hgv⟩ := pull_nil f htop c (chunked rest) hread
      refine ⟨c, chunked rest, g, hr', hg, hgt, ?_⟩
      rw [hgv, ← hplen, if_pos hfit, List.take_of_length_le hfit]
      rfl
    · have hread : Reader.Read f.r (f.src.length - f.src1) =
          (c.take (f.src.length - f.src1), none,
            ReadEvent.data (c.drop (f.src.length - f.src1)) :: chunked rest) := by
        rw [hr]
        simp only [chunked, List.map_cons, Reader.Read, hfit, if_false]
      obtain ⟨g, hg, hgt, hgv⟩ := pull_nil f htop _ _ hread
      refine ⟨c, chunked rest, g, hr', hg, hgt, ?_⟩
      rw [hgv, ← hplen, if_neg hfit]
      rfl

theorem iter_drain (fsm : FSM) (d : Nat) (h : fsm.dst ≠ []) :
    fsm.iter d = .ret (fsm.dst.take d) none { fsm with dst := fsm.dst.drop d } := by
  unfold FSM.iter
  have : fsm.dst.length > 0 := List.length_pos.mpr h
  simp only [this, if_true]

theorem iter_of_again (fsm m : FSM) (d : Nat) (h : fsm.dst = []) (hw : fsm.src1 - fsm.src0 > 0)
    (hm : fsm.matchPhase (fsm.states fsm.curState) = .again m) :
    fsm.iter d = m.compact.pull := by
  unfold FSM.iter
  have : ¬ fsm.dst.length > 0 := by simp [h]
  simp only [this, if_false, hw, if_true, hm]

theorem iter_of_ret (fsm m : FSM) (d : Nat) (p : List Byte) (e : Option GoError)
    (h : fsm.dst = []) (hw : fsm.src1 - fsm.src0 > 0)
    (hm : fsm.matchPhase (fsm.states fsm.curState) = .ret p e m) :
    fsm.iter d = .ret p e m := by
  unfold FSM.iter
  have : ¬ fsm.dst.length > 0 := by simp [h]
  simp only [this, if_false, hw, if_true, hm]

theorem iter_of_empty (fsm : FSM) (d : Nat) (h : fsm.dst = []) (hw : ¬ fsm.src1 - fsm.src0 > 0) :
    fsm.iter d = fsm.compact.pull := by
  unfold FSM.iter
  have : ¬ fsm.dst.length > 0 := by simp [h]
  simp only [this, if_false, hw]

theorem pull_after (m : FSM) (hb : m.Bounds) (cs : List (List Byte)) (hr : m.view.r = chunked cs) :
    PullDesc m.view m.compact.pull := by
  obtain ⟨htop, hv⟩ := compact_view m hb
  have hr' : m.compact.r = chunked cs := by
    have : m.compact.view.r = chunked cs := by rw [hv]; exact hr
    exact this
  have := pull_desc m.compact htop cs hr'
  rw [hv] at this
  exact this

theorem hit_of_select (fsm : FSM) (i : Nat) (ns : NextState)
    (hsel : fsm.select = ((i : Int), ns))
    (hmem : ns ∈ (fsm.states fsm.curState).NextStates)
    (hidx : ns.Switch.index fsm.window fsm.tailBytes fsm.prevEscs fsm.isEOF = (i : Int))
    (hocc : OccursAt ns.Switch.Trigger fsm.window i)
    (hb : i + ns.Switch.Trigger.length ≤ fsm.window.length) :
    fsm.view.Hit i ns :=
  ⟨⟨fsm.tailBytes, fsm.prevEscs, hsel, hidx⟩, hmem, hocc, hb⟩

theorem iter_cases (fsm : FSM) (d : Nat) (htop : fsm.LoopTop) (cs : List (List Byte))
    (hr : fsm.r = chunked cs) : IterDesc fsm.view d (fsm.iter d) := by
  have hwl := window_length fsm htop
  have h0 : fsm.src0 = 0 := htop.1
  have hpos : fsm.view.pos = fsm.ghostPos := by simp only [FSM.view, h0]; omega
  by_cases hdst : fsm.dst = []
  · by_cases hw : fsm.src1 - fsm.src0 > 0
    · have hwne : fsm.view.win ≠ [] := by
        intro h
        have := congrArg List.length h
        simp only [FSM.view, hwl, List.length_nil] at this
        omega
      rcases select_cases fsm with ⟨hneg, hall⟩ | ⟨i, ns, hsel, hmem, hidx, hle, hocc, hb⟩
      · -- no transition matches
        obtain ⟨m, hm, hmb, hmv⟩ := matchPhase_miss fsm htop (by omega)
        right; left
        refine ⟨hdst, m.view, ?_, ?_⟩
        · right; right; right
          refine ⟨hwne, ⟨fsm.tailBytes, fsm.prevEscs, hall⟩, ?_⟩
          rw [hmv]
          simp only [View.afterMiss, hpos]
          rfl
        · rw [iter_of_again fsm m d hdst hw hm]
          exact pull_after m hmb cs (by rw [hmv]; exact hr)
      · have hhit := hit_of_select fsm i ns hsel hmem hidx hocc hb
        cases hh : ns.DataHandler with
        | none =>
          obtain ⟨m, hm, hmb, hmv⟩ := matchPhase_hit_none fsm i ns htop hsel hb hh
          right; left
          refine ⟨hdst, m.view, ?_, ?_⟩
          · right; left
            refine ⟨i, ns, hwne, hhit, hh, ?_⟩
            rw [hmv]
            simp only [View.afterPass, hpos]
            rfl
          · rw [iter_of_again fsm m d hdst hw hm]
            exact pull_after m hmb cs (by rw [hmv]; exact hr)
        | some h =>
          have hH := hasHandler_of_mem fsm ns h hmem hh
          cases hres : h fsm.userCtx (fsm.deferredBuf ++ fsm.window.take i) ns.Switch.Trigger with
          | mk dd err =>
            cases err with
            | none =>
              obtain ⟨m, hm, hmb, hmv⟩ := matchPhase_hit_ok fsm i ns h dd htop hsel hb hh hH hres
              right; left
              refine ⟨hdst, m.view, ?_, ?_⟩
              · right; right; left
                refine ⟨i, ns, h, dd, hwne, hhit, hh, hres, ?_⟩
                rw [hmv]
                simp only [View.afterHandler, hpos]
                rfl
              · rw [iter_of_again fsm m d hdst hw hm]
                exact pull_after m hmb cs (by rw [hmv]; exact hr)
            | some e =>
              obtain ⟨m, hm, hmb, hmv⟩ :=
                matchPhase_hit_err fsm i ns h dd e htop hsel hb hh hH hres
              right; right
              refine ⟨hdst, e, m.view, m, ⟨i, ns, h, dd, hwne, hhit, hh, hres, ?_⟩, ?_, rfl⟩
              · rw [hmv]
                simp only [View.afterFailure, hpos]
                rfl
              · exact iter_of_ret fsm m d _ _ hdst hw hm
    · have hwe : fsm.view.win = [] := by
        apply List.eq_nil_of_length_eq_zero
        simp only [FSM.view, hwl]
        omega
      right; left
      refine ⟨hdst, fsm.view, Or.inl ⟨hwe, rfl⟩, ?_⟩
      rw [iter_of_empty fsm d hdst hw]
      exact pull_after fsm ⟨by omega, htop.2⟩ cs hr
  · left
    refine ⟨hdst, _, iter_drain fsm d hdst, htop, rfl⟩

/-! ## Running the loop to the end -/

theorem readAll_induction (d : Nat) (P : FSM → Prop)
    (Q : FSM → List Byte → GoError → FSM → Prop)
    (hstep : ∀ fsm, P fsm →
      match fsm.iter d with
      | .again f => P f ∧ f.view.rank < fsm.view.rank ∧ ∀ o e g, Q f o e g → Q fsm o e g
      | .ret p none f => P f ∧ f.view.rank ≤ fsm.view.rank ∧ f.dst.length < fsm.dst.length ∧
          ∀ o e g, Q f o e g → Q fsm (p ++ o) e g
      | .ret p (some e) f => Q fsm p e f) :
    ∀ fsm, P fsm → ∀ out,
      ∃ fuel o e g, FSM.readAll d fuel fsm out = some (out ++ o, e, g) ∧ Q fsm o e g := by
  have main : ∀ n l, ∀ fsm : FSM, fsm.view.rank = n → fsm.dst.length = l → P fsm → ∀ out,
      ∃ fuel o e g, FSM.readAll d fuel fsm out = some (out ++ o, e, g) ∧ Q fsm o e g := by
    intro n
    induction n using Nat.strong_induction_on with
    | _ n ihn =>
      intro l
      induction l using Nat.strong_induction_on with
      | _ l ihl =>
        intro fsm hn hl hP out
        have hs := hstep fsm hP
        cases hit : fsm.iter d with
        | again f =>
          rw [hit] at hs
          obtain ⟨hPf, hlt, hQ⟩ := hs
          obtain ⟨fuel, o, e, g, hrun, hq⟩ :=
            ihn f.view.rank (by omega) f.dst.length f rfl rfl hPf out
          exact ⟨fuel + 1, o, e, g, by simp only [FSM.readAll, hit, hrun], hQ _ _ _ hq⟩
        | ret p err f =>
          rw [hit] at hs
          cases err with
          | some e =>
            exact ⟨1, p, e, f, by simp only [FSM.readAll, hit], hs⟩
          | none =>
            obtain ⟨hPf, hle, hlt, hQ⟩ := hs
            have hsub : ∃ fuel o e g,
                FSM.readAll d fuel f (out ++ p) = some (out ++ p ++ o, e, g) ∧ Q f o e g := by
              by_cases heq : f.view.rank = n
              · exact ihl f.dst.length (by omega) f heq rfl hPf (out ++ p)
              · exact ihn f.view.rank (by omega) f.dst.length f rfl rfl hPf (out ++ p)
            obtain ⟨fuel, o, e, g, hrun, hq⟩ := hsub
            refine ⟨fuel + 1, p ++ o, e, g, ?_, hQ _ _ _ hq⟩
            simp only [FSM.readAll, hit, hrun, List.append_assoc]
  intro fsm hP out
  exact main _ _ fsm rfl rfl hP out

/-! ## What one pass through the loop leaves unchanged, and its progress -/

theorem matchDesc_frame {v mv : View} (h : MatchDesc v mv) :
    mv.states = v.states ∧ mv.userCtx = v.userCtx ∧ mv.cap = v.cap ∧ mv.isEOF = v.isEOF ∧
      mv.r = v.r ∧ mv.win.length ≤ v.win.length := by
  rcases h with ⟨_, rfl⟩ | ⟨i, ns, _, _, _, rfl⟩ | ⟨i, ns, h, d, _, _, _, _, rfl⟩ | ⟨_, _, rfl⟩
  · exact ⟨rfl, rfl, rfl, rfl, rfl, le_refl _⟩
  · refine ⟨rfl, rfl, rfl, rfl, rfl, ?_⟩
    simp only [View.afterPass, List.length_drop]; omega
  · refine ⟨rfl, rfl, rfl, rfl, rfl, ?_⟩
    simp only [View.afterHandler, List.length_drop]; omega
  · refine ⟨rfl, rfl, rfl, rfl, rfl, ?_⟩
    simp only [View.afterMiss, List.length_drop]; omega

theorem chunked_cons (c : List Byte) (rest : Reader) (cs : List (List Byte))
    (h : chunked cs = ReadEvent.data c :: rest) : ∃ cs', cs = c :: cs' ∧ rest = chunked cs' := by
  cases cs with
  | nil => simp [chunked] at h
  | cons c' cs' =>
    simp only [chunked, List.map_cons, List.cons.injEq, ReadEvent.data.injEq] at h
    exact ⟨cs', by rw [h.1], h.2.symm⟩

theorem pullDesc_frame {mv : View} {out : Outcome} (h : PullDesc mv out)
    (cs : List (List Byte)) (hr : mv.r = chunked cs) :
    out.fsm.LoopTop ∧ out.fsm.view.states = mv.states ∧ out.fsm.view.userCtx = mv.userCtx ∧
      out.fsm.view.cap = mv.cap ∧ out.fsm.view.curState = mv.curState ∧
      out.fsm.view.log = mv.log ∧ out.fsm.view.pos = mv.pos ∧
      ∃ cs', out.fsm.view.r = chunked cs' := by
  rcases h with ⟨c, rest, f, hc, rfl, htop, hv⟩ | ⟨hn, _, _, _, f, rfl, htop, hv⟩ |
    ⟨hn, _, _, f, rfl, htop, hv⟩ | ⟨hn, _, f, rfl, htop, hv⟩
  · refine ⟨htop, ?_⟩
    simp only [Outcome.fsm, hv, true_and]
    rw [hr] at hc
    obtain ⟨cs', _, hrest⟩ := chunked_cons c rest cs hc
    by_cases hfit : c.length ≤ mv.cap - mv.win.length
    · exact ⟨cs', by rw [if_pos hfit, hrest]⟩
    · exact ⟨c.drop (mv.cap - mv.win.length) :: cs', by rw [if_neg hfit, hrest]; rfl⟩
  · refine ⟨htop, ?_⟩
    simp only [Outcome.fsm, hv, true_and]
    exact ⟨[], by rw [hn]; rfl⟩
  · refine ⟨htop, ?_⟩
    simp only [Outcome.fsm, hv, true_and]
    exact ⟨[], by rw [hn]; rfl⟩
  · refine ⟨htop, ?_⟩
    simp only [Outcome.fsm, hv, true_and]
    exact ⟨[], by rw [hn]; rfl⟩

theorem view_win_le (f : FSM) (htop : f.LoopTop) : f.view.win.length ≤ f.view.cap := by
  have := window_length f htop
  simp only [FSM.view, this]
  exact htop.2

theorem pending_chunked_cons (c : List Byte) (cs : List (List Byte)) :
    Reader.pending (ReadEvent.data c :: chunked cs) = c ++ Reader.pending (chunked cs) := rfl

/-- Progress of lines 104-168: the rank does not grow; it drops by two, or
nothing was routed and the window leaves room for the next read. -/
theorem log_grows_ne (l : List Fired) (ev : Fired) : l ++ [ev] ≠ l := by
  intro h
  have := congrArg List.length h
  simp at this

theorem matchDesc_rank {v mv : View} (h : MatchDesc v mv) (hd : v.dst = [])
    (hcap : 0 < v.cap) (hfoot : (v.states v.curState).skipMaxLen ≤ v.cap)
    (hne : (∀ i ns, v.Hit i ns → ns.Switch.Trigger ≠ []) ∨ mv.log = v.log) :
    mv.rank + 2 ≤ v.rank ∨
    (mv.rank = v.rank ∧ mv.dst = [] ∧ mv.win.length < mv.cap ∧
      (mv.isEOF = true → mv.win = [])) := by
  rcases h with ⟨hw, rfl⟩ | ⟨i, ns, _, hhit, _, rfl⟩ | ⟨i, ns, h, d, _, hhit, _, _, rfl⟩ |
    ⟨hw, _, rfl⟩
  · right
    exact ⟨rfl, hd, by rw [hw]; exact hcap, fun _ => hw⟩
  · left
    rcases hne with hne | hlog
    · have hpos : 0 < ns.Switch.Trigger.length := List.length_pos.mpr (hne i ns hhit)
      have hb := hhit.2.2.2
      simp only [View.rank, View.afterPass, List.length_drop, List.length_nil]
      have : min 1 v.deferredBuf.length ≥ 0 := Nat.zero_le _
      split <;> omega
    · exact absurd hlog (log_grows_ne _ _)
  · left
    rcases hne with hne | hlog
    · have hpos : 0 < ns.Switch.Trigger.length := List.length_pos.mpr (hne i ns hhit)
      have hb := hhit.2.2.2
      simp only [View.rank, View.afterHandler, List.length_drop, List.length_nil]
      split <;> omega
    · exact absurd hlog (log_grows_ne _ _)
  · have hwpos : 0 < v.win.length := List.length_pos.mpr hw
    by_cases hs : v.skipLen = 0
    · right
      have hmv : v.afterMiss = v := by
        simp only [View.afterMiss, hs, List.take_zero, List.append_nil, List.drop_zero,
          Nat.add_zero, ite_self]
      rw [hmv]
      unfold View.skipLen at hs
      split at hs
      · rename_i hc
        refine ⟨rfl, hd, by omega, ?_⟩
        intro he
        rw [he] at hc
        exact absurd hc.1 (by simp)
      · omega
    · left
      have hle : v.skipLen ≤ v.win.length := by
        unfold View.skipLen; split <;> omega
      simp only [View.rank, View.afterMiss, List.length_drop]
      have h1 : min 1 (if v.hasHandler = true then v.deferredBuf ++ List.take v.skipLen v.win
          else v.deferredBuf).length ≤ 1 := Nat.min_le_left _ _
      split <;> omega

theorem rank_pos_of_not_eof (v : View) (h : v.isEOF = false) : 0 < v.rank := by
  simp only [View.rank, h]
  simp

/-- Progress of lines 170-226. -/
theorem pullDesc_rank {mv : View} {out : Outcome} (h : PullDesc mv out)
    (cs : List (List Byte)) (hr : mv.r = chunked cs) :
    (∀ f, out = .again f →
      f.view.rank ≤ mv.rank ∧
      ((mv.dst = [] ∧ mv.win.length < mv.cap ∧ (mv.isEOF = true → mv.win = [])) →
        f.view.rank < mv.rank)) ∧
    (∀ p f, out ≠ .ret p none f) := by
  rcases h with ⟨c, rest, f, hc, rfl, htop, hv⟩ | ⟨hn, _, _, _, f, rfl, htop, hv⟩ |
    ⟨hn, hw, hne, f, rfl, htop, hv⟩ | ⟨hn, hw, f, rfl, htop, hv⟩
  · refine ⟨?_, (by intro p f h; cases h)⟩
    intro f' hf'
    cases hf'
    have hc' := hc
    rw [hr] at hc'
    obtain ⟨cs', _, hrest⟩ := chunked_cons c rest cs hc'
    subst hrest
    rw [hv]
    by_cases hfit : c.length ≤ mv.cap - mv.win.length
    · simp only [View.rank, if_pos hfit, List.length_append, List.take_of_length_le hfit, hc,
        pending_chunked_cons, List.length_cons]
      constructor
      · omega
      · intro _; omega
    · have hlt : mv.cap - mv.win.length < c.length := by omega
      simp only [View.rank, if_neg hfit, List.length_append, List.length_take, hc,
        pending_chunked_cons, List.length_cons, List.length_drop,
        Nat.min_eq_left (Nat.le_of_lt hlt)]
      constructor
      · omega
      · intro ⟨_, hroom, _⟩; omega
  · exact ⟨(by intro f h; cases h), (by intro p f h; cases h)⟩
  · refine ⟨?_, (by intro p f h; cases h)⟩
    intro f' hf'
    cases hf'
    rw [hv]
    simp only [View.rank, List.length_nil, if_true]
    constructor
    · split <;> omega
    · intro ⟨hd, _, _⟩
      rw [hd] at hne
      have : 0 < mv.deferredBuf.length := List.length_pos.mpr (by simpa using hne)
      split <;> omega
  · refine ⟨?_, (by intro p f h; cases h)⟩
    intro f' hf'
    cases hf'
    rw [hv]
    simp only [View.rank, if_true]
    constructor
    · split <;> omega
    · intro ⟨_, _, he⟩
      cases hE : mv.isEOF with
      | true => exact absurd (he hE) hw
      | false => simp

/-- What every continuing pass through the loop keeps: the offsets of the top
of the loop, the table, the user context, the capacity and a chunked reader. -/
theorem iterDesc_frame {v : View} {d : Nat} {out : Outcome} (h : IterDesc v d out)
    (cs : List (List Byte)) (hr : v.r = chunked cs)
    (hcont : (∃ f, out = .again f) ∨ (∃ p f, out = .ret p none f)) :
    out.fsm.LoopTop ∧ out.fsm.view.states = v.states ∧ out.fsm.view.userCtx = v.userCtx ∧
      out.fsm.view.cap = v.cap ∧ ∃ cs', out.fsm.view.r = chunked cs' := by
  rcases h with ⟨_, f, rfl, htop, hv⟩ | ⟨_, mv, hm, hp⟩ | ⟨_, e, mv, f, _, rfl, _⟩
  · simp only [Outcome.fsm, hv]
    exact ⟨htop, trivial, trivial, trivial, cs, hr⟩
  · obtain ⟨h1, h2, h3, _, h5, _⟩ := matchDesc_frame hm
    obtain ⟨g1, g2, g3, g4, _, _, _, g8⟩ := pullDesc_frame hp cs (by rw [h5]; exact hr)
    exact ⟨g1, by rw [g2, h1], by rw [g3, h2], by rw [g4, h3], g8⟩
  · rcases hcont with ⟨f', hf'⟩ | ⟨p, f', hf'⟩ <;> cases hf'

/-- Progress of one pass through the loop, for a state whose footprint fits
the buffer and whose matches have non-empty triggers. -/
theorem iterDesc_progress {v : View} {d : Nat} {out : Outcome} (h : IterDesc v d out)
    (hd : 0 < d) (hcap : 0 < v.cap)
    (hfoot : (v.states v.curState).skipMaxLen ≤ v.cap)
    (hne : (∀ i ns, v.Hit i ns → ns.Switch.Trigger ≠ []) ∨ out.fsm.view.log = v.log)
    (cs : List (List Byte)) (hr : v.r = chunked cs) :
    (∀ f, out = .again f → f.view.rank < v.rank) ∧
    (∀ p f, out = .ret p none f →
      f.view.rank ≤ v.rank ∧ f.view.dst.length < v.dst.length) := by
  rcases h with ⟨hdst, f, rfl, htop, hv⟩ | ⟨hdst, mv, hm, hp⟩ | ⟨_, e, mv, f, _, rfl, _⟩
  · refine ⟨(by intro f' h; cases h), ?_⟩
    intro p f' h
    cases h
    rw [hv]
    refine ⟨le_refl _, ?_⟩
    have : 0 < v.dst.length := List.length_pos.mpr hdst
    simp only [List.length_drop]
    omega
  · obtain ⟨_, _, _, _, h5, _⟩ := matchDesc_frame hm
    obtain ⟨hr1, hr2⟩ := pullDesc_rank hp cs (by rw [h5]; exact hr)
    have hlogf := (pullDesc_frame hp cs (by rw [h5]; exact hr)).2.2.2.2.2.1
    have hne' : (∀ i ns, v.Hit i ns → ns.Switch.Trigger ≠ []) ∨ mv.log = v.log := by
      rcases hne with h | h
      · exact Or.inl h
      · exact Or.inr (by rw [← hlogf]; exact h)
    refine ⟨?_, fun p f h => absurd h (hr2 p f)⟩
    intro f hf
    obtain ⟨hle, hlt⟩ := hr1 f hf
    rcases matchDesc_rank hm hdst hcap hfoot hne' with h2 | ⟨heq, hrest⟩
    · omega
    · have := hlt hrest
      omega
  · exact ⟨(by intro f' h; cases h), (by intro p f' h; cases h)⟩

/-! ## Bytes in flight: what routing without a handler preserves -/

theorem occursAt_split {t w : List Byte} {i : Nat} (h : OccursAt t w i) :
    w = w.take i ++ t ++ w.drop (i + t.length) := by
  have hp := (occursAt_iff_starts _ _ _).mp h
  obtain ⟨r, hr⟩ := hp
  have h1 : w.drop (i + t.length) = r := by
    rw [← List.drop_drop, ← hr, List.drop_left]
  rw [h1, List.append_assoc, hr, List.take_append_drop]

theorem matchDesc_rest {v mv : View} (h : MatchDesc v mv)
    (hdef : v.deferredBuf ≠ [] → v.hasHandler = true)
    (hH : (∀ i ns, v.Hit i ns → ns.DataHandler = none) ∨ mv.log = v.log) :
    mv.rest = v.rest ∧ (mv.deferredBuf ≠ [] → mv.hasHandler = true) ∧
      (mv.log = v.log → mv.curState = v.curState) := by
  rcases h with ⟨_, rfl⟩ | ⟨i, ns, _, hhit, hnone, rfl⟩ | ⟨i, ns, h, d, _, hhit, hsome, _, rfl⟩ |
    ⟨_, _, rfl⟩
  · exact ⟨rfl, hdef, fun _ => rfl⟩
  · refine ⟨?_, (by intro h; exact absurd rfl h),
      (by intro h; exact absurd h (log_grows_ne _ _))⟩
    have hsplit := occursAt_split hhit.2.2.1
    simp only [View.rest, View.afterPass, List.append_nil]
    by_cases hh : v.hasHandler = true
    · rw [if_pos hh]
      conv_rhs => rw [hsplit]
      simp only [List.append_assoc]
    · rw [if_neg hh]
      have : v.deferredBuf = [] := by
        by_contra hne
        exact hh (hdef hne)
      rw [this]
      conv_rhs => rw [hsplit]
      simp only [List.append_assoc, List.append_nil, List.nil_append]
  · rcases hH with hH | hlog
    · have := hH i ns hhit
      rw [hsome] at this
      cases this
    · exact absurd hlog (log_grows_ne _ _)
  · have hsplit : v.win = v.win.take v.skipLen ++ v.win.drop v.skipLen :=
      (List.take_append_drop _ _).symm
    refine ⟨?_, ?_, fun _ => rfl⟩
    · simp only [View.rest, View.afterMiss]
      by_cases hh : v.hasHandler = true
      · simp only [if_pos hh]
        conv_rhs => rw [hsplit]
        simp only [List.append_assoc]
      · simp only [if_neg hh]
        have : v.deferredBuf = [] := by
          by_contra hne
          exact hh (hdef hne)
        rw [this]
        conv_rhs => rw [hsplit]
        simp only [List.append_assoc, List.append_nil, List.nil_append]
    · intro hne
      by_cases hh : v.hasHandler = true
      · exact hh
      · simp only [View.afterMiss, if_neg hh] at hne
        exact absurd (hdef hne) hh

theorem pending_chunked (cs : List (List Byte)) : Reader.pending (chunked cs) = cs.flatten := by
  induction cs with
  | nil => rfl
  | cons c cs ih =>
    show c ++ Reader.pending (chunked cs) = (c :: cs).flatten
    rw [ih]; rfl

theorem pullDesc_rest {mv : View} {out : Outcome} (h : PullDesc mv out) :
    (∀ f, out = .again f → f.view.rest = mv.rest ∧
      (f.view.deferredBuf ≠ [] → mv.deferredBuf ≠ [])) ∧
    (∀ p e f, out = .ret p (some e) f → p = [] ∧ e = GoError.EOF ∧ mv.rest = []) := by
  rcases h with ⟨c, rest, f, hc, rfl, htop, hv⟩ | ⟨hn, hw, hd, hdf, f, rfl, htop, hv⟩ |
    ⟨hn, hw, hne, f, rfl, htop, hv⟩ | ⟨hn, hw, f, rfl, htop, hv⟩
  · refine ⟨?_, (by intro p e f h; cases h)⟩
    intro f' hf'
    cases hf'
    rw [hv]
    refine ⟨?_, fun h => h⟩
    simp only [View.rest, hc]
    by_cases hfit : c.length ≤ mv.cap - mv.win.length
    · simp only [if_pos hfit, List.take_of_length_le hfit, Reader.pending, List.append_assoc]
    · have e : List.take (mv.cap - mv.win.length) c ++
          (List.drop (mv.cap - mv.win.length) c ++ Reader.pending rest)
          = c ++ Reader.pending rest := by
        rw [← List.append_assoc, List.take_append_drop]
      simp only [if_neg hfit, Reader.pending, List.append_assoc, e]
  · refine ⟨(by intro f h; cases h), ?_⟩
    intro p e f' h
    cases h
    refine ⟨rfl, rfl, ?_⟩
    simp only [View.rest, hn, hw, hd, hdf, Reader.pending, List.append_nil]
  · refine ⟨?_, (by intro p e f h; cases h)⟩
    intro f' hf'
    cases hf'
    rw [hv]
    refine ⟨?_, fun h => absurd rfl h⟩
    simp only [View.rest, List.append_nil]
  · refine ⟨?_, (by intro p e f h; cases h)⟩
    intro f' hf'
    cases hf'
    rw [hv]
    exact ⟨rfl, fun h => h⟩

theorem hasHandler_congr {v w : View} (h1 : w.states = v.states) (h2 : w.curState = v.curState) :
    w.hasHandler = v.hasHandler := by
  unfold View.hasHandler
  rw [h1, h2]

/-- One pass through the loop without a handler call keeps the bytes in flight:
what a call returns is their front, and the loop ends with `io.EOF` only when
none is left. -/
theorem iterDesc_rest {v : View} {d : Nat} {out : Outcome} (h : IterDesc v d out)
    (hdef : v.deferredBuf ≠ [] → v.hasHandler = true)
    (hH : (∀ i ns, v.Hit i ns → ns.DataHandler = none) ∨ out.fsm.view.log = v.log)
    (cs : List (List Byte)) (hr : v.r = chunked cs) :
    (∀ f, out = .again f → f.view.rest = v.rest ∧
      (f.view.deferredBuf ≠ [] → f.view.hasHandler = true)) ∧
    (∀ p f, out = .ret p none f → p ++ f.view.rest = v.rest ∧
      (f.view.deferredBuf ≠ [] → f.view.hasHandler = true)) ∧
    (∀ p e f, out = .ret p (some e) f → p = v.rest ∧ e = GoError.EOF) := by
  rcases h with ⟨hdst, f, rfl, htop, hv⟩ | ⟨hdst, mv, hm, hp⟩ | ⟨_, e, mv, f, hfail, rfl, hfv⟩
  · refine ⟨(by intro f' h; cases h), ?_, (by intro p e f' h; cases h)⟩
    intro p f' h
    cases h
    rw [hv]
    refine ⟨?_, hdef⟩
    simp only [View.rest, ← List.append_assoc, List.take_append_drop]
  · obtain ⟨f1, _, _, _, f5, _⟩ := matchDesc_frame hm
    have hfr := pullDesc_frame hp cs (by rw [f5]; exact hr)
    have hH' : (∀ i ns, v.Hit i ns → ns.DataHandler = none) ∨ mv.log = v.log := by
      rcases hH with h | h
      · exact Or.inl h
      · exact Or.inr (by rw [← hfr.2.2.2.2.2.1]; exact h)
    obtain ⟨hrest, hdef', _⟩ := matchDesc_rest hm hdef hH'
    obtain ⟨hp1, hp2⟩ := pullDesc_rest hp
    refine ⟨?_, ?_, ?_⟩
    · intro f hf
      obtain ⟨h1, h2⟩ := hp1 f hf
      refine ⟨by rw [h1, hrest], ?_⟩
      intro hne
      have hthis := hdef' (h2 hne)
      subst hf
      have hc := hasHandler_congr hfr.2.1 hfr.2.2.2.2.1
      simp only [Outcome.fsm] at hc
      rw [hc]
      exact hthis
    · intro p f hf
      exact absurd hf ((pullDesc_rank hp cs (by rw [f5]; exact hr)).2 p f)
    · intro p e f hf
      obtain ⟨h1, h2, h3⟩ := hp2 p e f hf
      exact ⟨by rw [h1, ← hrest, h3], h2⟩
  · obtain ⟨i, ns, h, dd, _, hhit, hsome, _, hmv⟩ := hfail
    rcases hH with hH | hlog
    · have := hH i ns hhit
      rw [hsome] at this
      cases this
    · simp only [Outcome.fsm, hfv, hmv, View.afterFailure] at hlog
      exact absurd hlog (log_grows_ne _ _)

/-! ## Tables without handlers are the identity -/

theorem Init_loopTop (r : Reader) (desc : Description) : (Init r desc).LoopTop :=
  ⟨rfl, Nat.zero_le _⟩

theorem Init_rest (cs : List (List Byte)) (desc : Description) :
    (Init (chunked cs) desc).view.rest = cs.flatten := by
  simp only [View.rest, FSM.view, Init, FSM.window, slice, List.take_zero, List.drop_nil,
    List.append_nil, List.nil_append]
  exact pending_chunked cs

theorem Init_passInv (cs : List (List Byte)) (desc : Description) :
    PassInv desc.States 4096 (Init (chunked cs) desc) :=
  ⟨Init_loopTop _ _, rfl, List.length_replicate _ _, ⟨cs, rfl⟩, fun h => absurd rfl h⟩

theorem readAll_no_handler (S : StateName → State) (cap d : Nat) (hd : 0 < d) (hcap : 0 < cap)
    (hnoH : ∀ name, ∀ ns ∈ (S name).NextStates, ns.DataHandler = none)
    (hne : ∀ name, ∀ ns ∈ (S name).NextStates, ns.Switch.Trigger ≠ [])
    (hfoot : ∀ name, (S name).skipMaxLen ≤ cap) :
    ∀ fsm, PassInv S cap fsm → ∀ out,
      ∃ fuel o e g, FSM.readAll d fuel fsm out = some (out ++ o, e, g) ∧
        (o = fsm.view.rest ∧ e = GoError.EOF) := by
  apply readAll_induction d (PassInv S cap) (fun fsm o e _ => o = fsm.view.rest ∧ e = GoError.EOF)
  intro fsm ⟨htop, hS, hlen, ⟨cs, hr⟩, hdef⟩
  have hD := iter_cases fsm d htop cs hr
  have hvS : fsm.view.states = S := hS
  have hvcap : fsm.view.cap = cap := hlen
  have hnoH' : ∀ i ns, fsm.view.Hit i ns → ns.DataHandler = none := by
    intro i ns hhit
    have := hhit.2.1
    rw [hvS] at this
    exact hnoH _ ns this
  have hne' : ∀ i ns, fsm.view.Hit i ns → ns.Switch.Trigger ≠ [] := by
    intro i ns hhit
    have := hhit.2.1
    rw [hvS] at this
    exact hne _ ns this
  have hfoot' : (fsm.view.states fsm.view.curState).skipMaxLen ≤ fsm.view.cap := by
    rw [hvS, hvcap]; exact hfoot _
  have hfr := iterDesc_frame hD cs hr
  have hpr := iterDesc_progress hD hd (by rw [hvcap]; exact hcap) hfoot' (Or.inl hne') cs hr
  have hrs := iterDesc_rest hD hdef (Or.inl hnoH') cs hr
  cases hout : fsm.iter d with
  | again f =>
    rw [hout] at hfr hpr hrs
    obtain ⟨g1, g2, _, g4, g5⟩ := hfr (Or.inl ⟨f, rfl⟩)
    obtain ⟨r1, r2⟩ := hrs.1 f rfl
    refine ⟨⟨g1, by rw [← hvS, ← g2]; rfl, by rw [← hvcap, ← g4]; rfl, g5, r2⟩, hpr.1 f rfl, ?_⟩
    intro o e g ⟨ho, he⟩
    exact ⟨by rw [ho, ← r1], he⟩
  | ret p err f =>
    rw [hout] at hfr hpr hrs
    cases err with
    | none =>
      obtain ⟨g1, g2, _, g4, g5⟩ := hfr (Or.inr ⟨p, f, rfl⟩)
      obtain ⟨r1, r2⟩ := hrs.2.1 p f rfl
      obtain ⟨p1, p2⟩ := hpr.2 p f rfl
      refine ⟨⟨g1, by rw [← hvS, ← g2]; rfl, by rw [← hvcap, ← g4]; rfl, g5, r2⟩, p1, p2, ?_⟩
      intro o e g ⟨ho, he⟩
      exact ⟨by rw [ho, ← r1], he⟩
    | some e =>
      exact hrs.2.2 p e f rfl

/-! ## Runs in which no transition ever matches -/

theorem after_one (fsm : FSM) (d : Nat) : FSM.after d 1 fsm = (fsm.iter d).fsm := by
  unfold FSM.after
  cases h : fsm.iter d with
  | again f => rfl
  | ret p err f => cases err <;> rfl

theorem neverMatches_step (fsm : FSM) (d : Nat) (h : fsm.NeverMatches d) :
    (fsm.iter d).fsm.view.log = fsm.view.log := by
  have := h 1
  rw [after_one] at this
  exact this

theorem neverMatches_next (fsm f : FSM) (d : Nat) (h : fsm.NeverMatches d)
    (hf : fsm.iter d = .again f ∨ ∃ p, fsm.iter d = .ret p none f) : f.NeverMatches d := by
  have h1 : f.ghostLog = fsm.ghostLog := by
    have := neverMatches_step fsm d h
    rcases hf with hf | ⟨p, hf⟩ <;> rw [hf] at this <;> exact this
  intro n
  have hn := h (n + 1)
  have e : FSM.after d (n + 1) fsm = FSM.after d n f := by
    rcases hf with hf | ⟨p, hf⟩ <;> simp only [FSM.after, hf]
  rw [e] at hn
  rw [hn, h1]

theorem iterDesc_curState {v : View} {d : Nat} {out : Outcome} (h : IterDesc v d out)
    (hdef : v.deferredBuf ≠ [] → v.hasHandler = true)
    (hlog : out.fsm.view.log = v.log) (cs : List (List Byte)) (hr : v.r = chunked cs)
    (hcont : (∃ f, out = .again f) ∨ (∃ p f, out = .ret p none f)) :
    out.fsm.view.curState = v.curState := by
  rcases h with ⟨_, f, rfl, _, hv⟩ | ⟨_, mv, hm, hp⟩ | ⟨_, e, mv, f, _, rfl, _⟩
  · simp only [Outcome.fsm, hv]
  · obtain ⟨_, _, _, _, f5, _⟩ := matchDesc_frame hm
    have hfr := pullDesc_frame hp cs (by rw [f5]; exact hr)
    have hmlog : mv.log = v.log := by rw [← hfr.2.2.2.2.2.1]; exact hlog
    rw [hfr.2.2.2.2.1]
    exact (matchDesc_rest hm hdef (Or.inr hmlog)).2.2 hmlog
  · rcases hcont with ⟨f', hf'⟩ | ⟨p, f', hf'⟩ <;> cases hf'

theorem readAll_never_matches (S : StateName → State) (cap d : Nat) (hd : 0 < d)
    (hcap : 0 < cap) (c0 : StateName) (hfoot : (S c0).skipMaxLen ≤ cap) :
    ∀ fsm, (PassInv S cap fsm ∧ fsm.curState = c0 ∧ fsm.NeverMatches d) → ∀ out,
      ∃ fuel o e g, FSM.readAll d fuel fsm out = some (out ++ o, e, g) ∧
        (o = fsm.view.rest ∧ e = GoError.EOF) := by
  apply readAll_induction d (fun fsm => PassInv S cap fsm ∧ fsm.curState = c0 ∧ fsm.NeverMatches d)
    (fun fsm o e _ => o = fsm.view.rest ∧ e = GoError.EOF)
  intro fsm ⟨⟨htop, hS, hlen, ⟨cs, hr⟩, hdef⟩, hcur, hnever⟩
  have hD := iter_cases fsm d htop cs hr
  have hvS : fsm.view.states = S := hS
  have hvcap : fsm.view.cap = cap := hlen
  have hvcur : fsm.view.curState = c0 := hcur
  have hlog := neverMatches_step fsm d hnever
  have hfoot' : (fsm.view.states fsm.view.curState).skipMaxLen ≤ fsm.view.cap := by
    rw [hvS, hvcap, hvcur]; exact hfoot
  have hfr := iterDesc_frame hD cs hr
  have hpr := iterDesc_progress hD hd (by rw [hvcap]; exact hcap) hfoot' (Or.inr hlog) cs hr
  have hrs := iterDesc_rest hD hdef (Or.inr hlog) cs hr
  have hcs := iterDesc_curState hD hdef hlog cs hr
  cases hout : fsm.iter d with
  | again f =>
    rw [hout] at hfr hpr hrs hcs
    obtain ⟨g1, g2, _, g4, g5⟩ := hfr (Or.inl ⟨f, rfl⟩)
    obtain ⟨r1, r2⟩ := hrs.1 f rfl
    have c1 := hcs (Or.inl ⟨f, rfl⟩)
    refine ⟨⟨⟨g1, by rw [← hvS, ← g2]; rfl, by rw [← hvcap, ← g4]; rfl, g5, r2⟩,
      by rw [← hvcur, ← c1]; rfl, neverMatches_next fsm f d hnever (Or.inl hout)⟩,
      hpr.1 f rfl, ?_⟩
    intro o e g ⟨ho, he⟩
    exact ⟨by rw [ho, ← r1], he⟩
  | ret p err f =>
    rw [hout] at hfr hpr hrs hcs
    cases err with
    | none =>
      obtain ⟨g1, g2, _, g4, g5⟩ := hfr (Or.inr ⟨p, f, rfl⟩)
      obtain ⟨r1, r2⟩ := hrs.2.1 p f rfl
      obtain ⟨p1, p2⟩ := hpr.2 p f rfl
      have c1 := hcs (Or.inr ⟨p, f, rfl⟩)
      refine ⟨⟨⟨g1, by rw [← hvS, ← g2]; rfl, by rw [← hvcap, ← g4]; rfl, g5, r2⟩,
        by rw [← hvcur, ← c1]; rfl, neverMatches_next fsm f d hnever (Or.inr ⟨p, hout⟩)⟩,
        p1, p2, ?_⟩
      intro o e g ⟨ho, he⟩
      exact ⟨by rw [ho, ← r1], he⟩
    | some e =>
      exact hrs.2.2 p e f rfl

/-! ## A trigger longer than the buffer blocks the loop -/

theorem hit_bound {v : View} {i : Nat} {ns : NextState} (h : v.Hit i ns) :
    ns ∈ (v.states v.curState).NextStates ∧ ns.Switch.Trigger.length ≤ v.win.length := by
  refine ⟨h.2.1, ?_⟩
  have := h.2.2.2
  omega

theorem stuck_step {v : View} {d : Nat} {out : Outcome} (h : IterDesc v d out) (hs : v.Stuck) :
    ∃ f, out = .again f ∧ f.LoopTop ∧ f.view = v := by
  obtain ⟨hdst, hfull, hcap, heof, hfoot, ⟨c, rest, hc, hr⟩, hlong⟩ := hs
  have hnohit : ∀ i ns, ¬ v.Hit i ns := by
    intro i ns hhit
    obtain ⟨hmem, hle⟩ := hit_bound hhit
    have := hlong ns hmem
    omega
  rcases h with ⟨hne, _⟩ | ⟨_, mv, hm, hp⟩ | ⟨_, e, mv, f, ⟨i, ns, _, _, _, hhit, _⟩, _, _⟩
  · exact absurd hdst hne
  · have hmv : mv = v := by
      rcases hm with ⟨_, rfl⟩ | ⟨i, ns, _, hhit, _, _⟩ | ⟨i, ns, _, _, _, hhit, _, _, _⟩ |
        ⟨_, _, rfl⟩
      · rfl
      · exact absurd hhit (hnohit i ns)
      · exact absurd hhit (hnohit i ns)
      · have hs0 : v.skipLen = 0 := by
          unfold View.skipLen
          rw [if_pos ⟨heof, by omega⟩]
          omega
        simp only [View.afterMiss, hs0, List.take_zero, List.append_nil, List.drop_zero,
          Nat.add_zero, ite_self]
    subst hmv
    rcases hp with ⟨c', rest', f, hc', rfl, htop, hv⟩ | ⟨hn, _⟩ | ⟨hn, _⟩ | ⟨hn, _⟩
    · refine ⟨f, rfl, htop, ?_⟩
      rw [hv]
      rw [hr] at hc'
      simp only [List.cons.injEq, ReadEvent.data.injEq] at hc'
      obtain ⟨rfl, rfl⟩ := hc'
      have hz : mv.cap - mv.win.length = 0 := by omega
      have hpos : 0 < c.length := List.length_pos.mpr hc
      have hnfit : ¬ c.length ≤ 0 := by omega
      simp only [hz, List.take_zero, List.append_nil, if_neg hnfit, List.drop_zero, ← hr]
    · rw [hr] at hn; cases hn
    · rw [hr] at hn; cases hn
    · rw [hr] at hn; cases hn
  · exact absurd hhit (hnohit i ns)

theorem stuck_run (d : Nat) : ∀ (fuel : Nat) (fsm : FSM) (out : List Byte), fsm.LoopTop →
    (∃ cs, fsm.r = chunked cs) → fsm.view.Stuck → FSM.readAll d fuel fsm out = none := by
  intro fuel
  induction fuel with
  | zero => intro fsm out _ _ _; rfl
  | succ n ih =>
    intro fsm out htop ⟨cs, hr⟩ hs
    obtain ⟨f, hf, hft, hfv⟩ := stuck_step (iter_cases fsm d htop cs hr) hs
    simp only [FSM.readAll, hf]
    apply ih f out hft
    · exact ⟨cs, by have : f.view.r = fsm.view.r := by rw [hfv]
                    exact this.trans hr⟩
    · rw [hfv]; exact hs

theorem stuck_after (d : Nat) : ∀ (n : Nat) (fsm : FSM), fsm.LoopTop →
    (∃ cs, fsm.r = chunked cs) → fsm.view.Stuck →
    (FSM.after d n fsm).ghostLog = fsm.ghostLog := by
  intro n
  induction n with
  | zero => intro fsm _ _ _; rfl
  | succ n ih =>
    intro fsm htop ⟨cs, hr⟩ hs
    obtain ⟨f, hf, hft, hfv⟩ := stuck_step (iter_cases fsm d htop cs hr) hs
    simp only [FSM.after, hf]
    have hrf : f.r = chunked cs := by
      have : f.view.r = fsm.view.r := by rw [hfv]
      exact this.trans hr
    rw [ih f hft ⟨cs, hrf⟩ (by rw [hfv]; exact hs)]
    have : f.view.log = fsm.view.log := by rw [hfv]
    exact this

/-- The first pass through the loop on an empty window only reads. -/
theorem fill_step {v : View} {d : Nat} {out : Outcome} (h : IterDesc v d out)
    (hdst : v.dst = []) (hw : v.win = []) (c : List Byte) (rest : Reader)
    (hr : v.r = ReadEvent.data c :: rest) :
    ∃ f, out = .again f ∧ f.LoopTop ∧
      f.view = { v with
        win := c.take v.cap
        r := if c.length ≤ v.cap then rest else ReadEvent.data (c.drop v.cap) :: rest } := by
  rcases h with ⟨hne, _⟩ | ⟨_, mv, hm, hp⟩ | ⟨_, e, mv, f, ⟨i, ns, _, _, hwne, _⟩, _, _⟩
  · exact absurd hdst hne
  · have hmv : mv = v := by
      rcases hm with ⟨_, rfl⟩ | ⟨i, ns, hwne, _⟩ | ⟨i, ns, _, _, hwne, _⟩ | ⟨hwne, _⟩
      · rfl
      · exact absurd hw hwne
      · exact absurd hw hwne
      · exact absurd hw hwne
    subst hmv
    rcases hp with ⟨c', rest', f, hc', rfl, htop, hv⟩ | ⟨hn, _⟩ | ⟨hn, _⟩ | ⟨hn, _⟩
    · refine ⟨f, rfl, htop, ?_⟩
      rw [hv]
      rw [hr] at hc'
      simp only [List.cons.injEq, ReadEvent.data.injEq] at hc'
      obtain ⟨rfl, rfl⟩ := hc'
      simp only [hw, List.length_nil, Nat.sub_zero, List.nil_append]
    · rw [hr] at hn; cases hn
    · rw [hr] at hn; cases hn
    · rw [hr] at hn; cases hn
  · exact absurd hw hwne

theorem Init_view_cap (r : Reader) (desc : Description) : (Init r desc).view.cap = 4096 := by
  simp only [FSM.view, Init, List.length_replicate]

theorem Init_view_win (r : Reader) (desc : Description) : (Init r desc).view.win = [] := by
  simp only [FSM.view, Init, FSM.window, slice, List.take_zero, List.drop_nil]

theorem selfLoop_skipMaxLen (t : List Byte) (h : Option Handler) :
    ((selfLoopTable t h).States "A").skipMaxLen = t.length := by
  simp only [selfLoopTable, if_true, State.skipMaxLen, List.foldl_cons, List.foldl_nil,
    List.length_nil, gt_iff_lt, Nat.lt_irrefl, if_false]
  split
  · rfl
  · omega

/-- With a trigger and a first chunk longer than the buffer, the first pass
through the loop fills the buffer and leaves a window that cannot be consumed. -/
theorem longTrigger_stuck (t c : List Byte) (ht : 4096 < t.length) (hc : 4096 < c.length)
    (h : Option Handler) (d : Nat) :
    ∃ f, (Init (chunked [c]) (selfLoopTable t h)).iter d = .again f ∧
      f.LoopTop ∧ (∃ cs, f.r = chunked cs) ∧ f.view.Stuck ∧ f.ghostLog = [] := by
  have htop := Init_loopTop (chunked [c]) (selfLoopTable t h)
  have hD := iter_cases _ d htop [c] rfl
  obtain ⟨f, hf, hft, hfv⟩ := fill_step hD rfl (Init_view_win _ _) c [] rfl
  have hcap := Init_view_cap (chunked [c]) (selfLoopTable t h)
  rw [hcap] at hfv
  have hnfit : ¬ c.length ≤ 4096 := by omega
  rw [if_neg hnfit] at hfv
  refine ⟨f, hf, hft, ⟨[List.drop 4096 c], ?_⟩, ?_, ?_⟩
  · have : f.view.r = [ReadEvent.data (List.drop 4096 c)] := by rw [hfv]
    exact this
  · rw [hfv]
    refine ⟨rfl, ?_, ?_, rfl, ?_, ⟨_, [], ?_, rfl⟩, ?_⟩
    · simp only [hcap, List.length_take]; omega
    · simp only [hcap]; omega
    · have := selfLoop_skipMaxLen t h
      simp only [hcap]
      show 4096 < ((selfLoopTable t h).States "A").skipMaxLen
      omega
    · intro hnil
      have := congrArg List.length hnil
      simp only [List.length_drop, List.length_nil] at this
      omega
    · intro ns hns
      have hns' : ns ∈ ((selfLoopTable t h).States "A").NextStates := hns
      simp only [selfLoopTable, if_true, List.mem_singleton] at hns'
      subst hns'
      simp only [hcap]
      exact ht
  · have : f.view.log = [] := by rw [hfv]; rfl
    exact this

theorem longTrigger_never_returns (t c : List Byte) (ht : 4096 < t.length)
    (hc : 4096 < c.length) (h : Option Handler) (d : Nat) :
    (Init (chunked [c]) (selfLoopTable t h)).NeverMatches d ∧
    ∀ fuel, FSM.readAll d fuel (Init (chunked [c]) (selfLoopTable t h)) [] = none := by
  obtain ⟨f, hf, hft, hfr, hfs, hfl⟩ := longTrigger_stuck t c ht hc h d
  constructor
  · intro n
    cases n with
    | zero => rfl
    | succ n =>
      simp only [FSM.after, hf]
      rw [stuck_after d n f hft hfr hfs, hfl]
      rfl
  · intro fuel
    cases fuel with
    | zero => rfl
    | succ n =>
      simp only [FSM.readAll, hf]
      exact stuck_run d n f [] hft hfr hfs

/-! ## The reference semantics of single-trigger tables -/

theorem firstIndex_eq_none_iff (t s : List Byte) :
    firstIndex t s = none ↔ ∀ j, ¬ t <+: s.drop j := by
  constructor
  · exact (firstIndex_spec t s).2
  · intro h
    cases hf : firstIndex t s with
    | none => rfl
    | some k => exact absurd ((firstIndex_spec t s).1 k hf).1 (h k)

theorem firstIndex_eq_some_iff (t s : List Byte) (i : Nat) :
    firstIndex t s = some i ↔ (t <+: s.drop i ∧ ∀ j < i, ¬ t <+: s.drop j) := by
  constructor
  · exact (firstIndex_spec t s).1 i
  · rintro ⟨h1, h2⟩
    cases hf : firstIndex t s with
    | none => exact absurd h1 ((firstIndex_spec t s).2 hf i)
    | some k =>
      obtain ⟨k1, k2⟩ := (firstIndex_spec t s).1 k hf
      rcases Nat.lt_trichotomy k i with hlt | heq | hgt
      · exact absurd k1 (h2 k hlt)
      · rw [heq]
      · exact absurd h1 (k2 i hgt)

theorem starts_append_iff (t w x : List Byte) (j : Nat) (h : j + t.length ≤ w.length) :
    t <+: (w ++ x).drop j ↔ t <+: w.drop j := by
  rw [List.drop_append_of_le_length (by omega)]
  constructor
  · intro ht
    exact List.prefix_of_prefix_length_le ht (List.prefix_append _ _)
      (by simp only [List.length_drop]; omega)
  · intro ht
    exact ht.trans (List.prefix_append _ _)

theorem starts_bound {t s : List Byte} {j : Nat} (ht : t ≠ []) (h : t <+: s.drop j) :
    j + t.length ≤ s.length := by
  have := h.length_le
  simp only [List.length_drop] at this
  have : 0 < t.length := List.length_pos.mpr ht
  omega

theorem firstIndex_append_of_some (t w x : List Byte) (i : Nat) (ht : t ≠ [])
    (h : firstIndex t w = some i) : firstIndex t (w ++ x) = some i := by
  rw [firstIndex_eq_some_iff] at h ⊢
  obtain ⟨h1, h2⟩ := h
  have hb := starts_bound ht h1
  refine ⟨(starts_append_iff t w x i hb).mpr h1, ?_⟩
  intro j hj hp
  exact h2 j hj ((starts_append_iff t w x j (by omega)).mp hp)

theorem firstIndex_drop_some (t s : List Byte) (i k : Nat) (hk : k ≤ i)
    (h : firstIndex t s = some i) : firstIndex t (s.drop k) = some (i - k) := by
  rw [firstIndex_eq_some_iff] at h ⊢
  obtain ⟨h1, h2⟩ := h
  constructor
  · rw [List.drop_drop]
    have : k + (i - k) = i := by omega
    rw [this]; exact h1
  · intro j hj
    rw [List.drop_drop]
    exact h2 (k + j) (by omega)

theorem firstIndex_drop_none (t s : List Byte) (k : Nat) (h : firstIndex t s = none) :
    firstIndex t (s.drop k) = none := by
  rw [firstIndex_eq_none_iff] at h ⊢
  intro j
  rw [List.drop_drop]
  exact h (k + j)

/-- Nothing of the trigger starts in the first `k` bytes of the stream. -/
theorem firstIndex_ge (t s : List Byte) (i k : Nat) (h : firstIndex t s = some i)
    (hno : ∀ j < k, ¬ t <+: s.drop j) : k ≤ i := by
  by_contra hlt
  exact hno i (by omega) ((firstIndex_eq_some_iff t s i).mp h).1

theorem refRun_nil_states (S : StateName → State) (u : UserCtx) (fuel : Nat) (cur : StateName)
    (deferred : List Byte) (pos : Nat) (stream : List Byte) (h : (S cur).NextStates = []) :
    refRun S u fuel cur deferred pos stream = (deferred ++ stream, GoError.EOF, []) := by
  cases fuel with
  | zero => rfl
  | succ n => simp only [refRun, h]

theorem refRun_none (S : StateName → State) (u : UserCtx) (fuel : Nat) (cur : StateName)
    (deferred : List Byte) (pos : Nat) (stream : List Byte) (ns : NextState)
    (h : (S cur).NextStates = [ns]) (hf : firstIndex ns.Switch.Trigger stream = none) :
    refRun S u fuel cur deferred pos stream = (deferred ++ stream, GoError.EOF, []) := by
  cases fuel with
  | zero => rfl
  | succ n =>
    simp only [refRun, h, hf]
    split <;> rfl

/-- One more unit of fuel changes nothing once the fuel covers the stream. -/
theorem refRun_fuel_succ (S : StateName → State) (u : UserCtx) :
    ∀ (fuel : Nat) (cur : StateName) (deferred : List Byte) (pos : Nat) (stream : List Byte),
      stream.length ≤ fuel →
      refRun S u (fuel + 1) cur deferred pos stream = refRun S u fuel cur deferred pos stream := by
  intro fuel
  induction fuel with
  | zero =>
    intro cur deferred pos stream hlen
    have hs : stream = [] := List.length_eq_zero.mp (by omega)
    subst hs
    rcases hst : (S cur).NextStates with _ | ⟨ns, _ | ⟨ns2, tl⟩⟩
    · simp only [refRun, hst]
    · by_cases ht : ns.Switch.Trigger = []
      · simp only [refRun, hst, ht, if_true]
      · have hf : firstIndex ns.Switch.Trigger [] = none := by
          simp only [firstIndex]
          rw [if_neg]
          intro hp
          have := isPrefixOf_iff_starts.mp hp
          exact ht (List.prefix_nil.mp this)
        simp only [refRun, hst, ht, if_false, hf]
    · simp only [refRun, hst]
  | succ n ih =>
    intro cur deferred pos stream hlen
    rcases hst : (S cur).NextStates with _ | ⟨ns, _ | ⟨ns2, tl⟩⟩
    · simp only [refRun, hst]
    · by_cases ht : ns.Switch.Trigger = []
      · simp only [refRun, hst, ht, if_true]
      · cases hf : firstIndex ns.Switch.Trigger stream with
        | none => simp only [refRun, hst, ht, if_false, hf]
        | some i =>
          have hocc := ((firstIndex_eq_some_iff _ _ _).mp hf).1
          have hb := starts_bound ht hocc
          have hpos : 0 < ns.Switch.Trigger.length := List.length_pos.mpr ht
          have hrest : (stream.drop (i + ns.Switch.Trigger.length)).length ≤ n := by
            simp only [List.length_drop]; omega
          have e := ih ns.Name [] (pos + (i + ns.Switch.Trigger.length))
            (stream.drop (i + ns.Switch.Trigger.length)) hrest
          conv_lhs => rw [refRun]
          conv_rhs => rw [refRun]
          simp only [hst, ht, if_false, hf, e]
    · simp only [refRun, hst]

theorem refRun_fuel (S : StateName → State) (u : UserCtx) (fuel : Nat) (cur : StateName)
    (deferred : List Byte) (pos : Nat) (stream : List Byte) (h : stream.length ≤ fuel) :
    refRun S u fuel cur deferred pos stream =
      refRun S u stream.length cur deferred pos stream := by
  induction fuel with
  | zero =>
    have : stream.length = 0 := by omega
    rw [this]
  | succ n ih =>
    by_cases he : stream.length = n + 1
    · rw [he]
    · rw [refRun_fuel_succ S u n cur deferred pos stream (by omega)]
      exact ih (by omega)

theorem refStream_nil_states (S : StateName → State) (u : UserCtx) (cur : StateName)
    (deferred : List Byte) (pos : Nat) (stream : List Byte) (h : (S cur).NextStates = []) :
    refStream S u cur deferred pos stream = (deferred ++ stream, GoError.EOF, []) :=
  refRun_nil_states S u _ cur deferred pos stream h

theorem refStream_none (S : StateName → State) (u : UserCtx) (cur : StateName)
    (deferred : List Byte) (pos : Nat) (stream : List Byte) (ns : NextState)
    (h : (S cur).NextStates = [ns]) (hf : firstIndex ns.Switch.Trigger stream = none) :
    refStream S u cur deferred pos stream = (deferred ++ stream, GoError.EOF, []) :=
  refRun_none S u _ cur deferred pos stream ns h hf

/-- The reference semantics at the first instance of the trigger. -/
theorem refStream_some (S : StateName → State) (u : UserCtx) (cur : StateName)
    (deferred : List Byte) (pos : Nat) (stream : List Byte) (ns : NextState) (i : Nat)
    (hst : (S cur).NextStates = [ns]) (ht : ns.Switch.Trigger ≠ [])
    (hf : firstIndex ns.Switch.Trigger stream = some i) :
    refStream S u cur deferred pos stream =
      match ns.DataHandler with
      | none =>
        (deferred ++ stream.take i ++ ns.Switch.Trigger ++
            (refStream S u ns.Name [] (pos + (i + ns.Switch.Trigger.length))
              (stream.drop (i + ns.Switch.Trigger.length))).1,
          (refStream S u ns.Name [] (pos + (i + ns.Switch.Trigger.length))
              (stream.drop (i + ns.Switch.Trigger.length))).2.1,
          Fired.mk (pos + i) ns.Name ns.Switch.Trigger none ::
            (refStream S u ns.Name [] (pos + (i + ns.Switch.Trigger.length))
              (stream.drop (i + ns.Switch.Trigger.length))).2.2)
      | some h =>
        match h u (deferred ++ stream.take i) ns.Switch.Trigger with
        | (d, none) =>
          (d ++ (refStream S u ns.Name [] (pos + (i + ns.Switch.Trigger.length))
              (stream.drop (i + ns.Switch.Trigger.length))).1,
            (refStream S u ns.Name [] (pos + (i + ns.Switch.Trigger.length))
              (stream.drop (i + ns.Switch.Trigger.length))).2.1,
            Fired.mk (pos + i) ns.Name ns.Switch.Trigger (some (deferred ++ stream.take i)) ::
              (refStream S u ns.Name [] (pos + (i + ns.Switch.Trigger.length))
                (stream.drop (i + ns.Switch.Trigger.length))).2.2)
        | (_, some e) =>
          ([], GoError.wrap "fsm read data handler" e,
            [Fired.mk (pos + i) ns.Name ns.Switch.Trigger (some (deferred ++ stream.take i))]) := by
  have hocc := ((firstIndex_eq_some_iff _ _ _).mp hf).1
  have hb := starts_bound ht hocc
  have hpos : 0 < ns.Switch.Trigger.length := List.length_pos.mpr ht
  obtain ⟨n, hn⟩ : ∃ n, stream.length = n + 1 := ⟨stream.length - 1, by omega⟩
  have hrest : (stream.drop (i + ns.Switch.Trigger.length)).length ≤ n := by
    simp only [List.length_drop]; omega
  have e := refRun_fuel S u n ns.Name [] (pos + (i + ns.Switch.Trigger.length))
    (stream.drop (i + ns.Switch.Trigger.length)) hrest
  unfold refStream
  rw [hn, refRun]
  simp only [hst, ht, if_false, hf, e]

theorem take_take_drop (s : List Byte) (k i : Nat) (h : k ≤ i) :
    s.take k ++ (s.drop k).take (i - k) = s.take i := by
  have : i = k + (i - k) := by omega
  conv_rhs => rw [this, List.take_add]

/-- Bytes in which no instance of the trigger starts move to the deferred
buffer without changing what the reference semantics yields. -/
theorem refStream_shift_deferred (S : StateName → State) (u : UserCtx) (cur : StateName)
    (deferred : List Byte) (pos : Nat) (s : List Byte) (ns : NextState) (h : Handler) (k : Nat)
    (hst : (S cur).NextStates = [ns]) (ht : ns.Switch.Trigger ≠ [])
    (hh : ns.DataHandler = some h)
    (hno : ∀ j < k, ¬ ns.Switch.Trigger <+: s.drop j) :
    refStream S u cur deferred pos s =
      refStream S u cur (deferred ++ s.take k) (pos + k) (s.drop k) := by
  cases hf : firstIndex ns.Switch.Trigger s with
  | none =>
    rw [refStream_none S u cur deferred pos s ns hst hf,
      refStream_none S u cur _ _ _ ns hst (firstIndex_drop_none _ _ k hf),
      List.append_assoc, List.take_append_drop]
  | some i =>
    have hki := firstIndex_ge _ _ i k hf hno
    have hf' := firstIndex_drop_some _ _ i k hki hf
    rw [refStream_some S u cur deferred pos s ns i hst ht hf,
      refStream_some S u cur _ _ _ ns (i - k) hst ht hf']
    have e1 : deferred ++ List.take k s ++ List.take (i - k) (List.drop k s)
        = deferred ++ List.take i s := by
      rw [List.append_assoc, take_take_drop s k i hki]
    have e2 : List.drop (i - k + ns.Switch.Trigger.length) (List.drop k s)
        = List.drop (i + ns.Switch.Trigger.length) s := by
      rw [List.drop_drop]; congr 1; omega
    have e3 : pos + k + (i - k + ns.Switch.Trigger.length)
        = pos + (i + ns.Switch.Trigger.length) := by omega
    have e4 : pos + k + (i - k) = pos + i := by omega
    simp only [hh, e1, e2, e3, e4]

/-- Bytes in which no instance of the trigger starts go straight to the output
when the state has no handler. -/
theorem refStream_shift_output (S : StateName → State) (u : UserCtx) (cur : StateName)
    (deferred : List Byte) (pos : Nat) (s : List Byte) (k : Nat)
    (hst : (S cur).NextStates = [] ∨
      ∃ ns, (S cur).NextStates = [ns] ∧ ns.Switch.Trigger ≠ [] ∧ ns.DataHandler = none ∧
        ∀ j < k, ¬ ns.Switch.Trigger <+: s.drop j) :
    refStream S u cur deferred pos s =
      (deferred ++ s.take k ++ (refStream S u cur [] (pos + k) (s.drop k)).1,
        (refStream S u cur [] (pos + k) (s.drop k)).2.1,
        (refStream S u cur [] (pos + k) (s.drop k)).2.2) := by
  rcases hst with hst | ⟨ns, hst, ht, hh, hno⟩
  · rw [refStream_nil_states S u cur deferred pos s hst,
      refStream_nil_states S u cur [] _ _ hst]
    simp only [List.nil_append, List.append_assoc, List.take_append_drop]
  · cases hf : firstIndex ns.Switch.Trigger s with
    | none =>
      rw [refStream_none S u cur deferred pos s ns hst hf,
        refStream_none S u cur _ _ _ ns hst (firstIndex_drop_none _ _ k hf)]
      simp only [List.nil_append, List.append_assoc, List.take_append_drop]
    | some i =>
      have hki := firstIndex_ge _ _ i k hf hno
      have hf' := firstIndex_drop_some _ _ i k hki hf
      rw [refStream_some S u cur deferred pos s ns i hst ht hf,
        refStream_some S u cur _ _ _ ns (i - k) hst ht hf']
      have e2 : List.drop (i - k + ns.Switch.Trigger.length) (List.drop k s)
          = List.drop (i + ns.Switch.Trigger.length) s := by
        rw [List.drop_drop]; congr 1; omega
      have e3 : pos + k + (i - k + ns.Switch.Trigger.length)
          = pos + (i + ns.Switch.Trigger.length) := by omega
      have e4 : pos + k + (i - k) = pos + i := by omega
      simp only [hh, e2, e3, e4, List.nil_append, ← take_take_drop s k i hki, List.append_assoc]

/-! ## The engine against the reference semantics -/

theorem qualifies_plain (s : Switch) (hL : s.Delimiters.L = []) (hR : s.Delimiters.R = [])
    (hE : s.Escape = false) (buf prevSrc : List Byte) (pe : Int) (isEOF : Bool) (i : Nat) :
    s.Qualifies buf prevSrc pe isEOF i ↔ s.Trigger <+: buf.drop i := by
  unfold Switch.Qualifies
  rw [occursAt_iff_starts]
  constructor
  · exact fun h => h.1
  · intro h
    refine ⟨h, fun hne => absurd hL hne, fun hne => absurd hR hne, ?_⟩
    intro he
    rw [hE] at he
    cases he

/-- Without delimiters and escape the matcher is `bytes.Index`. -/
theorem index_plain (s : Switch) (hT : s.Trigger ≠ []) (hL : s.Delimiters.L = [])
    (hR : s.Delimiters.R = []) (hE : s.Escape = false) (buf prevSrc : List Byte) (pe : Int)
    (isEOF : Bool) :
    (s.index buf prevSrc pe isEOF = -1 ∧ firstIndex s.Trigger buf = none) ∨
    (∃ i : Nat, s.index buf prevSrc pe isEOF = (i : Int) ∧ firstIndex s.Trigger buf = some i) := by
  rcases indexLoop_spec s hT buf prevSrc pe isEOF buf.length 0 (by omega)
    (by intro j hj; omega) with ⟨h1, h2⟩ | ⟨i, h1, h2, h3⟩
  · left
    refine ⟨h1, (firstIndex_eq_none_iff _ _).mpr ?_⟩
    intro j hp
    exact h2 j ((qualifies_plain s hL hR hE buf prevSrc pe isEOF j).mpr hp)
  · right
    refine ⟨i, h1, (firstIndex_eq_some_iff _ _ _).mpr ⟨?_, ?_⟩⟩
    · exact (qualifies_plain s hL hR hE buf prevSrc pe isEOF i).mp h2
    · intro j hj hp
      exact h3 j hj ((qualifies_plain s hL hR hE buf prevSrc pe isEOF j).mpr hp)

theorem skipMaxLen_single (ns : NextState) (hL : ns.Switch.Delimiters.L = [])
    (hR : ns.Switch.Delimiters.R = []) :
    (State.mk [ns]).skipMaxLen = ns.Switch.Trigger.length := by
  simp only [State.skipMaxLen, List.foldl_cons, List.foldl_nil, hL, hR, List.length_nil,
    gt_iff_lt, Nat.lt_irrefl, if_false]
  split
  · rfl
  · omega

theorem skipMaxLen_nil : (State.mk []).skipMaxLen = 0 := rfl

theorem singleTrigger_foot {S : StateName → State} {cap : Nat} (h : SingleTrigger S cap)
    (name : StateName) : (S name).skipMaxLen ≤ cap := by
  rcases h name with h0 | ⟨ns, h1, _, h3, h4, h5, _⟩
  · have : S name = State.mk [] := by cases hS : S name; rw [hS] at h0; simp only at h0; rw [h0]
    rw [this, skipMaxLen_nil]; omega
  · have : S name = State.mk [ns] := by
      cases hS : S name; rw [hS] at h1; simp only at h1; rw [h1]
    rw [this, skipMaxLen_single ns h4 h5]; exact h3

theorem singleTrigger_hit {v : View} {cap : Nat} (h : SingleTrigger v.states cap)
    {i : Nat} {ns : NextState} (hhit : v.Hit i ns) :
    (v.states v.curState).NextStates = [ns] ∧ ns.Switch.Trigger ≠ [] ∧
      firstIndex ns.Switch.Trigger v.win = some i := by
  obtain ⟨⟨tail, pe, _, hidx⟩, hmem, _, _⟩ := hhit
  rcases h v.curState with h0 | ⟨ns', h1, h2, _, h4, h5, h6⟩
  · rw [h0] at hmem; cases hmem
  · rw [h1] at hmem
    simp only [List.mem_singleton] at hmem
    subst hmem
    refine ⟨h1, h2, ?_⟩
    rcases index_plain ns.Switch h2 h4 h5 h6 v.win tail pe v.isEOF with ⟨hn, _⟩ | ⟨i', hi', hf⟩
    · rw [hidx] at hn; omega
    · rw [hidx] at hi'
      have : i = i' := by omega
      rw [this]; exact hf

theorem singleTrigger_miss {v : View} {ns : NextState}
    (hst : (v.states v.curState).NextStates = [ns]) (hT : ns.Switch.Trigger ≠ [])
    (hL : ns.Switch.Delimiters.L = []) (hR : ns.Switch.Delimiters.R = [])
    (hE : ns.Switch.Escape = false) (hmiss : v.Miss) :
    firstIndex ns.Switch.Trigger v.win = none := by
  obtain ⟨tail, pe, hall⟩ := hmiss
  have := hall ns (by rw [hst]; exact List.mem_singleton.mpr rfl)
  rcases index_plain ns.Switch hT hL hR hE v.win tail pe v.isEOF with ⟨_, hf⟩ | ⟨i', hi', _⟩
  · exact hf
  · rw [this] at hi'; omega

theorem hasHandler_single {v : View} {ns : NextState}
    (hst : (v.states v.curState).NextStates = [ns]) :
    v.hasHandler = ns.DataHandler.isSome := by
  simp only [View.hasHandler, hst, List.any_cons, List.any_nil, Bool.or_false]

theorem hasHandler_nil {v : View} (hst : (v.states v.curState).NextStates = []) :
    v.hasHandler = false := by
  simp only [View.hasHandler, hst, List.any_nil]

theorem stream_drop (v : View) (k : Nat) (hk : k ≤ v.win.length) :
    v.win.drop k ++ Reader.pending v.r = (v.win ++ Reader.pending v.r).drop k := by
  rw [List.drop_append_of_le_length hk]

theorem stream_take (v : View) (k : Nat) (hk : k ≤ v.win.length) :
    (v.win ++ Reader.pending v.r).take k = v.win.take k := by
  rw [List.take_append_of_le_length hk]

theorem deferred_nil_of_no_handler {v : View} (hdef : v.deferredBuf ≠ [] → v.hasHandler = true)
    (hH : v.hasHandler = false) : v.deferredBuf = [] := by
  by_contra hne
  have := hdef hne
  rw [hH] at this
  cases this

/-- Lines 104-168 agree with the reference semantics. -/
theorem matchDesc_expected {v mv : View} {cap : Nat} (h : MatchDesc v mv)
    (hST : SingleTrigger v.states cap)
    (hdef : v.deferredBuf ≠ [] → v.hasHandler = true)
    (heof : v.isEOF = true → v.r = []) :
    mv.expected = v.expected ∧ (mv.deferredBuf ≠ [] → mv.hasHandler = true) := by
  rcases h with ⟨_, rfl⟩ | ⟨i, ns, _, hhit, hnone, rfl⟩ | ⟨i, ns, h, d, _, hhit, hsome, hres, rfl⟩ |
    ⟨hwne, hmiss, rfl⟩
  · exact ⟨rfl, hdef⟩
  · obtain ⟨hst, hT, hfi⟩ := singleTrigger_hit hST hhit
    have hb : i + ns.Switch.Trigger.length ≤ v.win.length := hhit.2.2.2
    have hfs : firstIndex ns.Switch.Trigger v.stream = some i :=
      firstIndex_append_of_some _ _ _ _ hT hfi
    have hH : v.hasHandler = false := by rw [hasHandler_single hst, hnone]; rfl
    have hdn := deferred_nil_of_no_handler hdef hH
    refine ⟨?_, fun hne => absurd rfl hne⟩
    have hR := refStream_some v.states v.userCtx v.curState v.deferredBuf v.pos v.stream ns i
      hst hT hfs
    simp only [hnone] at hR
    simp only [View.expected, hR]
    simp only [View.afterPass, View.stream, stream_drop v _ hb, stream_take v i (by omega),
      hH, hdn, Bool.false_eq_true, if_false, List.append_nil, List.nil_append,
      List.append_assoc, List.singleton_append]
  · obtain ⟨hst, hT, hfi⟩ := singleTrigger_hit hST hhit
    have hb : i + ns.Switch.Trigger.length ≤ v.win.length := hhit.2.2.2
    have hfs : firstIndex ns.Switch.Trigger v.stream = some i :=
      firstIndex_append_of_some _ _ _ _ hT hfi
    refine ⟨?_, fun hne => absurd rfl hne⟩
    have hR := refStream_some v.states v.userCtx v.curState v.deferredBuf v.pos v.stream ns i
      hst hT hfs
    simp only [hsome, View.stream, stream_take v i (by omega), hres] at hR
    simp only [View.expected, View.stream, hR]
    simp only [View.afterHandler, stream_drop v _ hb,
      List.append_assoc, List.singleton_append]
  · have hk : v.skipLen ≤ v.win.length := by unfold View.skipLen; split <;> omega
    rcases hST v.curState with hst | ⟨ns, hst, hT, _, hL, hR, hE⟩
    · have hH := hasHandler_nil hst
      have hdn := deferred_nil_of_no_handler hdef hH
      constructor
      · have hS := refStream_shift_output v.states v.userCtx v.curState v.deferredBuf v.pos
          v.stream v.skipLen (Or.inl hst)
        simp only [View.expected, hS]
        simp only [View.afterMiss, View.stream, stream_drop v _ hk, stream_take v _ hk,
          hH, hdn, Bool.false_eq_true, if_false, List.nil_append, List.append_assoc]
      · intro hne
        simp only [View.afterMiss, hH, Bool.false_eq_true, if_false] at hne
        exact absurd hdn hne
    · have hfw := singleTrigger_miss hst hT hL hR hE hmiss
      have hno : ∀ j < v.skipLen, ¬ ns.Switch.Trigger <+: v.stream.drop j := by
        intro j hj hp
        have hnw := (firstIndex_eq_none_iff _ _).mp hfw j
        by_cases he : v.isEOF = true
        · have hs : v.stream = v.win := by
            simp only [View.stream, heof he, Reader.pending, List.append_nil]
          rw [hs] at hp
          exact hnw hp
        · have hml : (v.states v.curState).skipMaxLen = ns.Switch.Trigger.length := by
            have : v.states v.curState = State.mk [ns] := by
              cases hS : v.states v.curState
              rw [hS] at hst
              simp only at hst
              rw [hst]
            rw [this, skipMaxLen_single ns hL hR]
          have hpos : 0 < ns.Switch.Trigger.length := List.length_pos.mpr hT
          have hskip : v.skipLen = v.win.length + 1 - ns.Switch.Trigger.length := by
            unfold View.skipLen
            rw [if_pos ⟨by simpa using he, by omega⟩, hml]
          exact hnw ((starts_append_iff _ v.win _ j (by omega)).mp hp)
      cases hh : ns.DataHandler with
      | none =>
        have hH : v.hasHandler = false := by rw [hasHandler_single hst, hh]; rfl
        have hdn := deferred_nil_of_no_handler hdef hH
        constructor
        · have hS := refStream_shift_output v.states v.userCtx v.curState v.deferredBuf v.pos
            v.stream v.skipLen (Or.inr ⟨ns, hst, hT, hh, hno⟩)
          simp only [View.expected, hS]
          simp only [View.afterMiss, View.stream, stream_drop v _ hk, stream_take v _ hk,
            hH, hdn, Bool.false_eq_true, if_false, List.nil_append, List.append_assoc]
        · intro hne
          simp only [View.afterMiss, hH, Bool.false_eq_true, if_false] at hne
          exact absurd hdn hne
      | some hdl =>
        have hH : v.hasHandler = true := by rw [hasHandler_single hst, hh]; rfl
        constructor
        · have hS := refStream_shift_deferred v.states v.userCtx v.curState v.deferredBuf v.pos
            v.stream ns hdl v.skipLen hst hT hh hno
          simp only [View.expected, hS]
          simp only [View.afterMiss, View.stream, stream_drop v _ hk, stream_take v _ hk,
            hH, if_true]
        · intro _
          exact hH

theorem failDesc_expected {v mv : View} {cap : Nat} {e : GoError} (h : FailDesc v e mv)
    (hST : SingleTrigger v.states cap) (hd : v.dst = []) :
    v.expected = ([], GoError.wrap "fsm read data handler" e, mv.log) := by
  obtain ⟨i, ns, hdl, d, _, hhit, hsome, hres, rfl⟩ := h
  obtain ⟨hst, hT, hfi⟩ := singleTrigger_hit hST hhit
  have hfs : firstIndex ns.Switch.Trigger v.stream = some i :=
    firstIndex_append_of_some _ _ _ _ hT hfi
  have hb : i + ns.Switch.Trigger.length ≤ v.win.length := hhit.2.2.2
  have hR := refStream_some v.states v.userCtx v.curState v.deferredBuf v.pos v.stream ns i
    hst hT hfs
  simp only [hsome, View.stream, stream_take v i (by omega), hres] at hR
  simp only [View.expected, View.stream, hR, hd, View.afterFailure, List.nil_append]

theorem refStream_nil (S : StateName → State) (u : UserCtx) (cur : StateName)
    (deferred : List Byte) (pos : Nat) :
    refStream S u cur deferred pos [] = (deferred, GoError.EOF, []) := by
  simp only [refStream, List.length_nil, refRun, List.append_nil]

/-- Lines 170-226 agree with the reference semantics. -/
theorem pullDesc_expected {mv : View} {out : Outcome} (h : PullDesc mv out)
    (heof : mv.isEOF = true → mv.r = []) :
    (∀ f, out = .again f → f.view.expected = mv.expected ∧
      (f.view.deferredBuf ≠ [] → mv.deferredBuf ≠ []) ∧
      (f.view.isEOF = true → f.view.r = [])) ∧
    (∀ p e f, out = .ret p (some e) f → (p, e, f.view.log) = mv.expected) := by
  rcases h with ⟨c, rest, f, hc, rfl, htop, hv⟩ | ⟨hn, hw, hd, hdf, f, rfl, htop, hv⟩ |
    ⟨hn, hw, hne, f, rfl, htop, hv⟩ | ⟨hn, hw, f, rfl, htop, hv⟩
  · refine ⟨?_, (by intro p e f h; cases h)⟩
    intro f' hf'
    cases hf'
    rw [hv]
    have hne : mv.isEOF ≠ true := by
      intro he
      have := heof he
      rw [hc] at this
      cases this
    refine ⟨?_, fun h => h, fun he => absurd he hne⟩
    have hs : mv.win ++ List.take (mv.cap - mv.win.length) c ++
        Reader.pending (if c.length ≤ mv.cap - mv.win.length then rest
          else ReadEvent.data (List.drop (mv.cap - mv.win.length) c) :: rest)
        = mv.stream := by
      simp only [View.stream, hc]
      by_cases hfit : c.length ≤ mv.cap - mv.win.length
      · simp only [if_pos hfit, List.take_of_length_le hfit, Reader.pending, List.append_assoc]
      · have e : List.take (mv.cap - mv.win.length) c ++
            (List.drop (mv.cap - mv.win.length) c ++ Reader.pending rest)
            = c ++ Reader.pending rest := by
          rw [← List.append_assoc, List.take_append_drop]
        simp only [if_neg hfit, Reader.pending, List.append_assoc, e]
    simp only [View.expected, View.stream] at hs ⊢
    rw [hs]
  · refine ⟨(by intro f h; cases h), ?_⟩
    intro p e f' h
    cases h
    have hs : mv.stream = [] := by
      simp only [View.stream, hw, hn, Reader.pending, List.append_nil]
    simp only [View.expected, hs, refStream_nil, hd, hdf, hv, List.append_nil]
  · refine ⟨?_, (by intro p e f h; cases h)⟩
    intro f' hf'
    cases hf'
    rw [hv]
    refine ⟨?_, fun h => absurd rfl h, fun _ => hn⟩
    have hs : mv.stream = [] := by
      simp only [View.stream, hw, hn, Reader.pending, List.append_nil]
    simp only [View.expected, View.stream] at hs ⊢
    simp only [hs, refStream_nil, List.append_nil]
  · refine ⟨?_, (by intro p e f h; cases h)⟩
    intro f' hf'
    cases hf'
    rw [hv]
    exact ⟨rfl, fun h => h, fun _ => hn⟩

/-- One pass through the loop agrees with the reference semantics. -/
theorem iterDesc_expected {v : View} {d : Nat} {out : Outcome} {cap : Nat}
    (h : IterDesc v d out) (hST : SingleTrigger v.states cap)
    (hdef : v.deferredBuf ≠ [] → v.hasHandler = true)
    (heof : v.isEOF = true → v.r = [])
    (cs : List (List Byte)) (hr : v.r = chunked cs) :
    (∀ f, out = .again f → f.view.expected = v.expected ∧
      (f.view.deferredBuf ≠ [] → f.view.hasHandler = true) ∧
      (f.view.isEOF = true → f.view.r = [])) ∧
    (∀ p f, out = .ret p none f →
      (p ++ f.view.expected.1, f.view.expected.2) = v.expected ∧
      (f.view.deferredBuf ≠ [] → f.view.hasHandler = true) ∧
      (f.view.isEOF = true → f.view.r = [])) ∧
    (∀ p e f, out = .ret p (some e) f → (p, e, f.view.log) = v.expected) := by
  rcases h with ⟨hdst, f, rfl, htop, hv⟩ | ⟨hdst, mv, hm, hp⟩ | ⟨hdst, e, mv, f, hfail, rfl, hfv⟩
  · refine ⟨(by intro f' h; cases h), ?_, (by intro p e f' h; cases h)⟩
    intro p f' h
    cases h
    rw [hv]
    refine ⟨?_, hdef, heof⟩
    simp only [View.expected, View.stream, ← List.append_assoc, List.take_append_drop]
  · obtain ⟨f1, _, _, f4, f5, _⟩ := matchDesc_frame hm
    have hfr := pullDesc_frame hp cs (by rw [f5]; exact hr)
    obtain ⟨hexp, hdef'⟩ := matchDesc_expected hm hST hdef heof
    have heof' : mv.isEOF = true → mv.r = [] := by rw [f4, f5]; exact heof
    obtain ⟨hp1, hp2⟩ := pullDesc_expected hp heof'
    refine ⟨?_, ?_, ?_⟩
    · intro f hf
      obtain ⟨h1, h2, h3⟩ := hp1 f hf
      refine ⟨by rw [h1, hexp], ?_, h3⟩
      intro hne
      have hthis := hdef' (h2 hne)
      subst hf
      have hc := hasHandler_congr hfr.2.1 hfr.2.2.2.2.1
      simp only [Outcome.fsm] at hc
      rw [hc]
      exact hthis
    · intro p f hf
      exact absurd hf ((pullDesc_rank hp cs (by rw [f5]; exact hr)).2 p f)
    · intro p e f hf
      rw [← hexp]
      exact hp2 p e f hf
  · refine ⟨(by intro f' h; cases h), (by intro p f' h; cases h), ?_⟩
    intro p e' f' h
    cases h
    rw [failDesc_expected hfail hST hdst, hfv]

theorem singleTrigger_nonempty {S : StateName → State} {cap : Nat} (h : SingleTrigger S cap)
    (name : StateName) (ns : NextState) (hmem : ns ∈ (S name).NextStates) :
    ns.Switch.Trigger ≠ [] := by
  rcases h name with h0 | ⟨ns', h1, h2, _⟩
  · rw [h0] at hmem; cases hmem
  · rw [h1] at hmem
    simp only [List.mem_singleton] at hmem
    rw [hmem]; exact h2

/-- Over a single-trigger table the run ends and shows what the reference
semantics expects, however the reader cuts the stream. -/
theorem readAll_single_trigger (S : StateName → State) (cap d : Nat) (hd : 0 < d)
    (hcap : 0 < cap) (hST : SingleTrigger S cap) :
    ∀ fsm, SingleInv S cap fsm → ∀ out,
      ∃ fuel o e g, FSM.readAll d fuel fsm out = some (out ++ o, e, g) ∧
        (o, e, g.ghostLog) = fsm.view.expected := by
  apply readAll_induction d (SingleInv S cap)
    (fun fsm o e g => (o, e, g.ghostLog) = fsm.view.expected)
  intro fsm ⟨⟨htop, hS, hlen, ⟨cs, hr⟩, hdef⟩, heof⟩
  have hD := iter_cases fsm d htop cs hr
  have hvS : fsm.view.states = S := hS
  have hvcap : fsm.view.cap = cap := hlen
  have hST' : SingleTrigger fsm.view.states cap := by rw [hvS]; exact hST
  have hne' : ∀ i ns, fsm.view.Hit i ns → ns.Switch.Trigger ≠ [] := by
    intro i ns hhit
    exact singleTrigger_nonempty hST' _ ns hhit.2.1
  have hfoot' : (fsm.view.states fsm.view.curState).skipMaxLen ≤ fsm.view.cap := by
    rw [hvcap]; exact singleTrigger_foot hST' _
  have hfr := iterDesc_frame hD cs hr
  have hpr := iterDesc_progress hD hd (by rw [hvcap]; exact hcap) hfoot' (Or.inl hne') cs hr
  have hex := iterDesc_expected hD hST' hdef heof cs hr
  cases hout : fsm.iter d with
  | again f =>
    rw [hout] at hfr hpr hex
    obtain ⟨g1, g2, _, g4, g5⟩ := hfr (Or.inl ⟨f, rfl⟩)
    obtain ⟨r1, r2, r3⟩ := hex.1 f rfl
    refine ⟨⟨⟨g1, by rw [← hvS, ← g2]; rfl, by rw [← hvcap, ← g4]; rfl, g5, r2⟩, r3⟩,
      hpr.1 f rfl, ?_⟩
    intro o e g ho
    rw [ho, r1]
  | ret p err f =>
    rw [hout] at hfr hpr hex
    cases err with
    | none =>
      obtain ⟨g1, g2, _, g4, g5⟩ := hfr (Or.inr ⟨p, f, rfl⟩)
      obtain ⟨r1, r2, r3⟩ := hex.2.1 p f rfl
      obtain ⟨p1, p2⟩ := hpr.2 p f rfl
      refine ⟨⟨⟨g1, by rw [← hvS, ← g2]; rfl, by rw [← hvcap, ← g4]; rfl, g5, r2⟩, r3⟩,
        p1, p2, ?_⟩
      intro o e g ho
      rw [← r1, ← ho]
    | some e =>
      exact hex.2.2 p e f rfl

theorem Init_expected (cs : List (List Byte)) (desc : Description) :
    (Init (chunked cs) desc).view.expected =
      refStream desc.States desc.UserCtx desc.InitState [] 0 cs.flatten := by
  have hs : (Init (chunked cs) desc).view.stream = cs.flatten := by
    simp only [View.stream, Init_view_win, List.nil_append]
    exact pending_chunked cs
  simp only [View.expected, hs]
  simp only [FSM.view, Init, List.nil_append]

theorem Init_singleInv (cs : List (List Byte)) (desc : Description) :
    SingleInv desc.States 4096 (Init (chunked cs) desc) :=
  ⟨Init_passInv cs desc, fun h => by simp only [Init] at h; cases h⟩

/-- The run of a fresh engine over a single-trigger table. -/
theorem Init_single_trigger (desc : Description) (cs : List (List Byte)) (d : Nat) (hd : 0 < d)
    (hST : SingleTrigger desc.States 4096) :
    ∃ fuel, FSM.observe (FSM.readAll d fuel (Init (chunked cs) desc) []) =
      some (refStream desc.States desc.UserCtx desc.InitState [] 0 cs.flatten) := by
  obtain ⟨fuel, o, e, g, hrun, hobs⟩ := readAll_single_trigger desc.States 4096 d hd
    (by omega) hST (Init (chunked cs) desc) (Init_singleInv cs desc) []
  refine ⟨fuel, ?_⟩
  rw [hrun, ← Init_expected cs desc, ← hobs]
  rfl

/-! ## Triggers that occur nowhere in the stream never match -/

theorem matchDesc_stream {v mv : View} (h : MatchDesc v mv) :
    ∃ k, mv.stream = v.stream.drop k := by
  rcases h with ⟨_, rfl⟩ | ⟨i, ns, _, hhit, _, rfl⟩ | ⟨i, ns, h, d, _, hhit, _, _, rfl⟩ |
    ⟨_, _, rfl⟩
  · exact ⟨0, rfl⟩
  · exact ⟨i + ns.Switch.Trigger.length, stream_drop v _ hhit.2.2.2⟩
  · exact ⟨i + ns.Switch.Trigger.length, stream_drop v _ hhit.2.2.2⟩
  · have hk : v.skipLen ≤ v.win.length := by unfold View.skipLen; split <;> omega
    exact ⟨v.skipLen, stream_drop v _ hk⟩

theorem pullDesc_stream {mv : View} {out : Outcome} (h : PullDesc mv out) :
    out.fsm.view.stream = mv.stream := by
  rcases h with ⟨c, rest, f, hc, rfl, htop, hv⟩ | ⟨hn, hw, hd, hdf, f, rfl, htop, hv⟩ |
    ⟨hn, hw, hne, f, rfl, htop, hv⟩ | ⟨hn, hw, f, rfl, htop, hv⟩
  · simp only [Outcome.fsm, hv, View.stream, hc]
    by_cases hfit : c.length ≤ mv.cap - mv.win.length
    · simp only [if_pos hfit, List.take_of_length_le hfit, Reader.pending, List.append_assoc]
    · have e : List.take (mv.cap - mv.win.length) c ++
          (List.drop (mv.cap - mv.win.length) c ++ Reader.pending rest)
          = c ++ Reader.pending rest := by
        rw [← List.append_assoc, List.take_append_drop]
      simp only [if_neg hfit, Reader.pending, List.append_assoc, e]
  · simp only [Outcome.fsm, hv, View.stream]
  · simp only [Outcome.fsm, hv, View.stream]
  · simp only [Outcome.fsm, hv, View.stream]

theorem absent_no_hit {v : View} (ha : v.Absent) (i : Nat) (ns : NextState) : ¬ v.Hit i ns := by
  intro hhit
  obtain ⟨_, hmem, hocc, hb⟩ := hhit
  have hp := (occursAt_iff_starts _ _ _).mp hocc
  exact ha ns hmem i ((starts_append_iff _ v.win _ i hb).mpr hp)

/-- With the triggers of the current state absent from the stream ahead, one
pass through the loop finds no match and leaves them absent. -/
theorem iterDesc_absent {v : View} {d : Nat} {out : Outcome} (h : IterDesc v d out)
    (ha : v.Absent) (cs : List (List Byte)) (hr : v.r = chunked cs) :
    out.fsm.view.log = v.log ∧ out.fsm.view.Absent := by
  rcases h with ⟨_, f, rfl, _, hv⟩ | ⟨_, mv, hm, hp⟩ |
    ⟨_, e, mv, f, ⟨i, ns, _, _, _, hhit, _⟩, _, _⟩
  · simp only [Outcome.fsm, hv]
    exact ⟨trivial, ha⟩
  · obtain ⟨f1, _, _, _, f5, _⟩ := matchDesc_frame hm
    have hfr := pullDesc_frame hp cs (by rw [f5]; exact hr)
    have hst := pullDesc_stream hp
    obtain ⟨k, hk⟩ := matchDesc_stream hm
    have hmv : mv.log = v.log ∧ mv.curState = v.curState := by
      rcases hm with ⟨_, rfl⟩ | ⟨i, ns, _, hhit, _, _⟩ | ⟨i, ns, _, _, _, hhit, _, _, _⟩ |
        ⟨_, _, rfl⟩
      · exact ⟨rfl, rfl⟩
      · exact absurd hhit (absent_no_hit ha i ns)
      · exact absurd hhit (absent_no_hit ha i ns)
      · exact ⟨rfl, rfl⟩
    refine ⟨by rw [hfr.2.2.2.2.2.1, hmv.1], ?_⟩
    intro ns hns j
    rw [hfr.2.1, hfr.2.2.2.2.1, f1, hmv.2] at hns
    rw [hst, hk, List.drop_drop]
    exact ha ns hns (k + j)
  · exact absurd hhit (absent_no_hit ha i ns)

theorem after_absent (d : Nat) : ∀ (n : Nat) (fsm : FSM), fsm.LoopTop →
    (∃ cs, fsm.r = chunked cs) → fsm.view.Absent →
    (FSM.after d n fsm).ghostLog = fsm.ghostLog := by
  intro n
  induction n with
  | zero => intro fsm _ _ _; rfl
  | succ n ih =>
    intro fsm htop ⟨cs, hr⟩ ha
    have hD := iter_cases fsm d htop cs hr
    have hfr := iterDesc_frame hD cs hr
    obtain ⟨hlog, habs⟩ := iterDesc_absent hD ha cs hr
    cases hout : fsm.iter d with
    | again f =>
      rw [hout] at hfr hlog habs
      obtain ⟨g1, _, _, _, g5⟩ := hfr (Or.inl ⟨f, rfl⟩)
      simp only [FSM.after, hout]
      rw [ih f g1 g5 habs]
      exact hlog
    | ret p err f =>
      rw [hout] at hfr hlog habs
      cases err with
      | none =>
        obtain ⟨g1, _, _, _, g5⟩ := hfr (Or.inr ⟨p, f, rfl⟩)
        simp only [FSM.after, hout]
        rw [ih f g1 g5 habs]
        exact hlog
      | some e =>
        simp only [FSM.after, hout]
        exact hlog

theorem neverMatches_of_absent (desc : Description) (cs : List (List Byte)) (d : Nat)
    (h : ∀ ns ∈ (desc.States desc.InitState).NextStates, ∀ j,
      ¬ ns.Switch.Trigger <+: cs.flatten.drop j) :
    (Init (chunked cs) desc).NeverMatches d := by
  intro n
  apply after_absent d n _ (Init_loopTop _ _) ⟨cs, rfl⟩
  intro ns hns j
  have hs : (Init (chunked cs) desc).view.stream = cs.flatten := by
    simp only [View.stream, Init_view_win, List.nil_append]
    exact pending_chunked cs
  show ¬ ns.Switch.Trigger <+: List.drop j (Init (chunked cs) desc).view.stream
  rw [hs]
  exact h ns hns j

theorem absent_of_not_mem (c : Byte) (t s : List Byte) (hc : c ∉ s) :
    ∀ j, ¬ (c :: t) <+: s.drop j := by
  intro j hp
  by_cases hj : j < s.length
  · rw [List.drop_eq_getElem_cons hj, List.cons_prefix_cons] at hp
    exact hc (hp.1 ▸ List.getElem_mem hj)
  · rw [List.drop_of_length_le (by omega)] at hp
    have := hp.length_le
    simp at this

/-! ## The engine loop: end-to-end properties -/

theorem selfLoop_singleTrigger (t : List Byte) (h : Option Handler) (ht : t ≠ [])
    (hlen : t.length ≤ 4096) : SingleTrigger (selfLoopTable t h).States 4096 := by
  intro name
  by_cases hn : name = "A"
  · right
    subst hn
    exact ⟨{ Name := "A", Switch := ⟨t, ⟨[], []⟩, false⟩, DataHandler := h },
      by simp only [selfLoopTable, if_true], ht, hlen, rfl, rfl, rfl⟩
  · left
    simp only [selfLoopTable, hn, if_false]

theorem bracket_singleTrigger (f : Handler) : SingleTrigger (bracketTable f).States 4096 := by
  intro name
  by_cases hA : name = "A"
  · right
    subst hA
    exact ⟨{ Name := "B", Switch := ⟨[60], ⟨[], []⟩, false⟩, DataHandler := none },
      by simp only [bracketTable, if_true], by simp, by simp, rfl, rfl, rfl⟩
  · by_cases hB : name = "B"
    · right
      subst hB
      exact ⟨{ Name := "A", Switch := ⟨[62], ⟨[], []⟩, false⟩, DataHandler := some f },
        by simp only [bracketTable, hA, if_false, if_true], by simp, by simp, rfl, rfl, rfl⟩
    · left
      simp only [bracketTable, hA, hB, if_false]

/-- C3 (the code falls short). One byte per read, the escape run `\\` before
`$$` is discarded in two compactions; each sets `prevEscs` to the escapes of
the span it discards alone, so when the matcher is called on the window `$$`
two stream bytes `\\` are behind (`ghostPos = 2`, both parked in the deferred
buffer) and the carried count is 1, not 2. The trigger is taken for escaped:
the run returns the input unchanged and records no match, whereas the same
input delivered in one read matches at offset 2 and is dropped by the
handler. -/
theorem escape_carry_lost_across_reads :
    (FSM.after 16 4 (Init (chunked [[92], [92], [36], [36]]) escapeTable)).ghostPos = 2 ∧
    (FSM.after 16 4 (Init (chunked [[92], [92], [36], [36]]) escapeTable)).deferredBuf
      = [92, 92] ∧
    (FSM.after 16 4 (Init (chunked [[92], [92], [36], [36]]) escapeTable)).window = [36, 36] ∧
    (FSM.after 16 4 (Init (chunked [[92], [92], [36], [36]]) escapeTable)).prevEscs = 1 ∧
    FSM.observe (FSM.readAll 16 12 (Init (chunked [[92], [92], [36], [36]]) escapeTable) [])
      = some ([92, 92, 36, 36], GoError.EOF, []) ∧
    FSM.observe (FSM.readAll 16 12 (Init (chunked [[92, 92, 36, 36]]) escapeTable) [])
      = some ([], GoError.EOF, [Fired.mk 2 "A" [36, 36] (some [92, 92])]) := by
  decide!

/-- C4. Boundary-split detection for a single trigger: for a state table in
which every state has at most one transition (in particular a table whose only
transition it is), with a non-empty trigger of at most 4096 bytes, no
delimiters and no escape, for every list of chunks the source delivers (each
with a nil error, the end of the stream being reported by a later read of no
bytes) and every positive size of the caller's buffers, the run ends and shows
the same bytes returned, the same final error and the same matches at the same
stream offsets as the run in which the source offers the whole input at
once. -/
theorem FSM.readAll_split_independent (desc : Description)
    (hST : SingleTrigger desc.States 4096) (cs : List (List Byte)) (d1 d2 : Nat)
    (hd1 : 0 < d1) (hd2 : 0 < d2) :
    ∃ fuel1 fuel2 obs,
      FSM.observe (FSM.readAll d1 fuel1 (Init (chunked cs) desc) []) = some obs ∧
      FSM.observe (FSM.readAll d2 fuel2 (Init (chunked [cs.flatten]) desc) []) = some obs := by
  obtain ⟨fuel1, h1⟩ := Init_single_trigger desc cs d1 hd1 hST
  obtain ⟨fuel2, h2⟩ := Init_single_trigger desc [cs.flatten] d2 hd2 hST
  refine ⟨fuel1, fuel2, _, h1, ?_⟩
  rw [h2]
  simp only [List.flatten_cons, List.flatten_nil, List.append_nil]

theorem FSM.readAll_split_independent_witness :
    SingleTrigger (selfLoopTable [36, 36] (some DataHandlerGenericSkipToken)).States 4096 ∧
    0 < 8 ∧ 0 < 3 ∧
    ∃ fuel1 fuel2 obs,
      FSM.observe (FSM.readAll 8 fuel1 (Init (chunked [[97, 36], [36, 98]])
        (selfLoopTable [36, 36] (some DataHandlerGenericSkipToken))) []) = some obs ∧
      FSM.observe (FSM.readAll 3 fuel2 (Init (chunked [[[97, 36], [36, 98]].flatten])
        (selfLoopTable [36, 36] (some DataHandlerGenericSkipToken))) []) = some obs :=
  ⟨selfLoop_singleTrigger _ _ (by decide) (by decide), by decide, by decide,
    FSM.readAll_split_independent _ (selfLoop_singleTrigger _ _ (by decide) (by decide))
      [[97, 36], [36, 98]] 8 3 (by decide) (by decide)⟩

theorem single_starts_cons (c x : Byte) (xs : List Byte) : [c] <+: x :: xs ↔ c = x := by
  rw [List.cons_prefix_cons]
  simp

theorem firstIndex_single_absent (c : Byte) (w : List Byte) (hw : c ∉ w) :
    firstIndex [c] w = none := by
  rw [firstIndex_eq_none_iff]
  intro j hp
  by_cases hj : j < w.length
  · rw [List.drop_eq_getElem_cons hj, single_starts_cons] at hp
    exact hw (hp ▸ List.getElem_mem hj)
  · rw [List.drop_of_length_le (by omega)] at hp
    have := hp.length_le
    simp at this

theorem firstIndex_single_at (c : Byte) (u rest : List Byte) (hu : c ∉ u) :
    firstIndex [c] (u ++ c :: rest) = some u.length := by
  rw [firstIndex_eq_some_iff]
  constructor
  · rw [List.drop_left]
    exact (single_starts_cons c c rest).mpr rfl
  · intro j hj hp
    rw [List.drop_append_of_le_length (by omega), List.drop_eq_getElem_cons hj,
      List.cons_append, single_starts_cons] at hp
    exact hu (hp ▸ List.getElem_mem hj)

/-- The reference semantics of the end-to-end table on `u<v>w`. -/
theorem refStream_bracket (f : Handler) (u v w r : List Byte)
    (hu : (60 : Byte) ∉ u) (hv : (62 : Byte) ∉ v) (hw : (60 : Byte) ∉ w)
    (hf : f 0 v [62] = (r, none)) :
    refStream (bracketTable f).States 0 "A" [] 0 (u ++ [60] ++ v ++ [62] ++ w) =
      (u ++ [60] ++ r ++ w, GoError.EOF,
        [Fired.mk u.length "B" [60] none, Fired.mk (u.length + 1 + v.length) "A" [62] (some v)]) := by
  have hBA : ¬ ("B" : String) = "A" := by decide
  have hA : ((bracketTable f).States "A").NextStates =
      [{ Name := "B", Switch := ⟨[60], ⟨[], []⟩, false⟩, DataHandler := none }] := by
    simp only [bracketTable, if_true]
  have hB : ((bracketTable f).States "B").NextStates =
      [{ Name := "A", Switch := ⟨[62], ⟨[], []⟩, false⟩, DataHandler := some f }] := by
    simp only [bracketTable, hBA, if_false, if_true]
  have s1 : u ++ [60] ++ v ++ [62] ++ w = u ++ 60 :: (v ++ 62 :: w) := by
    simp only [List.append_assoc, List.singleton_append, List.cons_append, List.nil_append]
  have h1 := refStream_some (bracketTable f).States 0 "A" [] 0 (u ++ 60 :: (v ++ 62 :: w))
    _ u.length hA (by simp) (firstIndex_single_at 60 u _ hu)
  have h2 := refStream_some (bracketTable f).States 0 "B" [] (0 + (u.length + 1))
    (v ++ 62 :: w) _ v.length hB (by simp) (firstIndex_single_at 62 v _ hv)
  have h3 := refStream_none (bracketTable f).States 0 "A" [] (0 + (u.length + 1) + (v.length + 1))
    w _ hA (firstIndex_single_absent 60 w hw)
  have d1 : List.drop (u.length + 1) (u ++ 60 :: (v ++ 62 :: w)) = v ++ 62 :: w := by
    have : u ++ 60 :: (v ++ 62 :: w) = (u ++ [60]) ++ (v ++ 62 :: w) := by simp
    rw [this]
    have hl : (u ++ [60]).length = u.length + 1 := by simp
    rw [← hl, List.drop_left]
  have d2 : List.drop (v.length + 1) (v ++ 62 :: w) = w := by
    have : v ++ 62 :: w = (v ++ [62]) ++ w := by simp
    rw [this]
    have hl : (v ++ [62]).length = v.length + 1 := by simp
    rw [← hl, List.drop_left]
  simp only [List.length_singleton, List.take_left, List.nil_append, d1, d2, hf] at h1 h2
  rw [s1, h1, h2, h3]
  simp only [List.append_assoc, List.singleton_append, List.cons_append, List.nil_append,
    Nat.zero_add, List.append_nil]

/-- C7. End-to-end handler substitution: with states `A`: on `<` (no
delimiters, no escape, no handler) to `B`, and `B`: on `>` (handler `f`) to
`A`, initial state `A`, for every input `u<v>w` where `u` and `w` contain no
`<` and `v` contains no `>`, however the source cuts it into reads (each with
a nil error, the end of the stream being reported by a later read of no bytes)
and for every positive size of the caller's buffers, the run ends with
`io.EOF`, has found exactly the two matches `<` at offset `len(u)` and `>` at
offset `len(u)+1+len(v)`, called the handler once, on the second, with
`deferred = v` and trigger `>`, and returned `u<` followed by the handler's
bytes and `w`. -/
theorem FSM.readAll_bracket (f : Handler) (u v w r : List Byte) (cs : List (List Byte))
    (d : Nat) (hd : 0 < d)
    (hu : (60 : Byte) ∉ u) (hv : (62 : Byte) ∉ v) (hw : (60 : Byte) ∉ w)
    (hcs : cs.flatten = u ++ [60] ++ v ++ [62] ++ w)
    (hf : f 0 v [62] = (r, none)) :
    ∃ fuel, FSM.observe (FSM.readAll d fuel (Init (chunked cs) (bracketTable f)) []) =
      some (u ++ [60] ++ r ++ w, GoError.EOF,
        [Fired.mk u.length "B" [60] none,
         Fired.mk (u.length + 1 + v.length) "A" [62] (some v)]) := by
  obtain ⟨fuel, h⟩ := Init_single_trigger (bracketTable f) cs d hd (bracket_singleTrigger f)
  refine ⟨fuel, ?_⟩
  rw [h, hcs]
  exact congrArg some (refStream_bracket f u v w r hu hv hw hf)

theorem FSM.readAll_bracket_witness :
    0 < 2 ∧ (60 : Byte) ∉ [97] ∧ (62 : Byte) ∉ [98] ∧ (60 : Byte) ∉ [99] ∧
    [[97], [60, 98], [62, 99]].flatten = [97] ++ [60] ++ [98] ++ [62] ++ [99] ∧
    bangHandler 0 [98] [62] = ([98, 33], none) ∧
    ∃ fuel, FSM.observe (FSM.readAll 2 fuel (Init (chunked [[97], [60, 98], [62, 99]])
        (bracketTable bangHandler)) []) =
      some ([97] ++ [60] ++ [98, 33] ++ [99], GoError.EOF,
        [Fired.mk [97].length "B" [60] none,
         Fired.mk ([97].length + 1 + [98].length) "A" [62] (some [98])]) :=
  ⟨by decide, by decide, by decide, by decide, rfl, rfl,
    FSM.readAll_bracket bangHandler [97] [98] [99] [98, 33] [[97], [60, 98], [62, 99]] 2
      (by decide) (by decide) (by decide) (by decide) rfl rfl⟩

theorem plainBracket_states (name : StateName) :
    (plainBracketTable.States name).NextStates =
        [{ Name := "B", Switch := ⟨[60], ⟨[32], []⟩, true⟩, DataHandler := none }] ∨
    (plainBracketTable.States name).NextStates =
        [{ Name := "A", Switch := ⟨[62], ⟨[], [32]⟩, false⟩, DataHandler := none }] ∨
    (plainBracketTable.States name).NextStates = [] := by
  by_cases hA : name = "A"
  · left
    simp only [plainBracketTable, hA, if_true]
  · by_cases hB : name = "B"
    · right; left
      subst hB
      simp only [plainBracketTable, hA, if_false, if_true]
    · right; right
      simp only [plainBracketTable, hA, hB, if_false]

theorem plainBracket_no_handler :
    ∀ name, ∀ ns ∈ (plainBracketTable.States name).NextStates, ns.DataHandler = none := by
  intro name ns hns
  rcases plainBracket_states name with h | h | h <;> rw [h] at hns
  · rw [List.mem_singleton.mp hns]
  · rw [List.mem_singleton.mp hns]
  · cases hns

theorem plainBracket_nonempty :
    ∀ name, ∀ ns ∈ (plainBracketTable.States name).NextStates, ns.Switch.Trigger ≠ [] := by
  intro name ns hns
  rcases plainBracket_states name with h | h | h <;> rw [h] at hns
  · rw [List.mem_singleton.mp hns]; simp
  · rw [List.mem_singleton.mp hns]; simp
  · cases hns

theorem plainBracket_foot : ∀ name, (plainBracketTable.States name).skipMaxLen ≤ 4096 := by
  intro name
  have key : ∀ st : State,
      (st.NextStates = [{ Name := "B", Switch := ⟨[60], ⟨[32], []⟩, true⟩, DataHandler := none }] ∨
       st.NextStates = [{ Name := "A", Switch := ⟨[62], ⟨[], [32]⟩, false⟩, DataHandler := none }] ∨
       st.NextStates = []) → st.skipMaxLen ≤ 4096 := by
    intro st h
    rcases h with h | h | h <;> simp [State.skipMaxLen, h]
  exact key _ (plainBracket_states name)

/-- C6 (amended). Handler-less tables are the identity transform when no
footprint exceeds the buffer: for every state table in which no transition has
a handler, every trigger is non-empty and every state has
`skipMaxLen() ≤ 4096`, for every list of chunks the source delivers (each with
a nil error, the end of the stream being reported by a later read of no bytes)
and every positive size of the caller's buffers, the run ends with `io.EOF`
and the concatenation of the bytes returned equals the input exactly. -/
theorem FSM.readAll_identity_without_handlers (desc : Description) (cs : List (List Byte))
    (d : Nat) (hd : 0 < d)
    (hnoH : ∀ name, ∀ ns ∈ (desc.States name).NextStates, ns.DataHandler = none)
    (hne : ∀ name, ∀ ns ∈ (desc.States name).NextStates, ns.Switch.Trigger ≠ [])
    (hfoot : ∀ name, (desc.States name).skipMaxLen ≤ 4096) :
    ∃ fuel g, FSM.readAll d fuel (Init (chunked cs) desc) [] =
      some (cs.flatten, GoError.EOF, g) := by
  obtain ⟨fuel, o, e, g, hrun, ho, he⟩ := readAll_no_handler desc.States 4096 d hd (by omega)
    hnoH hne hfoot (Init (chunked cs) desc) (Init_passInv cs desc) []
  refine ⟨fuel, g, ?_⟩
  rw [hrun, ho, he, Init_rest]
  rfl

theorem FSM.readAll_identity_without_handlers_witness :
    0 < 3 ∧
    (∀ name, ∀ ns ∈ (plainBracketTable.States name).NextStates, ns.DataHandler = none) ∧
    (∀ name, ∀ ns ∈ (plainBracketTable.States name).NextStates, ns.Switch.Trigger ≠ []) ∧
    (∀ name, (plainBracketTable.States name).skipMaxLen ≤ 4096) ∧
    ∃ fuel g, FSM.readAll 3 fuel (Init (chunked [[97, 32], [60, 98, 62], [32, 99]])
        plainBracketTable) [] =
      some ([[97, 32], [60, 98, 62], [32, 99]].flatten, GoError.EOF, g) :=
  ⟨by decide, plainBracket_no_handler, plainBracket_nonempty, plainBracket_foot,
    FSM.readAll_identity_without_handlers plainBracketTable [[97, 32], [60, 98, 62], [32, 99]] 3
      (by decide) plainBracket_no_handler plainBracket_nonempty plainBracket_foot⟩

/-- C6 as stated fails: the table with the single handler-less transition on a
trigger of 4097 bytes `b` and an input of 4097 bytes `a` in one chunk. The
window fills the 4096-byte buffer, no match is possible, `skip` is
`4096 - 4097 + 1 = 0`, nothing is consumed and the next read has no room:
whatever the number of loop iterations, no call has returned. -/
theorem identity_without_handlers_counterexample :
    (∀ name, ∀ ns ∈ ((selfLoopTable (List.replicate 4097 98) none).States name).NextStates,
      ns.DataHandler = none) ∧
    (∀ name, ∀ ns ∈ ((selfLoopTable (List.replicate 4097 98) none).States name).NextStates,
      ns.Switch.Trigger ≠ []) ∧
    ∀ fuel, FSM.readAll 1 fuel (Init (chunked [List.replicate 4097 97])
      (selfLoopTable (List.replicate 4097 98) none)) [] = none := by
  have hmem : ∀ name, ∀ ns ∈ ((selfLoopTable (List.replicate 4097 98) none).States name).NextStates,
      ns = { Name := "A", Switch := ⟨List.replicate 4097 98, ⟨[], []⟩, false⟩,
             DataHandler := none } := by
    intro name ns hns
    by_cases hA : name = "A"
    · simp only [selfLoopTable, hA, if_true, List.mem_singleton] at hns
      exact hns
    · simp only [selfLoopTable, hA, if_false] at hns
      cases hns
  refine ⟨?_, ?_, ?_⟩
  · intro name ns hns
    rw [hmem name ns hns]
  · intro name ns hns
    rw [hmem name ns hns]
    intro h
    have := congrArg List.length h
    simp only [List.length_replicate, List.length_nil] at this
    omega
  · exact (longTrigger_never_returns (List.replicate 4097 98) (List.replicate 4097 97)
      (by simp only [List.length_replicate]; omega)
      (by simp only [List.length_replicate]; omega) none 1).2

/-- C5 (amended). Pass-through when the footprint of the initial state fits the
buffer: for every state table (states with handler-bearing transitions
included) whose initial state has `skipMaxLen() ≤ 4096`, every list of chunks
the source delivers (each with a nil error, the end of the stream being
reported by a later read of no bytes) and every positive size of the caller's
buffers, if no transition ever matches during the run, then the run ends with
`io.EOF` and the concatenation of the bytes returned equals the input exactly,
the bytes parked in the deferred buffer being flushed unchanged at end of
stream. -/
theorem FSM.readAll_pass_through (desc : Description) (cs : List (List Byte)) (d : Nat)
    (hd : 0 < d) (hfoot : (desc.States desc.InitState).skipMaxLen ≤ 4096)
    (hnever : (Init (chunked cs) desc).NeverMatches d) :
    ∃ fuel g, FSM.readAll d fuel (Init (chunked cs) desc) [] =
      some (cs.flatten, GoError.EOF, g) := by
  obtain ⟨fuel, o, e, g, hrun, ho, he⟩ := readAll_never_matches desc.States 4096 d hd (by omega)
    desc.InitState hfoot (Init (chunked cs) desc) ⟨Init_passInv cs desc, rfl, hnever⟩ []
  refine ⟨fuel, g, ?_⟩
  rw [hrun, ho, he, Init_rest]
  rfl

theorem selfLoop_absent (c : Byte) (t : List Byte) (h : Option Handler) (s : List Byte)
    (hc : c ∉ s) :
    ∀ ns ∈ ((selfLoopTable (c :: t) h).States (selfLoopTable (c :: t) h).InitState).NextStates,
      ∀ j, ¬ ns.Switch.Trigger <+: s.drop j := by
  intro ns hns
  have : ns = { Name := "A", Switch := ⟨c :: t, ⟨[], []⟩, false⟩, DataHandler := h } := by
    simp only [selfLoopTable, if_true, List.mem_singleton] at hns
    exact hns
  rw [this]
  exact absent_of_not_mem c t s hc

theorem FSM.readAll_pass_through_witness :
    0 < 2 ∧
    ((selfLoopTable [36, 36] (some DataHandlerGenericVoid)).States
      (selfLoopTable [36, 36] (some DataHandlerGenericVoid)).InitState).skipMaxLen ≤ 4096 ∧
    (Init (chunked [[97, 98], [99]])
      (selfLoopTable [36, 36] (some DataHandlerGenericVoid))).NeverMatches 2 ∧
    ∃ fuel g, FSM.readAll 2 fuel (Init (chunked [[97, 98], [99]])
        (selfLoopTable [36, 36] (some DataHandlerGenericVoid))) [] =
      some ([[97, 98], [99]].flatten, GoError.EOF, g) :=
  ⟨by decide,
    by rw [show (selfLoopTable [36, 36] (some DataHandlerGenericVoid)).InitState = "A" from rfl,
      selfLoop_skipMaxLen]; decide,
    neverMatches_of_absent _ _ 2 (selfLoop_absent 36 [36] _ _ (by decide)),
    FSM.readAll_pass_through (selfLoopTable [36, 36] (some DataHandlerGenericVoid))
      [[97, 98], [99]] 2 (by decide)
      (by rw [show (selfLoopTable [36, 36] (some DataHandlerGenericVoid)).InitState = "A" from rfl,
        selfLoop_skipMaxLen]; decide)
      (neverMatches_of_absent _ _ 2 (selfLoop_absent 36 [36] _ _ (by decide)))⟩

/-- C5 as stated fails: the table whose single transition, with the built-in
handler that drops everything, has a trigger of 4097 bytes `b`, and an input
of 4097 bytes `a` in one chunk. No transition ever matches during the run, yet
the window fills the 4096-byte buffer and is never consumed: whatever the
number of loop iterations, no call has returned and nothing of the input has
come out. -/
theorem pass_through_counterexample :
    (Init (chunked [List.replicate 4097 97])
      (selfLoopTable (List.replicate 4097 98) (some DataHandlerGenericVoid))).NeverMatches 1 ∧
    ∀ fuel, FSM.readAll 1 fuel (Init (chunked [List.replicate 4097 97])
      (selfLoopTable (List.replicate 4097 98) (some DataHandlerGenericVoid))) [] = none :=
  longTrigger_never_returns (List.replicate 4097 98) (List.replicate 4097 97)
    (by simp only [List.length_replicate]; omega)
    (by simp only [List.length_replicate]; omega) (some DataHandlerGenericVoid) 1

theorem GoError.is_refl (e : GoError) : e.is e = true := by
  cases e <;> simp [GoError.is]

theorem read_of_ret (fsm f : FSM) (dstLen fuel : Nat) (p : List Byte) (e : Option GoError)
    (h : fsm.iter dstLen = .ret p e f) : fsm.read dstLen (fuel + 1) = some (p, e, f) := by
  simp only [FSM.read, h]

theorem read_loops (d k : Nat) : ∀ (fsm0 fsm : FSM) (n : Nat),
    FSM.loops d k fsm0 = some fsm → fsm0.read d (k + n) = fsm.read d n := by
  induction k with
  | zero =>
    intro fsm0 fsm n h
    simp only [FSM.loops, Option.some.injEq] at h
    rw [h, Nat.zero_add]
  | succ k ih =>
    intro fsm0 fsm n h
    rw [show k + 1 + n = (k + n) + 1 by omega]
    simp only [FSM.loops] at h
    simp only [FSM.read]
    cases hi : fsm0.iter d with
    | again f =>
      rw [hi] at h
      exact ih f fsm n h
    | ret p e f =>
      rw [hi] at h
      cases h

theorem loops_one (fsm : FSM) (d : Nat) (h : (FSM.loops d 1 fsm).isSome = true) :
    (∃ f, fsm.iter d = .again f) ∧ FSM.loops d 1 fsm = some (fsm.iter d).fsm := by
  simp only [FSM.loops] at h ⊢
  cases hi : fsm.iter d with
  | again f => exact ⟨⟨f, rfl⟩, rfl⟩
  | ret p e f =>
    rw [hi] at h
    cases h

theorem failingEngine_loops : FSM.loops 8 1 failingStart = some failingEngine :=
  (loops_one failingStart 8 (by decide!)).2

theorem iter_states_of_again (fsm : FSM) (d : Nat) (htop : fsm.LoopTop) (cs : List (List Byte))
    (hr : fsm.r = chunked cs) (h : ∃ f, fsm.iter d = .again f) :
    (fsm.iter d).fsm.states = fsm.states :=
  (iterDesc_frame (iter_cases fsm d htop cs hr) cs hr (Or.inl h)).2.1

theorem failingEngine_states :
    failingEngine.states = (selfLoopTable [62] (some failingHandler)).States :=
  iter_states_of_again failingStart 8 (Init_loopTop _ _) [[98, 62]] rfl
    (loops_one failingStart 8 (by decide!)).1

theorem failingEngine_loopTop : failingEngine.LoopTop :=
  ⟨by decide!, by decide!⟩

theorem failingEngine_select :
    failingEngine.select = (((1 : Nat) : Int),
      { Name := "A", Switch := ⟨[62], ⟨[], []⟩, false⟩, DataHandler := some failingHandler }) := by
  have h1 : failingEngine.curState = "A" := by decide!
  have h2 : failingEngine.window = [98, 62] := by decide!
  have h3 : failingEngine.tailBytes = [] := by decide!
  have h4 : failingEngine.prevEscs = 0 := by decide!
  have h5 : failingEngine.isEOF = false := by decide!
  simp only [FSM.select, failingEngine_states, h1, h2, h3, h4, h5]
  rfl

/-- C10. Handler failure aborts the read: in a call of the engine loop that
started at `fsm0` and has come, after `k` passes that did not return, to the
top of the loop at `fsm` with the output buffer drained and a non-empty
window, whenever the matcher selects a transition at offset `i ≥ 0` whose
`DataHandler`, called with the deferred bytes (the parked ones and the literal
bytes before the match) and the trigger, returns a non-nil error `e`, the call
returns 0 bytes and the error `fmt.Errorf("fsm read data handler: %w", e)`,
from which `errors.Unwrap` and `errors.Is` recover `e`; nothing is appended to
the output buffer and the current state is not switched. -/
theorem FSM.read_handler_failure (fsm0 fsm : FSM) (dstLen k fuel : Nat) (i : Nat)
    (ns : NextState) (h : Handler) (d : List Byte) (e : GoError)
    (hloop : FSM.loops dstLen k fsm0 = some fsm)
    (htop : fsm.LoopTop) (hdst : fsm.dst = []) (hwin : fsm.src1 - fsm.src0 > 0)
    (hsel : fsm.select = ((i : Int), ns)) (hh : ns.DataHandler = some h)
    (hres : h fsm.userCtx (fsm.deferredBuf ++ fsm.window.take i) ns.Switch.Trigger
      = (d, some e)) :
    ∃ f, fsm0.read dstLen (k + (fuel + 1)) =
        some ([], some (GoError.wrap "fsm read data handler" e), f) ∧
      f.dst = fsm.dst ∧ f.curState = fsm.curState ∧
      (GoError.wrap "fsm read data handler" e).unwrap = some e ∧
      (GoError.wrap "fsm read data handler" e).is e = true := by
  rcases select_cases fsm with ⟨hneg, _⟩ | ⟨i', ns', hsel', hmem, _, _, _, hb⟩
  · rw [hsel] at hneg
    simp only at hneg
    omega
  · rw [hsel] at hsel'
    have hi : i = i' := by
      have := congrArg Prod.fst hsel'
      simp only at this
      omega
    have hn : ns = ns' := congrArg Prod.snd hsel'
    subst hi hn
    have hH := hasHandler_of_mem fsm ns h hmem hh
    obtain ⟨m, hm, _, hmv⟩ := matchPhase_hit_err fsm i ns h d e htop hsel hb hh hH hres
    refine ⟨m, ?_, ?_, ?_, rfl, ?_⟩
    · rw [read_loops dstLen k fsm0 fsm (fuel + 1) hloop]
      exact read_of_ret fsm m dstLen fuel _ _ (iter_of_ret fsm m dstLen _ _ hdst hwin hm)
    · have : m.view.dst = fsm.view.dst := by rw [hmv]
      exact this
    · have : m.view.curState = fsm.view.curState := by rw [hmv]
      exact this
    · simp only [GoError.is, GoError.is_refl, Bool.or_true]

theorem FSM.read_handler_failure_witness :
    FSM.loops 8 1 failingStart = some failingEngine ∧
    failingEngine.LoopTop ∧ failingEngine.dst = [] ∧
    failingEngine.src1 - failingEngine.src0 > 0 ∧
    failingEngine.select = (((1 : Nat) : Int),
      { Name := "A", Switch := ⟨[62], ⟨[], []⟩, false⟩, DataHandler := some failingHandler }) ∧
    failingHandler failingEngine.userCtx
      (failingEngine.deferredBuf ++ failingEngine.window.take 1) [62]
      = ([], some (GoError.other 7)) ∧
    ∃ f, failingStart.read 8 (1 + (0 + 1)) =
        some ([], some (GoError.wrap "fsm read data handler" (GoError.other 7)), f) ∧
      f.dst = failingEngine.dst ∧ f.curState = failingEngine.curState ∧
      (GoError.wrap "fsm read data handler" (GoError.other 7)).unwrap = some (GoError.other 7) ∧
      (GoError.wrap "fsm read data handler" (GoError.other 7)).is (GoError.other 7) = true :=
  ⟨failingEngine_loops, failingEngine_loopTop, by decide!, by decide!, failingEngine_select,
    by decide!,
    FSM.read_handler_failure failingStart failingEngine 8 1 0 1
      { Name := "A", Switch := ⟨[62], ⟨[], []⟩, false⟩, DataHandler := some failingHandler }
      failingHandler [] (GoError.other 7) failingEngine_loops failingEngine_loopTop (by decide!)
      (by decide!) failingEngine_select rfl (by decide!)⟩

/-! ## What the phases of one pass leave alone -/

theorem compact_frame (m : FSM) :
    m.compact.curState = m.curState ∧ m.compact.states = m.states ∧
    m.compact.userCtx = m.userCtx ∧ m.compact.deferredBuf = m.deferredBuf ∧
    m.compact.dst = m.dst ∧ m.compact.isEOF = m.isEOF ∧ m.compact.r = m.r ∧
    m.compact.ghostLog = m.ghostLog ∧ m.compact.src.length = m.src.length := by
  unfold FSM.compact
  by_cases hpos : m.src0 > 0
  · simp only [hpos, if_true]
    rw [savePrev_eq]
    simp only [copyInto_length, and_self]
  · rw [if_neg hpos]
    simp only [and_self]

theorem matchPhase_frame (fsm : FSM) (st : State) :
    (fsm.matchPhase st).fsm.src = fsm.src ∧ (fsm.matchPhase st).fsm.src1 = fsm.src1 ∧
    (fsm.matchPhase st).fsm.prevSrcL = fsm.prevSrcL ∧
    (fsm.matchPhase st).fsm.prevEscs = fsm.prevEscs ∧
    (fsm.matchPhase st).fsm.ghostPos = fsm.ghostPos ∧
    (fsm.matchPhase st).fsm.r = fsm.r ∧ (fsm.matchPhase st).fsm.isEOF = fsm.isEOF ∧
    (fsm.matchPhase st).fsm.states = fsm.states ∧
    (fsm.matchPhase st).fsm.userCtx = fsm.userCtx ∧
    (fsm.matchPhase st).fsm.prevSrc = fsm.prepPrevSrc.1.prevSrc ∧
    fsm.src0 ≤ (fsm.matchPhase st).fsm.src0 := by
  unfold FSM.matchPhase
  rw [prepPrevSrc_eq]
  simp only [writeOutBuf_eq]
  cases hidx : st.index (slice fsm.src fsm.src0 fsm.src1) fsm.tailBytes fsm.prevEscs fsm.isEOF with
  | mk i ns =>
    simp only
    by_cases hi : i ≥ 0
    · simp only [hi, if_true]
      cases hh : ns.DataHandler with
      | none =>
        simp only
        split_ifs <;>
          simp only [Outcome.fsm, FSM.stateSwitch, true_and]
        all_goals omega
      | some h =>
        simp only
        split <;> split_ifs <;>
          simp only [Outcome.fsm, FSM.stateSwitch, true_and]
        all_goals omega
    · simp only [hi, if_false]
      split_ifs <;>
        simp only [Outcome.fsm, true_and, Nat.le_refl, Nat.le_add_right]

theorem pull_frame (f : FSM) :
    f.pull.fsm.prevSrc = f.prevSrc ∧ f.pull.fsm.prevSrcL = f.prevSrcL ∧
    f.pull.fsm.prevEscs = f.prevEscs ∧ f.pull.fsm.ghostPos = f.ghostPos ∧
    f.pull.fsm.ghostLog = f.ghostLog ∧ f.pull.fsm.curState = f.curState ∧
    f.pull.fsm.states = f.states ∧ f.pull.fsm.userCtx = f.userCtx ∧
    f.pull.fsm.src0 = f.src0 ∧ f.pull.fsm.src.length = f.src.length ∧
    f.src1 ≤ f.pull.fsm.src1 ∧ (f.src1 ≤ f.src.length → f.pull.fsm.src1 ≤ f.src.length) := by
  have hlen := Read_length f.r (f.src.length - f.src1)
  unfold FSM.pull
  cases hr : Reader.Read f.r (f.src.length - f.src1) with
  | mk bs rest =>
    cases rest with
    | mk err r' =>
      rw [hr] at hlen
      simp only at hlen
      cases err with
      | none =>
        simp only [Outcome.fsm, copyInto_length, true_and, Nat.le_add_right]
        omega
      | some e =>
        cases e with
        | EOF =>
          simp only
          split_ifs <;> simp only [Outcome.fsm, copyInto_length, true_and, Nat.le_add_right,
            Nat.le_refl] <;> omega
        | other id =>
          simp only [Outcome.fsm, copyInto_length, true_and, Nat.le_refl, imp_self]
        | wrap msg inner =>
          simp only [Outcome.fsm, copyInto_length, true_and, Nat.le_refl, imp_self]

theorem compact_offsets (m : FSM) (hb : m.Bounds) :
    m.compact.src0 = 0 ∧ m.compact.src1 = m.src1 - m.src0 ∧
    m.compact.ghostPos = m.ghostPos + m.src0 ∧ m.compact.window = m.window := by
  obtain ⟨htop, hv⟩ := compact_view m hb
  have hw : m.compact.view.win = m.view.win := by rw [hv]
  have hp : m.compact.view.pos = m.view.pos := by rw [hv]
  have hwl := window_length m.compact htop
  have hwl2 : m.window.length = m.src1 - m.src0 := slice_length _ _ _ hb.2
  simp only [FSM.view] at hw hp
  refine ⟨htop.1, ?_, ?_, hw⟩
  · rw [← hwl, hw, hwl2]
  · rw [htop.1] at hp
    exact hp

theorem compact_zero (m : FSM) (h : m.src0 = 0) : m.compact = m := by
  unfold FSM.compact
  have : ¬ m.src0 > 0 := by omega
  rw [if_neg this]

theorem savePrev_last (fsm : FSM) (t : List Byte) (hlen : fsm.prevSrc.length = 1)
    (ht : t ≠ []) :
    (fsm.savePrev t).prevSrcL = 1 ∧ (fsm.savePrev t).prevSrc = t.getLast?.toList := by
  obtain ⟨p, hp⟩ : ∃ p, fsm.prevSrc = [p] := List.length_eq_one.mp hlen
  obtain ⟨init, x, rfl⟩ : ∃ init x, t = init ++ [x] :=
    ⟨t.dropLast, t.getLast ht, (List.dropLast_append_getLast ht).symm⟩
  have hlast : (init ++ [x]).getLast?.toList = [x] := by simp
  rw [hlast]
  unfold FSM.savePrev
  simp only [hp, List.length_append, List.length_singleton]
  by_cases hi : init.length + 1 > 1
  · simp only [hi, if_true]
    have hd : List.drop (init.length + 1 - 1) (init ++ [x]) = [x] := by
      simp
    simp [hd, copyInto]
  · have h0 : init = [] := by
      apply List.eq_nil_of_length_eq_zero
      omega
    subst h0
    simp only [hi, if_false]
    by_cases hL : fsm.prevSrcL > 0
    · simp [hL, copyInto, slice]
    · have : fsm.prevSrcL = 0 := by omega
      simp [this, copyInto, hp]

theorem compact_tail (m : FSM) (hlen : m.prevSrc.length = 1) (hb : m.Bounds)
    (hpos : 0 < m.src0) :
    m.compact.prevSrcL = 1 ∧ m.compact.prevSrc = (m.src.take m.src0).getLast?.toList ∧
    m.compact.prevEscs = (escapesCount (m.src.take m.src0) : Int) := by
  have ht : m.src.take m.src0 ≠ [] := by
    intro h
    have := congrArg List.length h
    have h1 := hb.1
    have h2 := hb.2
    simp only [List.length_take, List.length_nil] at this
    omega
  unfold FSM.compact
  simp only [hpos, gt_iff_lt, if_true]
  have h := savePrev_last { m with prevEscs := (escapesCount (m.src.take m.src0) : Int) }
    (m.src.take m.src0) hlen ht
  refine ⟨h.1, h.2, ?_⟩
  rw [savePrev_eq]

theorem select_bound (fsm : FSM) (i : Int) (ns : NextState) (hsel : fsm.select = (i, ns))
    (hi : 0 ≤ i) : i.toNat + ns.Switch.Trigger.length ≤ fsm.window.length := by
  rcases select_cases fsm with ⟨hneg, _⟩ | ⟨i', ns', hsel', _, _, _, _, hb⟩
  · rw [hsel] at hneg
    simp only at hneg
    omega
  · rw [hsel] at hsel'
    have h1 : i = (i' : Int) := congrArg Prod.fst hsel'
    have h2 : ns = ns' := congrArg Prod.snd hsel'
    subst h2
    rw [h1, Int.toNat_natCast]
    exact hb

theorem matchPhase_src0 (fsm : FSM) (hb : fsm.Bounds) :
    (fsm.matchPhase (fsm.states fsm.curState)).fsm.src0 ≤ fsm.src1 := by
  have hwl : fsm.window.length = fsm.src1 - fsm.src0 := slice_length _ _ _ hb.2
  have hsl : ∀ k, fsm.src0 + k ≤ fsm.src1 →
      (slice fsm.src fsm.src0 (fsm.src0 + k)).length = k := by
    intro k hk
    rw [slice_length _ _ _ (by have := hb.2; omega)]
    omega
  have h0 := hb.1
  unfold FSM.matchPhase
  rw [prepPrevSrc_eq]
  simp only [writeOutBuf_eq]
  cases hidx : (fsm.states fsm.curState).index (slice fsm.src fsm.src0 fsm.src1) fsm.tailBytes
    fsm.prevEscs fsm.isEOF with
  | mk i ns =>
    simp only
    by_cases hi : i ≥ 0
    · have hbd := select_bound fsm i ns hidx hi
      rw [hwl] at hbd
      have hk := hsl i.toNat (by omega)
      simp only [hi, if_true]
      cases hh : ns.DataHandler with
      | none =>
        simp only
        split_ifs <;> simp only [Outcome.fsm, FSM.stateSwitch, hk] <;> omega
      | some h =>
        simp only
        split <;> split_ifs <;> simp only [Outcome.fsm, FSM.stateSwitch, hk] <;> omega
    · simp only [hi, if_false]
      simp only [FSM.window] at hwl
      split_ifs with hc hs
      all_goals simp only [Outcome.fsm]
      all_goals first
        | (rw [hsl _ (by omega)]; omega)
        | omega

/-! ## One pass through the loop, for any reader -/

theorem pull_any (f : FSM) (htop : f.LoopTop) : PullAny f.view f.pull := by
  have hwl := window_length f htop
  have hplen : f.view.cap - f.view.win.length = f.src.length - f.src1 := by
    simp only [FSM.view, hwl]
  have hlen := Read_length f.r (f.src.length - f.src1)
  cases hr : Reader.Read f.r (f.src.length - f.src1) with
  | mk bs rest =>
    cases rest with
    | mk err r' =>
      rw [hr] at hlen
      simp only at hlen
      refine ⟨bs, err, r', ?_, ?_, ?_⟩
      · rw [hplen]; exact hr
      · rw [hplen]; exact hlen
      · cases err with
        | none =>
          left
          exact ⟨rfl, pull_nil f htop bs r' hr⟩
        | some e =>
          by_cases he : e = GoError.EOF
          · subst he
            by_cases hw : f.window = []
            · by_cases hd : f.dst ++ f.deferredBuf = []
              · obtain ⟨hd1, hd2⟩ := List.append_eq_nil.mp hd
                right; right; left
                exact ⟨rfl, hw, hd1, hd2, pull_eof_done f htop bs r' hr hw hd1 hd2⟩
              · right; right; right; left
                exact ⟨rfl, hw, hd, pull_eof_flush f htop bs r' hr hw hd⟩
            · right; right; right; right
              exact ⟨rfl, hw, pull_eof_more f htop bs r' hr hw⟩
          · right; left
            exact ⟨e, rfl, he, pull_err f htop bs e r' hr he⟩

theorem pull_any_after (m : FSM) (hb : m.Bounds) : PullAny m.view m.compact.pull := by
  obtain ⟨htop, hv⟩ := compact_view m hb
  have := pull_any m.compact htop
  rw [hv] at this
  exact this

theorem iter_any (fsm : FSM) (d : Nat) (htop : fsm.LoopTop) :
    IterAny fsm.view d (fsm.iter d) := by
  have hwl := window_length fsm htop
  have h0 : fsm.src0 = 0 := htop.1
  have hpos : fsm.view.pos = fsm.ghostPos := by simp only [FSM.view, h0]; omega
  by_cases hdst : fsm.dst = []
  · by_cases hw : fsm.src1 - fsm.src0 > 0
    · have hwne : fsm.view.win ≠ [] := by
        intro h
        have := congrArg List.length h
        simp only [FSM.view, hwl, List.length_nil] at this
        omega
      rcases select_cases fsm with ⟨hneg, hall⟩ | ⟨i, ns, hsel, hmem, hidx, hle, hocc, hb⟩
      · obtain ⟨m, hm, hmb, hmv⟩ := matchPhase_miss fsm htop (by omega)
        right; left
        refine ⟨hdst, m.view, ?_, ?_⟩
        · right; right; right
          refine ⟨hwne, ⟨fsm.tailBytes, fsm.prevEscs, hall⟩, ?_⟩
          rw [hmv]
          simp only [View.afterMiss, hpos]
          rfl
        · rw [iter_of_again fsm m d hdst hw hm]
          exact pull_any_after m hmb
      · have hhit := hit_of_select fsm i ns hsel hmem hidx hocc hb
        cases hh : ns.DataHandler with
        | none =>
          obtain ⟨m, hm, hmb, hmv⟩ := matchPhase_hit_none fsm i ns htop hsel hb hh
          right; left
          refine ⟨hdst, m.view, ?_, ?_⟩
          · right; left
            refine ⟨i, ns, hwne, hhit, hh, ?_⟩
            rw [hmv]
            simp only [View.afterPass, hpos]
            rfl
          · rw [iter_of_again fsm m d hdst hw hm]
            exact pull_any_after m hmb
        | some h =>
          have hH := hasHandler_of_mem fsm ns h hmem hh
          cases hres : h fsm.userCtx (fsm.deferredBuf ++ fsm.window.take i) ns.Switch.Trigger with
          | mk dd err =>
            cases err with
            | none =>
              obtain ⟨m, hm, hmb, hmv⟩ := matchPhase_hit_ok fsm i ns h dd htop hsel hb hh hH hres
              right; left
              refine ⟨hdst, m.view, ?_, ?_⟩
              · right; right; left
                refine ⟨i, ns, h, dd, hwne, hhit, hh, hres, ?_⟩
                rw [hmv]
                simp only [View.afterHandler, hpos]
                rfl
              · rw [iter_of_again fsm m d hdst hw hm]
                exact pull_any_after m hmb
            | some e =>
              obtain ⟨m, hm, hmb, hmv⟩ :=
                matchPhase_hit_err fsm i ns h dd e htop hsel hb hh hH hres
              right; right
              refine ⟨hdst, e, m.view, m, ⟨i, ns, h, dd, hwne, hhit, hh, hres, ?_⟩, ?_, rfl⟩
              · rw [hmv]
                simp only [View.afterFailure, hpos]
                rfl
              · exact iter_of_ret fsm m d _ _ hdst hw hm
    · have hwe : fsm.view.win = [] := by
        apply List.eq_nil_of_length_eq_zero
        simp only [FSM.view, hwl]
        omega
      right; left
      refine ⟨hdst, fsm.view, Or.inl ⟨hwe, rfl⟩, ?_⟩
      rw [iter_of_empty fsm d hdst hw]
      exact pull_any_after fsm ⟨by omega, htop.2⟩
  · left
    refine ⟨hdst, _, iter_drain fsm d hdst, htop, rfl⟩

/-! ## Errors of the source -/

theorem pull_source_error (f : FSM) (bs : List Byte) (e : GoError) (r' : Reader)
    (hr : Reader.Read f.r (f.src.length - f.src1) = (bs, some e, r')) (he : e ≠ GoError.EOF) :
    f.pull = .ret [] (some e) { f with r := r', src := (copyInto f.src f.src1 bs).1 } := by
  unfold FSM.pull
  simp only [hr]

/-- C11. Source errors are propagated verbatim: in a call of the engine loop
that started at `fsm0` and has come, after `k` passes that did not return, to
the top of the loop at `fsm` with the output buffer drained, when lines 104-168
leave the engine `m` without returning and the source's `Read` of line 206
returns `bs` together with an error `e` other than `io.EOF`, the call returns
0 bytes and that same error `e`, unwrapped, in this pass: the engine it leaves
is `m` after compaction with nothing changed but the reader and the free part
of the read buffer, so no match is recorded, no handler called, no byte routed
and no state switched after the read. -/
theorem FSM.read_source_error (fsm0 fsm m : FSM) (d k fuel : Nat) (bs : List Byte)
    (e : GoError) (r' : Reader)
    (hloop : FSM.loops d k fsm0 = some fsm) (hdst : fsm.dst = [])
    (hm : (if fsm.src1 - fsm.src0 > 0 then fsm.matchPhase (fsm.states fsm.curState)
      else .again fsm) = .again m)
    (hread : Reader.Read m.compact.r (m.compact.src.length - m.compact.src1)
      = (bs, some e, r'))
    (he : e ≠ GoError.EOF) :
    ∃ f, fsm0.read d (k + (fuel + 1)) = some ([], some e, f) ∧
      f = { m.compact with r := r', src := (copyInto m.compact.src m.compact.src1 bs).1 } ∧
      f.ghostLog = m.ghostLog ∧ f.curState = m.curState ∧ f.dst = m.dst ∧
      f.deferredBuf = m.deferredBuf ∧ f.src0 = m.compact.src0 ∧ f.src1 = m.compact.src1 := by
  have hiter : fsm.iter d = m.compact.pull := by
    unfold FSM.iter
    have : ¬ fsm.dst.length > 0 := by simp [hdst]
    simp only [this, if_false, hm]
  have hc := compact_frame m
  refine ⟨_, ?_, rfl, hc.2.2.2.2.2.2.2.1, hc.1, hc.2.2.2.2.1, hc.2.2.2.1, rfl, rfl⟩
  rw [read_loops d k fsm0 fsm (fuel + 1) hloop]
  simp only [FSM.read, hiter, pull_source_error m.compact bs e r' hread he]

theorem FSM.read_source_error_witness :
    FSM.loops 8 0 brokenSource = some brokenSource ∧ brokenSource.dst = [] ∧
    (if brokenSource.src1 - brokenSource.src0 > 0
      then brokenSource.matchPhase (brokenSource.states brokenSource.curState)
      else Outcome.again brokenSource) = Outcome.again brokenSource ∧
    Reader.Read brokenSource.compact.r
        (brokenSource.compact.src.length - brokenSource.compact.src1)
      = ([99, 100], some (GoError.other 7), []) ∧
    GoError.other 7 ≠ GoError.EOF ∧
    ∃ f, brokenSource.read 8 (0 + (0 + 1)) = some ([], some (GoError.other 7), f) ∧
      f = { brokenSource.compact with
            r := [], src := (copyInto brokenSource.compact.src brokenSource.compact.src1
              [99, 100]).1 } ∧
      f.ghostLog = brokenSource.ghostLog ∧ f.curState = brokenSource.curState ∧
      f.dst = brokenSource.dst ∧ f.deferredBuf = brokenSource.deferredBuf ∧
      f.src0 = brokenSource.compact.src0 ∧ f.src1 = brokenSource.compact.src1 :=
  ⟨rfl, rfl, rfl, by decide!, by decide,
    FSM.read_source_error brokenSource brokenSource brokenSource 8 0 0 [99, 100]
      (GoError.other 7) [] rfl rfl rfl (by decide!) (by decide)⟩

/-! ## The window offsets stay in range -/

theorem init_inRange (r : Reader) (desc : Description) : (Init r desc).InRange :=
  ⟨Nat.le_refl 0, Nat.zero_le _, List.length_replicate _ _⟩

theorem inRange_bounds {fsm : FSM} (h : fsm.InRange) : fsm.Bounds :=
  ⟨h.1, by rw [h.2.2]; exact h.2.1⟩

theorem matchPhase_inRange (fsm : FSM) (h : fsm.InRange) :
    (fsm.matchPhase (fsm.states fsm.curState)).fsm.InRange := by
  have hf := matchPhase_frame fsm (fsm.states fsm.curState)
  have hs := matchPhase_src0 fsm (inRange_bounds h)
  refine ⟨?_, ?_, ?_⟩
  · rw [hf.2.1]; exact hs
  · rw [hf.2.1]; exact h.2.1
  · rw [hf.1]; exact h.2.2

theorem compact_inRange (fsm : FSM) (h : fsm.InRange) :
    fsm.compact.InRange ∧ fsm.compact.src0 = 0 := by
  obtain ⟨h0, h1, _, _⟩ := compact_offsets fsm (inRange_bounds h)
  have hl := (compact_frame fsm).2.2.2.2.2.2.2.2
  have := h.2.1
  refine ⟨⟨?_, ?_, ?_⟩, h0⟩
  · rw [h0]; exact Nat.zero_le _
  · rw [h1]; omega
  · rw [hl]; exact h.2.2

theorem pull_inRange (fsm : FSM) (h : fsm.InRange) : fsm.pull.fsm.InRange := by
  have hf := pull_frame fsm
  obtain ⟨_, _, _, _, _, _, _, _, h9, h10, h11, h12⟩ := hf
  have hb := inRange_bounds h
  refine ⟨?_, ?_, ?_⟩
  · rw [h9]; exact Nat.le_trans h.1 h11
  · have := h12 hb.2
    rw [h.2.2] at this
    exact this
  · rw [h10]; exact h.2.2

theorem iter_inRange (fsm : FSM) (d : Nat) (h : fsm.InRange) : (fsm.iter d).fsm.InRange := by
  unfold FSM.iter
  simp only
  by_cases hd : fsm.dst.length > 0
  · simp only [hd, if_true, Outcome.fsm]
    exact h
  · simp only [hd, if_false]
    have hmid : (if fsm.src1 - fsm.src0 > 0 then fsm.matchPhase (fsm.states fsm.curState)
        else Outcome.again fsm).fsm.InRange := by
      split
      · exact matchPhase_inRange fsm h
      · exact h
    cases hm : (if fsm.src1 - fsm.src0 > 0 then fsm.matchPhase (fsm.states fsm.curState)
        else Outcome.again fsm) with
    | ret p e f =>
      rw [hm] at hmid
      exact hmid
    | again f =>
      rw [hm] at hmid
      exact pull_inRange _ (compact_inRange f hmid).1

theorem steps_inRange (d : Nat) : ∀ (n : Nat) (fsm : FSM), fsm.InRange →
    (FSM.steps d n fsm).InRange := by
  intro n
  induction n with
  | zero => intro fsm h; exact h
  | succ n ih =>
    intro fsm h
    exact ih _ (iter_inRange fsm d h)

/-- C13. Window bounds invariant, for every state table and every source. A
fresh engine has `0 ≤ src0 ≤ src1 ≤ 4096` on a read buffer of 4096 bytes, and
the match or no-match step of lines 104-168, the compaction (which also leaves
`src0 = 0`), the source read and so every pass through the loop body keep it;
hence it holds after any number of passes of any session. Every offset
`i ≥ 0` that `State.index` returns on the window comes with a transition whose
trigger ends inside the window: `i + len(trigger) ≤ src1 - src0`. -/
theorem FSM.window_bounds :
    (∀ (r : Reader) (desc : Description), (Init r desc).InRange) ∧
    (∀ fsm : FSM, fsm.InRange → (fsm.matchPhase (fsm.states fsm.curState)).fsm.InRange) ∧
    (∀ fsm : FSM, fsm.InRange → fsm.compact.InRange ∧ fsm.compact.src0 = 0) ∧
    (∀ fsm : FSM, fsm.InRange → fsm.pull.fsm.InRange) ∧
    (∀ (fsm : FSM) (d : Nat), fsm.InRange → (fsm.iter d).fsm.InRange) ∧
    (∀ (r : Reader) (desc : Description) (d n : Nat),
      (FSM.steps d n (Init r desc)).InRange) ∧
    (∀ (fsm : FSM) (i : Int) (ns : NextState), fsm.InRange →
      (fsm.states fsm.curState).index (slice fsm.src fsm.src0 fsm.src1)
        (fsm.prevSrc.take fsm.prevSrcL ++ fsm.src.take fsm.src0) fsm.prevEscs fsm.isEOF
        = (i, ns) →
      i = -1 ∨ (0 ≤ i ∧ i + (ns.Switch.Trigger.length : Int) ≤ (fsm.src1 : Int) - fsm.src0)) :=
  ⟨init_inRange, matchPhase_inRange, compact_inRange, pull_inRange, iter_inRange,
    fun r desc d n => steps_inRange d n _ (init_inRange r desc), by
      intro fsm i ns h hsel
      have hsel' : fsm.select = (i, ns) := hsel
      have hwl : fsm.window.length = fsm.src1 - fsm.src0 :=
        slice_length _ _ _ (inRange_bounds h).2
      have h0 := h.1
      rcases select_cases fsm with ⟨hneg, _⟩ | ⟨i', ns', hs, _, _, _, _, hb⟩
      · left
        rw [hsel'] at hneg
        exact hneg
      · right
        rw [hsel'] at hs
        have h1 : i = (i' : Int) := congrArg Prod.fst hs
        have h2 : ns = ns' := congrArg Prod.snd hs
        subst h2
        rw [hwl] at hb
        omega⟩

theorem FSM.window_bounds_witness :
    (FSM.steps 8 3 (Init (chunked [[97, 98, 99]])
      (selfLoopTable [36, 36] (some DataHandlerGenericVoid)))).InRange :=
  FSM.window_bounds.2.2.2.2.2.1 (chunked [[97, 98, 99]])
    (selfLoopTable [36, 36] (some DataHandlerGenericVoid)) 8 3

/-! ## The deferred buffer -/

theorem top_invariant (P : FSM → Prop) (d : Nat)
    (hstep : ∀ fsm f, P fsm → (fsm.iter d = .again f ∨ ∃ p, fsm.iter d = .ret p none f) → P f) :
    ∀ (n : Nat) (fsm f : FSM), P fsm → FSM.top d n fsm = some f → P f := by
  intro n
  induction n with
  | zero =>
    intro fsm f hP h
    simp only [FSM.top, Option.some.injEq] at h
    rw [← h]; exact hP
  | succ n ih =>
    intro fsm f hP h
    simp only [FSM.top] at h
    cases hi : fsm.iter d with
    | again g =>
      rw [hi] at h
      exact ih g f (hstep fsm g hP (Or.inl hi)) h
    | ret p e g =>
      rw [hi] at h
      cases e with
      | none => exact ih g f (hstep fsm g hP (Or.inr ⟨p, hi⟩)) h
      | some e => cases h

theorem top_after (d : Nat) : ∀ (n : Nat) (fsm : FSM),
    (FSM.top d n fsm).isSome = true → FSM.top d n fsm = some (FSM.after d n fsm) := by
  intro n
  induction n with
  | zero => intro fsm _; rfl
  | succ n ih =>
    intro fsm h
    simp only [FSM.top, FSM.after] at h ⊢
    cases hi : fsm.iter d with
    | again g =>
      rw [hi] at h
      exact ih g h
    | ret p e g =>
      rw [hi] at h
      cases e with
      | none => exact ih g h
      | some e => cases h

theorem matchDesc_deferredOk {v mv : View} (h : MatchDesc v mv) (hv : v.DeferredOk) :
    mv.DeferredOk := by
  rcases h with ⟨_, rfl⟩ | ⟨i, ns, _, _, _, rfl⟩ | ⟨i, ns, h, d, _, _, _, _, rfl⟩ | ⟨_, _, rfl⟩
  · exact hv
  · intro hne; exact absurd rfl hne
  · intro hne; exact absurd rfl hne
  · intro hne
    by_cases hh : v.hasHandler = true
    · exact hh
    · simp only [View.afterMiss, if_neg hh] at hne
      exact absurd (hv hne) hh

theorem pullAny_deferredOk {mv : View} {out : Outcome} (h : PullAny mv out)
    (hm : mv.DeferredOk) : out.fsm.LoopTop ∧ out.fsm.view.DeferredOk := by
  obtain ⟨bs, err, r', _, _, hc⟩ := h
  rcases hc with ⟨_, f, rfl, htop, hv⟩ | ⟨e, _, _, f, rfl, htop, hv⟩ |
    ⟨_, _, _, _, f, rfl, htop, hv⟩ | ⟨_, _, _, f, rfl, htop, hv⟩ | ⟨_, _, f, rfl, htop, hv⟩
  · exact ⟨htop, by simp only [Outcome.fsm, hv]; exact hm⟩
  · exact ⟨htop, by simp only [Outcome.fsm, hv]; exact hm⟩
  · exact ⟨htop, by simp only [Outcome.fsm, hv]; exact hm⟩
  · exact ⟨htop, by simp only [Outcome.fsm, hv]; intro hne; exact absurd rfl hne⟩
  · exact ⟨htop, by simp only [Outcome.fsm, hv]; exact hm⟩

theorem iter_deferredOk (fsm f : FSM) (d : Nat)
    (hP : fsm.LoopTop ∧ fsm.view.DeferredOk)
    (hout : fsm.iter d = .again f ∨ ∃ p, fsm.iter d = .ret p none f) :
    f.LoopTop ∧ f.view.DeferredOk := by
  have hf : f = (fsm.iter d).fsm := by
    rcases hout with h | ⟨p, h⟩ <;> rw [h] <;> rfl
  rcases iter_any fsm d hP.1 with ⟨_, g, hg, htop, hv⟩ | ⟨_, mv, hm, hp⟩ |
    ⟨_, e, mv, g, _, hg, _⟩
  · rw [hf, hg]
    exact ⟨htop, by simp only [Outcome.fsm, hv]; exact hP.2⟩
  · rw [hf]
    exact pullAny_deferredOk hp (matchDesc_deferredOk hm hP.2)
  · rcases hout with h | ⟨p, h⟩ <;> rw [h] at hg <;> cases hg

theorem top_deferredOk (r : Reader) (desc : Description) (d n : Nat) (f : FSM)
    (h : FSM.top d n (Init r desc) = some f) : f.LoopTop ∧ f.view.DeferredOk :=
  top_invariant (fun g => g.LoopTop ∧ g.view.DeferredOk) d
    (fun fsm g hP hout => iter_deferredOk fsm g d hP hout) n (Init r desc) f
    ⟨Init_loopTop r desc, fun hne => absurd rfl hne⟩ h

theorem switch_clears_deferred (fsm m : FSM) (htop : fsm.LoopTop) (hsel : 0 ≤ fsm.select.1)
    (hm : fsm.matchPhase (fsm.states fsm.curState) = .again m) :
    m.curState = fsm.select.2.Name ∧ m.deferredBuf = [] := by
  rcases select_cases fsm with ⟨hneg, _⟩ | ⟨i, ns, hs, hmem, _, _, _, hb⟩
  · omega
  · rw [hs]
    cases hh : ns.DataHandler with
    | none =>
      obtain ⟨m', hm', _, hmv⟩ := matchPhase_hit_none fsm i ns htop hs hb hh
      rw [hm] at hm'
      cases hm'
      have h1 : m.view.curState = ns.Name := by rw [hmv]
      have h2 : m.view.deferredBuf = [] := by rw [hmv]
      exact ⟨h1, h2⟩
    | some h =>
      have hH := hasHandler_of_mem fsm ns h hmem hh
      cases hres : h fsm.userCtx (fsm.deferredBuf ++ fsm.window.take i) ns.Switch.Trigger with
      | mk dd err =>
        cases err with
        | none =>
          obtain ⟨m', hm', _, hmv⟩ := matchPhase_hit_ok fsm i ns h dd htop hs hb hh hH hres
          rw [hm] at hm'
          cases hm'
          have h1 : m.view.curState = ns.Name := by rw [hmv]
          have h2 : m.view.deferredBuf = [] := by rw [hmv]
          exact ⟨h1, h2⟩
        | some e =>
          obtain ⟨m', hm', _, _⟩ := matchPhase_hit_err fsm i ns h dd e htop hs hb hh hH hres
          rw [hm] at hm'
          cases hm'

theorem matchPhase_consumed (fsm m : FSM) (o : Outcome)
    (ho : fsm.matchPhase (fsm.states fsm.curState) = o) (hm : o.fsm = m) (k : Nat)
    (hpos : m.view.pos = fsm.ghostPos + k) : m.ghostPos = fsm.ghostPos ∧ m.src0 = k := by
  have hf := (matchPhase_frame fsm (fsm.states fsm.curState)).2.2.2.2.1
  rw [ho, hm] at hf
  simp only [FSM.view, hf] at hpos
  omega

theorem take_through_trigger {t w : List Byte} {i : Nat} (h : OccursAt t w i) :
    w.take (i + t.length) = w.take i ++ t := by
  have hp := List.prefix_iff_eq_take.mp ((occursAt_iff_starts _ _ _).mp h)
  rw [List.take_add, ← hp]

theorem literal_to_output (fsm m : FSM) (htop : fsm.LoopTop)
    (hH : fsm.hasHandler = false) (hdef : fsm.deferredBuf = [])
    (hm : fsm.matchPhase (fsm.states fsm.curState) = .again m) :
    m.deferredBuf = [] ∧ m.dst = fsm.dst ++ fsm.window.take m.src0 := by
  have hne : ¬ fsm.hasHandler = true := by rw [hH]; simp
  rcases select_cases fsm with ⟨hneg, _⟩ | ⟨i, ns, hs, hmem, _, _, hocc, hb⟩
  · obtain ⟨m', hm', _, hmv⟩ := matchPhase_miss fsm htop (by omega)
    rw [hm] at hm'
    cases hm'
    have hp : m.view.pos = fsm.ghostPos + fsm.skipLen := by rw [hmv]
    have hk := (matchPhase_consumed fsm m _ hm rfl _ hp).2
    have h1 : m.view.deferredBuf = fsm.deferredBuf := by rw [hmv]; simp only [if_neg hne]
    have h2 : m.view.dst = fsm.dst ++ fsm.window.take fsm.skipLen := by
      rw [hmv]; simp only [if_neg hne]
    rw [hk]
    exact ⟨h1.trans hdef, h2⟩
  · cases hh : ns.DataHandler with
    | none =>
      obtain ⟨m', hm', _, hmv⟩ := matchPhase_hit_none fsm i ns htop hs hb hh
      rw [hm] at hm'
      cases hm'
      have hp : m.view.pos = fsm.ghostPos + (i + ns.Switch.Trigger.length) := by rw [hmv]
      have hk := (matchPhase_consumed fsm m _ hm rfl _ hp).2
      have h1 : m.view.deferredBuf = [] := by rw [hmv]
      have h2 : m.view.dst = fsm.dst ++ fsm.window.take i ++ fsm.deferredBuf
          ++ ns.Switch.Trigger := by
        rw [hmv]; simp only [if_neg hne]
      refine ⟨h1, ?_⟩
      rw [hk, take_through_trigger hocc]
      have : m.dst = m.view.dst := rfl
      rw [this, h2, hdef]
      simp only [List.append_nil, List.append_assoc]
    | some h =>
      have := hasHandler_of_mem fsm ns h hmem hh
      rw [hH] at this
      cases this

/-- C14. Deferred-buffer invariant. At the top of every loop iteration of a
session, for every table and every source, a non-empty `deferredBuf` comes
with a current state that has at least one transition with a `DataHandler`.
`writeOutBuf`, through which every literal byte goes, appends to the output
buffer when the current state has no such transition, and to the deferred
buffer when it has one; so when the current state has none, lines 104-168
leave `deferredBuf` empty and have appended exactly the bytes they consumed
to the output buffer. When the matcher finds a match and the handler, if any,
does not fail, the state is switched to the target of the transition and
`deferredBuf` is empty. -/
theorem FSM.deferred_invariant :
    (∀ (r : Reader) (desc : Description) (d n : Nat) (f : FSM),
      FSM.top d n (Init r desc) = some f → f.deferredBuf ≠ [] →
      (f.states f.curState).NextStates.any (fun s => s.DataHandler.isSome) = true) ∧
    (∀ (fsm : FSM) (data : List Byte),
      (fsm.states fsm.curState).NextStates.any (fun s => s.DataHandler.isSome) = false →
      fsm.writeOutBuf data = ({ fsm with dst := fsm.dst ++ data }, data.length)) ∧
    (∀ (fsm : FSM) (data : List Byte),
      (fsm.states fsm.curState).NextStates.any (fun s => s.DataHandler.isSome) = true →
      fsm.writeOutBuf data =
        ({ fsm with deferredBuf := fsm.deferredBuf ++ data }, data.length)) ∧
    (∀ (fsm m : FSM), fsm.LoopTop →
      (fsm.states fsm.curState).NextStates.any (fun s => s.DataHandler.isSome) = false →
      fsm.deferredBuf = [] → fsm.matchPhase (fsm.states fsm.curState) = .again m →
      m.deferredBuf = [] ∧ m.dst = fsm.dst ++ (slice fsm.src fsm.src0 fsm.src1).take m.src0) ∧
    (∀ (fsm m : FSM), fsm.LoopTop → 0 ≤ fsm.select.1 →
      fsm.matchPhase (fsm.states fsm.curState) = .again m →
      m.curState = fsm.select.2.Name ∧ m.deferredBuf = []) := by
  refine ⟨?_, ?_, ?_, literal_to_output, switch_clears_deferred⟩
  · intro r desc d n f h hne
    exact (top_deferredOk r desc d n f h).2 hne
  · intro fsm data h
    rw [writeOutBuf_eq]
    simp only [FSM.hasHandler, h, Bool.false_eq_true, if_false]
  · intro fsm data h
    rw [writeOutBuf_eq]
    simp only [FSM.hasHandler, h, if_true]

theorem FSM.deferred_invariant_witness :
    FSM.top 8 2 (Init (chunked [[97, 98, 99]])
        (selfLoopTable [36, 36] (some DataHandlerGenericVoid)))
      = some (FSM.after 8 2 (Init (chunked [[97, 98, 99]])
        (selfLoopTable [36, 36] (some DataHandlerGenericVoid)))) ∧
    (FSM.after 8 2 (Init (chunked [[97, 98, 99]])
      (selfLoopTable [36, 36] (some DataHandlerGenericVoid)))).deferredBuf = [97, 98] ∧
    (((FSM.after 8 2 (Init (chunked [[97, 98, 99]])
        (selfLoopTable [36, 36] (some DataHandlerGenericVoid)))).states
      (FSM.after 8 2 (Init (chunked [[97, 98, 99]])
        (selfLoopTable [36, 36] (some DataHandlerGenericVoid)))).curState).NextStates.any
      (fun s => s.DataHandler.isSome)) = true :=
  ⟨top_after 8 2 _ (by decide!), by decide!,
    FSM.deferred_invariant.1 (chunked [[97, 98, 99]])
      (selfLoopTable [36, 36] (some DataHandlerGenericVoid)) 8 2 _
      (top_after 8 2 _ (by decide!)) (by decide!)⟩

/-! ## The carried tail byte -/

theorem Read_pending (r : Reader) (plen : Nat) :
    Reader.pending r = (Reader.Read r plen).1 ++ Reader.pending (Reader.Read r plen).2.2 := by
  unfold Reader.Read
  split
  · rfl
  · split
    · rfl
    · simp only [Reader.pending]
      rw [← List.append_assoc, List.take_append_drop]
  · split
    · rfl
    · simp only [Reader.pending]
      rw [← List.append_assoc, List.take_append_drop]
  · rfl
  · split
    · rfl
    · simp only [Reader.pending]
      rw [← List.append_assoc, List.take_append_drop]

theorem matchPhase_ret (fsm : FSM) (st : State) (p : List Byte) (e : Option GoError)
    (f : FSM) (h : fsm.matchPhase st = .ret p e f) : e ≠ none := by
  unfold FSM.matchPhase at h
  rw [prepPrevSrc_eq] at h
  simp only [writeOutBuf_eq] at h
  cases hidx : st.index (slice fsm.src fsm.src0 fsm.src1) fsm.tailBytes fsm.prevEscs
    fsm.isEOF with
  | mk i ns =>
    rw [hidx] at h
    simp only at h
    by_cases hi : i ≥ 0
    · simp only [hi, if_true] at h
      cases hh : ns.DataHandler with
      | none =>
        rw [hh] at h
        simp only at h
        cases h
      | some hd =>
        rw [hh] at h
        simp only at h
        split at h
        · cases h
          intro hc
          cases hc
        · cases h
    · simp only [hi, if_false] at h
      split_ifs at h

theorem prepPrevSrc_top (fsm : FSM) (htop : fsm.LoopTop) (hL : fsm.prevSrcL ≤ fsm.prevSrc.length) :
    fsm.prepPrevSrc.1.prevSrc = fsm.prevSrc := by
  unfold FSM.prepPrevSrc
  simp only [htop.1, List.take_zero, List.append_nil, List.length_take]
  have : min fsm.prevSrcL fsm.prevSrc.length = fsm.prevSrcL := Nat.min_eq_left hL
  rw [this]
  simp only [hL, if_true, List.take_append_drop]

theorem tailBytes_top (f : FSM) (htop : f.LoopTop) : f.tailBytes = f.prevSrc.take f.prevSrcL := by
  simp only [FSM.tailBytes, htop.1, List.take_zero, List.append_nil]

theorem mid_tail (fsm m : FSM) (htop : fsm.LoopTop) (hL : fsm.prevSrcL ≤ fsm.prevSrc.length)
    (hm : (if fsm.src1 - fsm.src0 > 0 then fsm.matchPhase (fsm.states fsm.curState)
      else Outcome.again fsm) = .again m) :
    m.src = fsm.src ∧ m.src1 = fsm.src1 ∧ m.prevSrcL = fsm.prevSrcL ∧
    m.ghostPos = fsm.ghostPos ∧ m.r = fsm.r ∧ m.prevSrc = fsm.prevSrc ∧
    m.src0 ≤ fsm.src1 ∧ m.Bounds := by
  by_cases hw : fsm.src1 - fsm.src0 > 0
  · rw [if_pos hw] at hm
    have hf := matchPhase_frame fsm (fsm.states fsm.curState)
    have hs := matchPhase_src0 fsm ⟨by rw [htop.1]; exact Nat.zero_le _, htop.2⟩
    rw [hm] at hf hs
    simp only [Outcome.fsm] at hf hs
    obtain ⟨h1, h2, h3, _, h5, h6, _, _, _, h10, _⟩ := hf
    refine ⟨h1, h2, h3, h5, h6, ?_, hs, ⟨?_, ?_⟩⟩
    · rw [h10, prepPrevSrc_top fsm htop hL]
    · rw [h2]; exact hs
    · rw [h1, h2]; exact htop.2
  · rw [if_neg hw] at hm
    cases hm
    have h0 := htop.1
    exact ⟨rfl, rfl, rfl, rfl, rfl, rfl, by omega, ⟨by omega, htop.2⟩⟩

theorem compact_tailOk (m : FSM) (hb : m.Bounds) (hlen : m.prevSrc.length = 1) :
    m.compact.LoopTop ∧ m.compact.prevSrc.length = 1 ∧ m.compact.window = m.window ∧
    m.compact.r = m.r ∧ m.compact.ghostPos = m.ghostPos + m.src0 ∧
    (m.src0 = 0 → m.compact.prevSrcL = m.prevSrcL ∧ m.compact.prevSrc = m.prevSrc) ∧
    (0 < m.src0 → m.compact.prevSrcL = 1 ∧
      m.compact.prevSrc = (m.src.take m.src0).getLast?.toList) := by
  obtain ⟨htop, _⟩ := compact_view m hb
  obtain ⟨_, _, h3, h4⟩ := compact_offsets m hb
  have hr := (compact_frame m).2.2.2.2.2.2.1
  refine ⟨htop, ?_, h4, hr, h3, ?_, ?_⟩
  · by_cases h0 : m.src0 = 0
    · rw [compact_zero m h0]; exact hlen
    · have ht := compact_tail m hlen hb (by omega)
      rw [ht.2.1]
      have hne : m.src.take m.src0 ≠ [] := by
        intro h
        have := congrArg List.length h
        have h1 := hb.1
        have h2 := hb.2
        simp only [List.length_take, List.length_nil] at this
        omega
      obtain ⟨x, hx⟩ : ∃ x, (m.src.take m.src0).getLast? = some x := by
        cases hg : (m.src.take m.src0).getLast? with
        | none => exact absurd (List.getLast?_eq_none_iff.mp hg) hne
        | some x => exact ⟨x, rfl⟩
      rw [hx]
      rfl
  · intro h0
    rw [compact_zero m h0]
    exact ⟨rfl, rfl⟩
  · intro hpos
    have ht := compact_tail m hlen hb hpos
    exact ⟨ht.1, ht.2.1⟩

theorem pull_stream (g f : FSM) (htop : g.LoopTop)
    (hout : g.pull = .again f ∨ ∃ p, g.pull = .ret p none f) :
    f.LoopTop ∧ f.window ++ Reader.pending f.r = g.window ++ Reader.pending g.r ∧
    f.prevSrc = g.prevSrc ∧ f.prevSrcL = g.prevSrcL ∧ f.ghostPos = g.ghostPos := by
  have hf : f = g.pull.fsm := by
    rcases hout with h | ⟨p, h⟩ <;> rw [h] <;> rfl
  have hfr := pull_frame g
  rw [← hf] at hfr
  obtain ⟨bs, err, r', hread, _, hc⟩ := pull_any g htop
  have hpend := Read_pending g.view.r (g.view.cap - g.view.win.length)
  rw [hread] at hpend
  simp only at hpend
  have key : ∀ h : FSM, g.pull = .again h → h = f := by
    intro h hh
    rw [hf, hh]
    rfl
  have hgw : g.view.win = g.window := rfl
  have hgr : g.view.r = g.r := rfl
  rw [hgr] at hpend
  refine ⟨?_, ?_, hfr.1, hfr.2.1, hfr.2.2.2.1⟩
  · rcases hc with ⟨_, h, hh, ht, _⟩ | ⟨e, _, _, h, hh, _, _⟩ |
      ⟨_, _, _, _, h, hh, _, _⟩ | ⟨_, _, _, h, hh, ht, _⟩ | ⟨_, _, h, hh, ht, _⟩
    · rw [← key h hh]; exact ht
    · rcases hout with ho | ⟨p, ho⟩ <;> rw [ho] at hh <;> cases hh
    · rcases hout with ho | ⟨p, ho⟩ <;> rw [ho] at hh <;> cases hh
    · rw [← key h hh]; exact ht
    · rw [← key h hh]; exact ht
  · rcases hc with ⟨_, h, hh, _, hv⟩ | ⟨e, _, _, h, hh, _, _⟩ |
      ⟨_, _, _, _, h, hh, _, _⟩ | ⟨_, hw, _, h, hh, _, hv⟩ | ⟨_, _, h, hh, _, hv⟩
    · have e := key h hh
      subst e
      have h1 : h.view.win = g.window ++ bs := by rw [hv]; rfl
      have h2 : h.view.r = r' := by rw [hv]
      have h3 : h.window = h.view.win := rfl
      have h4 : h.r = h.view.r := rfl
      rw [h3, h4, h1, h2, hpend, List.append_assoc]
    · rcases hout with ho | ⟨p, ho⟩ <;> rw [ho] at hh <;> cases hh
    · rcases hout with ho | ⟨p, ho⟩ <;> rw [ho] at hh <;> cases hh
    · have e := key h hh
      subst e
      have h1 : h.view.win = bs := by rw [hv]
      have h2 : h.view.r = r' := by rw [hv]
      have h3 : h.window = h.view.win := rfl
      have h4 : h.r = h.view.r := rfl
      rw [hgw] at hw
      rw [h3, h4, h1, h2, hpend, hw, List.nil_append]
    · have e := key h hh
      subst e
      have h1 : h.view.win = g.window ++ bs := by rw [hv]; rfl
      have h2 : h.view.r = r' := by rw [hv]
      have h3 : h.window = h.view.win := rfl
      have h4 : h.r = h.view.r := rfl
      rw [h3, h4, h1, h2, hpend, List.append_assoc]

theorem iter_tailOk (total : List Byte) (fsm f : FSM) (d : Nat) (hP : fsm.TailOk total)
    (hout : fsm.iter d = .again f ∨ ∃ p, fsm.iter d = .ret p none f) : f.TailOk total := by
  obtain ⟨htop, hlen, hL, hiff, seen, htot, hsl, htail⟩ := hP
  by_cases hd : fsm.dst = []
  · have hnd : ¬ fsm.dst.length > 0 := by simp [hd]
    cases hmid : (if fsm.src1 - fsm.src0 > 0 then fsm.matchPhase (fsm.states fsm.curState)
        else Outcome.again fsm) with
    | ret p e g =>
      have hiter : fsm.iter d = .ret p e g := by
        unfold FSM.iter
        simp only [hnd, if_false, hmid]
      have he : e ≠ none := by
        by_cases hw : fsm.src1 - fsm.src0 > 0
        · rw [if_pos hw] at hmid
          exact matchPhase_ret _ _ _ _ _ hmid
        · rw [if_neg hw] at hmid
          cases hmid
      rcases hout with h | ⟨q, h⟩
      · rw [hiter] at h
        cases h
      · rw [hiter] at h
        cases h
        exact absurd rfl he
    | again m =>
      have hiter : fsm.iter d = m.compact.pull := by
        unfold FSM.iter
        simp only [hnd, if_false, hmid]
      have hL' : fsm.prevSrcL ≤ fsm.prevSrc.length := by rcases hL with h | h <;> omega
      obtain ⟨m1, m2, m3, m4, m5, m6, m7, mb⟩ := mid_tail fsm m htop hL' hmid
      obtain ⟨c1, c2, c3, c4, c5, c6, c7⟩ := compact_tailOk m mb (by rw [m6]; exact hlen)
      rw [hiter] at hout
      obtain ⟨p1, p2, p3, p4, p5⟩ := pull_stream m.compact f c1 hout
      have hwl := window_length fsm htop
      have hmw : m.window = fsm.window.drop m.src0 := by
        simp only [FSM.window, m1, m2, htop.1, slice, List.drop_zero]
      have hsrc : m.src.take m.src0 = fsm.window.take m.src0 := by
        simp only [FSM.window, slice, htop.1, List.drop_zero, m1]
        rw [List.take_take, Nat.min_eq_left m7]
      have htf : f.tailBytes = f.prevSrc.take f.prevSrcL := tailBytes_top f p1
      have htf0 : fsm.tailBytes = fsm.prevSrc.take fsm.prevSrcL := tailBytes_top fsm htop
      refine ⟨p1, by rw [p3]; exact c2, ?_, ?_, seen ++ fsm.window.take m.src0, ?_, ?_, ?_⟩
      · rw [p4]
        by_cases hk : m.src0 = 0
        · rw [(c6 hk).1, m3]; exact hL
        · right; exact (c7 (by omega)).1
      · rw [p4, p5, c5, m4]
        by_cases hk : m.src0 = 0
        · rw [(c6 hk).1, m3, hk, Nat.add_zero]; exact hiff
        · rw [(c7 (by omega)).1]
          constructor <;> intro h <;> omega
      · rw [p2, c3, c4, hmw, m5, htot]
        conv_lhs => rw [← List.take_append_drop m.src0 fsm.window]
        simp only [List.append_assoc]
      · rw [p5, c5, m4, List.length_append, hsl, List.length_take, hwl, Nat.min_eq_left m7]
      · rw [htf, p3, p4]
        by_cases hk : m.src0 = 0
        · rw [(c6 hk).1, (c6 hk).2, m3, m6, hk, List.take_zero, List.append_nil, ← htf0]
          exact htail
        · have hpos : 0 < m.src0 := by omega
          rw [(c7 hpos).1, (c7 hpos).2, hsrc]
          have hne : fsm.window.take m.src0 ≠ [] := by
            intro h
            have := congrArg List.length h
            simp only [List.length_take, hwl, List.length_nil] at this
            omega
          rw [List.getLast?_append_of_ne_nil _ hne]
          cases (fsm.window.take m.src0).getLast? <;> rfl
  · have hiter := iter_drain fsm d hd
    have hf : f = { fsm with dst := fsm.dst.drop d } := by
      rcases hout with h | ⟨p, h⟩
      · rw [hiter] at h
        cases h
      · rw [hiter] at h
        cases h
        rfl
    rw [hf]
    exact ⟨htop, hlen, hL, hiff, seen, htot, hsl, htail⟩

theorem init_tailOk (r : Reader) (desc : Description) :
    (Init r desc).TailOk (Reader.pending r) := by
  refine ⟨Init_loopTop r desc, rfl, Or.inl rfl, ⟨fun _ => rfl, fun _ => rfl⟩, [], ?_, rfl, ?_⟩
  · simp only [FSM.window, Init, slice, List.take_zero, List.drop_nil, List.nil_append]
  · simp only [FSM.tailBytes, Init, List.take_zero, List.append_nil, List.getLast?_nil,
      Option.toList]

theorem top_tailOk (r : Reader) (desc : Description) (d n : Nat) (f : FSM)
    (h : FSM.top d n (Init r desc) = some f) : f.TailOk (Reader.pending r) :=
  top_invariant (fun g => g.TailOk (Reader.pending r)) d
    (fun fsm g hP hout => iter_tailOk _ fsm g d hP hout) n (Init r desc) f
    (init_tailOk r desc) h

/-- C15. Carried tail byte invariant. A compaction that discards at least one
byte leaves `prevSrcL = 1` and `prevSrc[0]` the last discarded byte
`src[src0-1]`. At the top of every loop iteration of a session, for every
table and every source, `src0 = 0`, `prevSrcL` is 0 or 1, and it is 0 exactly
while no byte has been discarded from the window; the bytes `seen` discarded so
far, the window and what the source still has on offer make up, in this order,
all the bytes the source had on offer, and the tail bytes handed to the
matcher, `prevSrc[:prevSrcL]` with nothing of `src` appended, are the last
byte of `seen`: the stream byte immediately preceding the window, or nothing
at the start of the stream. -/
theorem FSM.tail_byte_invariant :
    (∀ m : FSM, m.src0 ≤ m.src1 → m.src1 ≤ m.src.length → m.prevSrc.length = 1 →
      0 < m.src0 →
      m.compact.prevSrcL = 1 ∧ m.compact.prevSrc[0]? = m.src[m.src0 - 1]? ∧
      m.compact.prevSrc[0]? ≠ none) ∧
    (∀ (r : Reader) (desc : Description) (d n : Nat) (f : FSM),
      FSM.top d n (Init r desc) = some f →
      f.src0 = 0 ∧ (f.prevSrcL = 0 ∨ f.prevSrcL = 1) ∧ (f.prevSrcL = 0 ↔ f.ghostPos = 0) ∧
      ∃ seen, Reader.pending r = seen ++ (slice f.src f.src0 f.src1 ++ Reader.pending f.r) ∧
        seen.length = f.ghostPos ∧
        f.prevSrc.take f.prevSrcL ++ f.src.take f.src0 = seen.getLast?.toList ∧
        f.src.take f.src0 = []) := by
  constructor
  · intro m h1 h2 hlen hpos
    obtain ⟨t1, t2, _⟩ := compact_tail m hlen ⟨h1, h2⟩ hpos
    have hlt : m.src0 - 1 < m.src.length := by omega
    have hlast : (m.src.take m.src0).getLast? = m.src[m.src0 - 1]? := by
      rw [List.getLast?_eq_getElem?, List.length_take, Nat.min_eq_left (by omega),
        List.getElem?_take_of_lt (by omega)]
    rw [t2, hlast, List.getElem?_eq_getElem hlt]
    exact ⟨t1, rfl, by simp⟩
  · intro r desc d n f h
    obtain ⟨htop, _, hL, hiff, seen, htot, hsl, htail⟩ := top_tailOk r desc d n f h
    refine ⟨htop.1, hL, hiff, seen, htot, hsl, htail, ?_⟩
    rw [htop.1, List.take_zero]

theorem FSM.tail_byte_invariant_witness :
    FSM.top 8 2 (Init (chunked [[97, 98, 99]])
        (selfLoopTable [36, 36] (some DataHandlerGenericVoid)))
      = some (FSM.after 8 2 (Init (chunked [[97, 98, 99]])
        (selfLoopTable [36, 36] (some DataHandlerGenericVoid)))) ∧
    (FSM.after 8 2 (Init (chunked [[97, 98, 99]])
      (selfLoopTable [36, 36] (some DataHandlerGenericVoid)))).ghostPos = 2 ∧
    (FSM.after 8 2 (Init (chunked [[97, 98, 99]])
      (selfLoopTable [36, 36] (some DataHandlerGenericVoid)))).tailBytes = [98] ∧
    (FSM.after 8 2 (Init (chunked [[97, 98, 99]])
      (selfLoopTable [36, 36] (some DataHandlerGenericVoid)))).window = [99] ∧
    ((FSM.after 8 2 (Init (chunked [[97, 98, 99]])
        (selfLoopTable [36, 36] (some DataHandlerGenericVoid)))).prevSrcL = 0 ↔
      (FSM.after 8 2 (Init (chunked [[97, 98, 99]])
        (selfLoopTable [36, 36] (some DataHandlerGenericVoid)))).ghostPos = 0) :=
  ⟨top_after 8 2 _ (by decide!), by decide!, by decide!, by decide!,
    (FSM.tail_byte_invariant.2 (chunked [[97, 98, 99]])
      (selfLoopTable [36, 36] (some DataHandlerGenericVoid)) 8 2 _
      (top_after 8 2 _ (by decide!))).2.2.1⟩

/-! ## How much the no-match branch consumes -/

theorem skipMaxLen_step (ll : Nat) (ns : NextState) :
    (let l := ns.Switch.Trigger.length
     let l := if ns.Switch.Delimiters.L.length > 0 then l + 1 else l
     let l := if ns.Switch.Delimiters.R.length > 0 then l + 1 else l
     if l > ll then l else ll) = max ll ns.footprint := by
  simp only [NextState.footprint]
  split_ifs <;> omega

theorem skipMaxLen_eq (s : State) :
    s.skipMaxLen = s.NextStates.foldl (fun ll ns => max ll ns.footprint) 0 := by
  unfold State.skipMaxLen
  congr 1
  funext ll ns
  exact skipMaxLen_step ll ns

theorem foldl_max_footprint (l : List NextState) : ∀ a : Nat,
    a ≤ l.foldl (fun ll ns => max ll ns.footprint) a ∧
    (∀ ns ∈ l, ns.footprint ≤ l.foldl (fun ll ns => max ll ns.footprint) a) ∧
    (l.foldl (fun ll ns => max ll ns.footprint) a = a ∨
      ∃ ns ∈ l, ns.footprint = l.foldl (fun ll ns => max ll ns.footprint) a) := by
  induction l with
  | nil =>
    intro a
    refine ⟨Nat.le_refl a, ?_, Or.inl rfl⟩
    intro ns h
    cases h
  | cons x xs ih =>
    intro a
    rw [List.foldl_cons]
    obtain ⟨h1, h2, h3⟩ := ih (max a x.footprint)
    refine ⟨by omega, ?_, ?_⟩
    · intro ns hns
      rcases List.mem_cons.mp hns with rfl | hmem
      · omega
      · exact h2 ns hmem
    · rcases h3 with h3 | ⟨ns, hmem, hns⟩
      · by_cases hc : x.footprint ≤ a
        · left
          rw [h3]
          omega
        · right
          refine ⟨x, List.mem_cons_self _ _, ?_⟩
          rw [h3]
          omega
      · right
        exact ⟨ns, List.mem_cons_of_mem _ hmem, hns⟩

/-- The value of `skipMaxLen` is the maximum of the footprints of the
transitions, and 0 without transitions. -/
theorem skipMaxLen_max (s : State) :
    (∀ ns ∈ s.NextStates, ns.footprint ≤ s.skipMaxLen) ∧
    (s.NextStates ≠ [] → ∃ ns ∈ s.NextStates, ns.footprint = s.skipMaxLen) ∧
    (s.NextStates = [] → s.skipMaxLen = 0) ∧
    ((∀ ns ∈ s.NextStates, ns.Switch.Trigger ≠ []) → s.NextStates ≠ [] → 0 < s.skipMaxLen) := by
  obtain ⟨_, h2, h3⟩ := foldl_max_footprint s.NextStates 0
  rw [← skipMaxLen_eq] at h2 h3
  have hex : s.NextStates ≠ [] → ∃ ns ∈ s.NextStates, ns.footprint = s.skipMaxLen := by
    intro hne
    rcases h3 with h3 | h3
    · obtain ⟨x, hx⟩ := List.exists_mem_of_ne_nil _ hne
      refine ⟨x, hx, ?_⟩
      have := h2 x hx
      omega
    · exact h3
  refine ⟨h2, hex, ?_, ?_⟩
  · intro h
    rw [skipMaxLen_eq, h]
    rfl
  · intro hT hne
    obtain ⟨x, hx⟩ := List.exists_mem_of_ne_nil _ hne
    have h1 := h2 x hx
    have h4 : 0 < x.Switch.Trigger.length := List.length_pos.mpr (hT x hx)
    have h5 : x.Switch.Trigger.length ≤ x.footprint := by
      simp only [NextState.footprint]
      omega
    omega

/-- C18. No-match consumption amount: at the top of the loop, when
`State.index` finds no match on the window of length `L`, lines 143-167 do
not return; they advance `src0` by `k` bytes, routed through `writeOutBuf`
(appended to the deferred buffer when the current state has a handler-bearing
transition, to the output buffer otherwise), these bytes being the first `k`
of the window, the rest staying in the window. `k = L` when `isEOF` is true or
the state has no transitions (and whenever `skipMaxLen()` is 0); otherwise,
with `m = skipMaxLen() > 0`, `k = max(0, L - (m - 1))` and the last
`min(L, m - 1)` bytes stay. `skipMaxLen()` is the maximum over the state's
transitions of `len(trigger)` plus one for each configured delimiter side; it
is positive for a state that has transitions, the triggers being non-empty as
the data model requires. -/
theorem FSM.no_match_consumption (fsm : FSM) (htop : fsm.LoopTop)
    (hsel : fsm.select.1 < 0) :
    ∃ (m : FSM) (k : Nat), fsm.matchPhase (fsm.states fsm.curState) = .again m ∧
      m.src0 = fsm.src0 + k ∧ m.src1 = fsm.src1 ∧ m.src = fsm.src ∧
      m.curState = fsm.curState ∧
      (fsm.writeOutBuf (fsm.window.take k)).1.deferredBuf = m.deferredBuf ∧
      (fsm.writeOutBuf (fsm.window.take k)).1.dst = m.dst ∧
      m.window = fsm.window.drop k ∧
      (fsm.isEOF = true ∨ (fsm.states fsm.curState).NextStates = [] →
        k = fsm.window.length) ∧
      (fsm.isEOF = false → 0 < (fsm.states fsm.curState).skipMaxLen →
        (k : Int) = max 0 ((fsm.window.length : Int)
          - (((fsm.states fsm.curState).skipMaxLen : Int) - 1)) ∧
        m.window.length = min fsm.window.length ((fsm.states fsm.curState).skipMaxLen - 1)) ∧
      (fsm.isEOF = false → (fsm.states fsm.curState).skipMaxLen = 0 →
        k = fsm.window.length) ∧
      (∀ ns ∈ (fsm.states fsm.curState).NextStates,
        ns.footprint ≤ (fsm.states fsm.curState).skipMaxLen) ∧
      ((fsm.states fsm.curState).NextStates ≠ [] →
        ∃ ns ∈ (fsm.states fsm.curState).NextStates,
          ns.footprint = (fsm.states fsm.curState).skipMaxLen) ∧
      ((∀ ns ∈ (fsm.states fsm.curState).NextStates, ns.Switch.Trigger ≠ []) →
        (fsm.states fsm.curState).NextStates ≠ [] →
        0 < (fsm.states fsm.curState).skipMaxLen) := by
  obtain ⟨m, hm, _, hmv⟩ := matchPhase_miss fsm htop hsel
  have hp : m.view.pos = fsm.ghostPos + fsm.skipLen := by rw [hmv]
  have hk := (matchPhase_consumed fsm m _ hm rfl _ hp).2
  have hf := matchPhase_frame fsm (fsm.states fsm.curState)
  rw [hm] at hf
  simp only [Outcome.fsm] at hf
  have hmax := skipMaxLen_max (fsm.states fsm.curState)
  have hw : m.view.win = fsm.window.drop fsm.skipLen := by rw [hmv]
  have hc : m.view.curState = fsm.curState := by rw [hmv]; rfl
  have hd1 : m.view.deferredBuf = (if fsm.hasHandler = true
      then fsm.deferredBuf ++ fsm.window.take fsm.skipLen else fsm.deferredBuf) := by rw [hmv]
  have hd2 : m.view.dst = (if fsm.hasHandler = true
      then fsm.dst else fsm.dst ++ fsm.window.take fsm.skipLen) := by rw [hmv]
  refine ⟨m, fsm.skipLen, hm, ?_, hf.2.1, hf.1, hc, ?_, ?_, hw, ?_, ?_, ?_,
    hmax.1, hmax.2.1, hmax.2.2.2⟩
  · rw [hk, htop.1, Nat.zero_add]
  · rw [writeOutBuf_eq]
    have : m.deferredBuf = m.view.deferredBuf := rfl
    rw [this, hd1]
    split <;> rfl
  · rw [writeOutBuf_eq]
    have : m.dst = m.view.dst := rfl
    rw [this, hd2]
    split <;> rfl
  · intro h
    unfold FSM.skipLen
    rcases h with h | h
    · simp [h]
    · simp [hmax.2.2.1 h]
  · intro h1 h2
    have hw' : m.window = fsm.window.drop fsm.skipLen := hw
    rw [hw']
    unfold FSM.skipLen
    simp only [h1, h2, gt_iff_lt, and_self, if_true, List.length_drop]
    omega
  · intro h1 h2
    unfold FSM.skipLen
    simp [h2]

theorem FSM.no_match_consumption_witness :
    missEngine.LoopTop ∧ missEngine.select.1 < 0 ∧
    ∃ (m : FSM) (k : Nat),
      missEngine.matchPhase (missEngine.states missEngine.curState) = .again m ∧
      m.src0 = missEngine.src0 + k ∧ m.src1 = missEngine.src1 ∧ m.src = missEngine.src ∧
      m.curState = missEngine.curState ∧
      (missEngine.writeOutBuf (missEngine.window.take k)).1.deferredBuf = m.deferredBuf ∧
      (missEngine.writeOutBuf (missEngine.window.take k)).1.dst = m.dst ∧
      m.window = missEngine.window.drop k ∧
      (missEngine.isEOF = true ∨ (missEngine.states missEngine.curState).NextStates = [] →
        k = missEngine.window.length) ∧
      (missEngine.isEOF = false → 0 < (missEngine.states missEngine.curState).skipMaxLen →
        (k : Int) = max 0 ((missEngine.window.length : Int)
          - (((missEngine.states missEngine.curState).skipMaxLen : Int) - 1)) ∧
        m.window.length = min missEngine.window.length
          ((missEngine.states missEngine.curState).skipMaxLen - 1)) ∧
      (missEngine.isEOF = false → (missEngine.states missEngine.curState).skipMaxLen = 0 →
        k = missEngine.window.length) ∧
      (∀ ns ∈ (missEngine.states missEngine.curState).NextStates,
        ns.footprint ≤ (missEngine.states missEngine.curState).skipMaxLen) ∧
      ((missEngine.states missEngine.curState).NextStates ≠ [] →
        ∃ ns ∈ (missEngine.states missEngine.curState).NextStates,
          ns.footprint = (missEngine.states missEngine.curState).skipMaxLen) ∧
      ((∀ ns ∈ (missEngine.states missEngine.curState).NextStates,
          ns.Switch.Trigger ≠ []) →
        (missEngine.states missEngine.curState).NextStates ≠ [] →
        0 < (missEngine.states missEngine.curState).skipMaxLen) :=
  ⟨⟨by decide!, by decide!⟩, by decide!,
    FSM.no_match_consumption missEngine ⟨by decide!, by decide!⟩ (by decide!)⟩

/-! ## The right delimiter at the end of the window -/

theorem index_least (s : Switch) (hT : s.Trigger ≠ []) (buf prevSrc : List Byte)
    (prevEscs : Int) (isEOF : Bool) :
    (s.index buf prevSrc prevEscs isEOF = -1 ∧
      ∀ j, ¬ s.Qualifies buf prevSrc prevEscs isEOF j) ∨
    (∃ i : Nat, s.index buf prevSrc prevEscs isEOF = (i : Int) ∧
      s.Qualifies buf prevSrc prevEscs isEOF i ∧
      ∀ j < i, ¬ s.Qualifies buf prevSrc prevEscs isEOF j) :=
  indexLoop_spec s hT buf prevSrc prevEscs isEOF buf.length 0 (by omega)
    (by intro j hj; omega)

theorem index_not_at_end (s : Switch) (buf prevSrc : List Byte) (prevEscs : Int) (i : Nat)
    (hR : s.Delimiters.R ≠ []) (hend : i + s.Trigger.length = buf.length) :
    s.index buf prevSrc prevEscs false ≠ (i : Int) := by
  intro h
  obtain ⟨hi, _, hp⟩ := index_passes s buf prevSrc prevEscs false i h
  have hr := ((passes_iff s buf prevSrc prevEscs false i hi).mp hp).2.1 hR
  rcases hr with ⟨_, h2⟩ | ⟨c, hc, _⟩
  · cases h2
  · rw [hend] at hc
    simp at hc

/-- C19. Right delimiter at the window end, for every switch with a non-empty
right delimiter set. While `isEOF` is false an occurrence of the trigger that
ends exactly at the end of the window is never returned by `Switch.index`, and
when the scan gets to it (no earlier offset qualifies, the trigger being
non-empty) the result is `-1`. When `isEOF` is true such an occurrence
satisfies the right-delimiter condition, so if the other configured checks
pass at it the result is an offset not after it, and the occurrence itself
when no earlier offset qualifies. A returned occurrence that ends before the
window end has the byte after it in the right set. With trigger `#` and right
set `{' '}`: the window `a#` yields `-1` while `isEOF` is false and `1` when
it is true, `a# b` yields `1` and `a#b` yields `-1`. -/
theorem Switch.index_right_delimiter :
    (∀ (s : Switch) (buf prevSrc : List Byte) (prevEscs : Int) (i : Nat),
      s.Delimiters.R ≠ [] → i + s.Trigger.length = buf.length →
      s.index buf prevSrc prevEscs false ≠ (i : Int)) ∧
    (∀ (s : Switch) (buf prevSrc : List Byte) (prevEscs : Int) (i : Nat),
      s.Trigger ≠ [] → s.Delimiters.R ≠ [] → i + s.Trigger.length = buf.length →
      (∀ j < i, ¬ s.Qualifies buf prevSrc prevEscs false j) →
      s.index buf prevSrc prevEscs false = -1) ∧
    (∀ (s : Switch) (buf prevSrc : List Byte) (prevEscs : Int) (i : Nat),
      s.Trigger ≠ [] → s.Delimiters.R ≠ [] → OccursAt s.Trigger buf i →
      i + s.Trigger.length = buf.length →
      (s.Delimiters.L ≠ [] → LeftDelimOk s.Delimiters.L buf prevSrc i) →
      (s.Escape = true → EscapeOk buf prevEscs i) →
      RightDelimOk s.Delimiters.R s.Trigger buf true i ∧
      (∃ j : Nat, j ≤ i ∧ s.index buf prevSrc prevEscs true = (j : Int)) ∧
      ((∀ j < i, ¬ s.Qualifies buf prevSrc prevEscs true j) →
        s.index buf prevSrc prevEscs true = (i : Int))) ∧
    (∀ (s : Switch) (buf prevSrc : List Byte) (prevEscs : Int) (isEOF : Bool) (i : Nat),
      s.Delimiters.R ≠ [] → s.index buf prevSrc prevEscs isEOF = (i : Int) →
      i + s.Trigger.length ≠ buf.length →
      ∃ c, buf[i + s.Trigger.length]? = some c ∧ c ∈ s.Delimiters.R) ∧
    (Switch.mk [35] ⟨[], [32]⟩ false).index [97, 35] [] 0 false = -1 ∧
    (Switch.mk [35] ⟨[], [32]⟩ false).index [97, 35] [] 0 true = 1 ∧
    (Switch.mk [35] ⟨[], [32]⟩ false).index [97, 35, 32, 98] [] 0 false = 1 ∧
    (Switch.mk [35] ⟨[], [32]⟩ false).index [97, 35, 98] [] 0 false = -1 ∧
    (Switch.mk [35] ⟨[], [32]⟩ false).index [97, 35, 98] [] 0 true = -1 := by
  refine ⟨index_not_at_end, ?_, ?_, ?_, by decide, by decide, by decide, by decide, by decide⟩
  · intro s buf prevSrc prevEscs i hT hR hend hnone
    rcases index_least s hT buf prevSrc prevEscs false with ⟨h, _⟩ | ⟨i', h, hq, _⟩
    · exact h
    · have hb := occursAt_bound hT hq.1
      rcases Nat.lt_trichotomy i' i with hlt | heq | hgt
      · exact absurd hq (hnone i' hlt)
      · subst heq
        exact absurd h (index_not_at_end s buf prevSrc prevEscs i' hR hend)
      · omega
  · intro s buf prevSrc prevEscs i hT hR hocc hend hL hE
    have hr : RightDelimOk s.Delimiters.R s.Trigger buf true i := Or.inl ⟨hend, rfl⟩
    have hq : s.Qualifies buf prevSrc prevEscs true i := ⟨hocc, hL, fun _ => hr, hE⟩
    rcases index_least s hT buf prevSrc prevEscs true with ⟨_, h⟩ | ⟨i', h, _, hleast⟩
    · exact absurd hq (h i)
    · have hle : i' ≤ i := by
        by_contra hc
        exact hleast i (by omega) hq
      refine ⟨hr, ⟨i', hle, h⟩, ?_⟩
      intro hnone
      rcases Nat.lt_or_eq_of_le hle with hlt | heq
      · rcases index_least s hT buf prevSrc prevEscs true with ⟨_, h2⟩ | ⟨i2, h2, hq2, _⟩
        · exact absurd hq (h2 i)
        · rw [h] at h2
          have : i' = i2 := by omega
          subst this
          exact absurd hq2 (hnone i' hlt)
      · rw [← heq]; exact h
  · intro s buf prevSrc prevEscs isEOF i hR h hne
    obtain ⟨hi, _, hp⟩ := index_passes s buf prevSrc prevEscs isEOF i h
    have hr := ((passes_iff s buf prevSrc prevEscs isEOF i hi).mp hp).2.1 hR
    rcases hr with ⟨h1, _⟩ | hc
    · exact absurd h1 hne
    · exact hc

theorem Switch.index_right_delimiter_witness :
    (Switch.mk [35] ⟨[], [32]⟩ false).Delimiters.R ≠ [] ∧
    1 + (Switch.mk [35] ⟨[], [32]⟩ false).Trigger.length = [97, 35].length ∧
    (Switch.mk [35] ⟨[], [32]⟩ false).index [97, 35] [] 0 false ≠ ((1 : Nat) : Int) :=
  ⟨by decide, by decide,
    Switch.index_right_delimiter.1 (Switch.mk [35] ⟨[], [32]⟩ false) [97, 35] [] 0 1
      (by decide) (by decide)⟩

/-! ## The built-in handlers -/

/-- C12 (the code falls short). `DataHandlerGenericSkipDeferred`, documented as
the handler that skips the deferred data, returns the deferred bytes: for every
context, deferred bytes and token its result is `(deferred, nil)`, the very
result of `DataHandlerGenericSkipToken`; on deferred `ab` and token `$` it
returns `ab`, which carries the deferred bytes and is not the token. -/
theorem skipDeferred_returns_deferred :
    (∀ (ctx : UserCtx) (deferred token : List Byte),
      DataHandlerGenericSkipDeferred ctx deferred token = (deferred, none)) ∧
    (∀ (ctx : UserCtx) (deferred token : List Byte),
      DataHandlerGenericSkipDeferred ctx deferred token =
        DataHandlerGenericSkipToken ctx deferred token) ∧
    DataHandlerGenericSkipDeferred 0 [97, 98] [36] = ([97, 98], none) ∧
    DataHandlerGenericSkipToken 0 [97, 98] [36] = ([97, 98], none) ∧
    (DataHandlerGenericSkipDeferred 0 [97, 98] [36]).1 ≠ [36] :=
  ⟨fun _ _ _ => rfl, fun _ _ _ => rfl, rfl, rfl, by decide⟩

/-! ## The drain step -/

/-- C20. Drain step is a pure flush: if the output buffer is not empty when the
engine loop is entered with a destination of `dstLen` bytes, the call returns
the first `min(dstLen, output length)` bytes of the output buffer with a nil
error; the output buffer keeps the remaining bytes in order; the current
state, the window (`src`, `src0`, `src1`), the deferred buffer, the carried
tail byte, the carried escape count and `isEOF` are unchanged, and the source
has not been read. -/
theorem FSM.read_drain (fsm : FSM) (dstLen fuel : Nat) (h : fsm.dst ≠ []) :
    ∃ p f, fsm.read dstLen (fuel + 1) = some (p, none, f) ∧
      p.length = min dstLen fsm.dst.length ∧ p = fsm.dst.take p.length ∧
      f.dst = fsm.dst.drop p.length ∧ fsm.dst = p ++ f.dst ∧
      f.curState = fsm.curState ∧ f.src = fsm.src ∧ f.src0 = fsm.src0 ∧ f.src1 = fsm.src1 ∧
      f.deferredBuf = fsm.deferredBuf ∧ f.prevSrc = fsm.prevSrc ∧ f.prevSrcL = fsm.prevSrcL ∧
      f.prevEscs = fsm.prevEscs ∧ f.isEOF = fsm.isEOF ∧ f.r = fsm.r ∧
      f.states = fsm.states ∧ f.userCtx = fsm.userCtx ∧
      f.ghostPos = fsm.ghostPos ∧ f.ghostLog = fsm.ghostLog := by
  refine ⟨fsm.dst.take dstLen, { fsm with dst := fsm.dst.drop dstLen }, ?_, ?_, ?_, ?_, ?_,
    rfl, rfl, rfl, rfl, rfl, rfl, rfl, rfl, rfl, rfl, rfl, rfl, rfl, rfl⟩
  · simp only [FSM.read, iter_drain fsm dstLen h]
  · simp only [List.length_take]
  · simp only [List.length_take]
    by_cases hc : dstLen ≤ fsm.dst.length
    · rw [Nat.min_eq_left hc]
    · rw [Nat.min_eq_right (by omega), List.take_of_length_le (by omega),
        List.take_of_length_le (by omega)]
  · simp only [List.length_take]
    by_cases hc : dstLen ≤ fsm.dst.length
    · rw [Nat.min_eq_left hc]
    · rw [Nat.min_eq_right (by omega), List.drop_of_length_le (by omega),
        List.drop_of_length_le (by omega)]
  · simp only [List.take_append_drop]

theorem FSM.read_drain_witness :
    drainEngine.dst ≠ [] ∧
    ∃ p f, drainEngine.read 2 (0 + 1) = some (p, none, f) ∧
      p.length = min 2 drainEngine.dst.length ∧ p = drainEngine.dst.take p.length ∧
      f.dst = drainEngine.dst.drop p.length ∧ drainEngine.dst = p ++ f.dst ∧
      f.curState = drainEngine.curState ∧ f.src = drainEngine.src ∧
      f.src0 = drainEngine.src0 ∧ f.src1 = drainEngine.src1 ∧
      f.deferredBuf = drainEngine.deferredBuf ∧ f.prevSrc = drainEngine.prevSrc ∧
      f.prevSrcL = drainEngine.prevSrcL ∧ f.prevEscs = drainEngine.prevEscs ∧
      f.isEOF = drainEngine.isEOF ∧ f.r = drainEngine.r ∧
      f.states = drainEngine.states ∧ f.userCtx = drainEngine.userCtx ∧
      f.ghostPos = drainEngine.ghostPos ∧ f.ghostLog = drainEngine.ghostLog :=
  ⟨by decide!, FSM.read_drain drainEngine 2 0 (by decide!)⟩

/-! ## Several transitions in one state -/

/-- C16 (the code falls short). State `A` has the transitions on `abc` and on
`b`, without delimiters and escape. In the stream `abc` the earliest match is
`abc` at offset 0, and delivered in one read that transition fires: the
handler drops the trigger and the output is empty. Delivered as `ab` then `c`
the matcher is called on the window `ab`, where only `b` occurs: the
transition on `b` fires at offset 1 and the output is `abc`. -/
theorem selection_depends_on_chunking :
    ((longShortTable.States "A").index [97, 98, 99] [] 0 true).1 = 0 ∧
    ((longShortTable.States "A").index [97, 98, 99] [] 0 true).2.Name = "L" ∧
    ((longShortTable.States "A").index [97, 98] [] 0 false).1 = 1 ∧
    ((longShortTable.States "A").index [97, 98] [] 0 false).2.Name = "S" ∧
    (FSM.after 8 1 (Init (chunked [[97, 98], [99]]) longShortTable)).window = [97, 98] ∧
    FSM.observe (FSM.readAll 8 12 (Init (chunked [[97, 98], [99]]) longShortTable) [])
      = some ([97, 98, 99], GoError.EOF, [Fired.mk 1 "S" [98] none]) ∧
    FSM.observe (FSM.readAll 8 12 (Init (chunked [[97, 98, 99]]) longShortTable) [])
      = some ([], GoError.EOF, [Fired.mk 0 "L" [97, 98, 99] (some [])]) := by
  decide!

/-! ## Bytes that arrive together with the end of the stream -/

theorem init_compact (r : Reader) (desc : Description) :
    (Init r desc).compact = Init r desc := by
  unfold FSM.compact
  have : ¬ (Init r desc).src0 > 0 := Nat.lt_irrefl 0
  rw [if_neg this]

theorem first_read_with_eof (desc : Description) (bs : List Byte) (d : Nat)
    (hlen : bs.length ≤ 4096) :
    ∃ f, FSM.readAll d 1 (Init [ReadEvent.dataEOF bs] desc) [] = some ([], GoError.EOF, f) ∧
      f.window = [] ∧ f.dst = [] ∧ f.deferredBuf = [] ∧ f.ghostLog = [] ∧ f.r = [] := by
  have htop := Init_loopTop [ReadEvent.dataEOF bs] desc
  have hread : Reader.Read (Init [ReadEvent.dataEOF bs] desc).r
      ((Init [ReadEvent.dataEOF bs] desc).src.length - (Init [ReadEvent.dataEOF bs] desc).src1)
      = (bs, some GoError.EOF, []) := by
    simp only [Init, List.length_replicate, Nat.sub_zero, Reader.Read, hlen, if_true]
  have hw : (Init [ReadEvent.dataEOF bs] desc).window = [] := by
    simp only [FSM.window, Init, slice, List.take_zero, List.drop_nil]
  obtain ⟨g, hg, _, hgv⟩ := pull_eof_done _ htop bs [] hread hw rfl rfl
  have hiter : (Init [ReadEvent.dataEOF bs] desc).iter d = .ret [] (some GoError.EOF) g := by
    rw [iter_of_empty (Init [ReadEvent.dataEOF bs] desc) d rfl (Nat.lt_irrefl 0), init_compact]
    exact hg
  refine ⟨g, ?_, ?_, ?_, ?_, ?_, ?_⟩
  · simp only [FSM.readAll, hiter, List.append_nil]
  · have : g.view.win = [] := by rw [hgv]; exact hw
    exact this
  · have : g.view.dst = [] := by rw [hgv]; rfl
    exact this
  · have : g.view.deferredBuf = [] := by rw [hgv]; rfl
    exact this
  · have : g.view.log = [] := by rw [hgv]; rfl
    exact this
  · have : g.view.r = [] := by rw [hgv]
    exact this

/-- C17 (the code falls short). On `io.EOF` the loop tests for the end of the
session before it admits the `n` bytes that came with it: when the window and
the output buffer are empty, `return 0, io.EOF` runs and `fsm.src1 += n` does
not. For every table and every input of at most 4096 bytes that the source
returns together with `io.EOF` in its first `Read`, the first call returns 0
bytes and `io.EOF`, with nothing matched and nothing left in the window or the
buffers; with the table without transitions and the input `abc` the output is
empty, while the same input delivered with a nil error comes out unchanged. -/
theorem bytes_with_eof_lost :
    (∀ (desc : Description) (bs : List Byte) (d : Nat), bs.length ≤ 4096 →
      ∃ f, FSM.readAll d 1 (Init [ReadEvent.dataEOF bs] desc) [] = some ([], GoError.EOF, f) ∧
        f.window = [] ∧ f.dst = [] ∧ f.deferredBuf = [] ∧ f.ghostLog = [] ∧ f.r = []) ∧
    FSM.observe (FSM.readAll 8 1 (Init [ReadEvent.dataEOF [97, 98, 99]] emptyTable) [])
      = some ([], GoError.EOF, []) ∧
    FSM.observe (FSM.readAll 8 8 (Init (chunked [[97, 98, 99]]) emptyTable) [])
      = some ([97, 98, 99], GoError.EOF, []) :=
  ⟨first_read_with_eof, by decide!, by decide!⟩

end Fsm
